import Mathlib

/-!
# Theater showtimes: normalisation, validation and merge

A shallow embedding of the Go sources of the showtime pipeline
(`internal/scrapers/cinemagic_theater`, `internal/scrapers/clinton_street_theater`,
`internal/storage`, `internal/models`, `internal/tmdb`, `internal/api`,
`cmd/scraper`) together with the parts of the Go standard library they call
(`strings`, `strconv`, `fmt`, `time`, `regexp` on a few fixed patterns).

Conventions of the embedding.

* A Go `string` is modelled by the list of its runes (`Str`); only valid UTF-8
  text is covered. Byte-level operations (`len`, `s[i]`) go through the UTF-8
  encoding (`utf8`), so they agree with Go on non-ASCII text as well.
* `time.Time` values are only ever built at midnight or within one day here and
  are compared through their civil fields; the location is taken to have a
  fixed offset from UTC, so that two local midnights are ordered like their
  calendar dates.
* The clock (`time.Now()`) is an explicit argument.
* The external movie service is an explicit environment (`Env`): the outcome of
  each search is whatever the environment says, and the searches made are
  recorded.
* A file of the data directory is missing, unreadable, or holds a decoded value
  (`File`).
-/

namespace TheaterShowtimes

/-! ## Strings -/

/-- A Go string holding valid UTF-8 text, as the sequence of its runes. -/
abbrev Str := List Char

/-- The UTF-8 encoding of one rune, as byte values. -/
def runeBytes (c : Char) : List Nat :=
  let v := c.toNat
  if v < 0x80 then [v]
  else if v < 0x800 then [0xC0 + v / 0x40, 0x80 + v % 0x40]
  else if v < 0x10000 then [0xE0 + v / 0x1000, 0x80 + v / 0x40 % 0x40, 0x80 + v % 0x40]
  else [0xF0 + v / 0x40000, 0x80 + v / 0x1000 % 0x40, 0x80 + v / 0x40 % 0x40, 0x80 + v % 0x40]

/-- The bytes of a Go string. -/
def utf8 : Str → List Nat
  | [] => []
  | c :: cs => runeBytes c ++ utf8 cs

/-- Go `len(s)`: the number of bytes. -/
def len (s : Str) : Nat := (utf8 s).length

/-- Go `s[i] == b` for an in-range or out-of-range byte index `i`
(out of range never holds; every use in the sources is guarded by `len`). -/
def byteIs (s : Str) (i : Nat) (b : Char) : Bool := (utf8 s).get? i == some b.toNat

/-- Go `unicode.IsSpace`: the runes with the Unicode White_Space property. -/
def isSpace (c : Char) : Bool :=
  let v := c.toNat
  (0x09 ≤ v && v ≤ 0x0D) || v == 0x20 || v == 0x85 || v == 0xA0 || v == 0x1680 ||
    (0x2000 ≤ v && v ≤ 0x200A) || v == 0x2028 || v == 0x2029 || v == 0x202F ||
    v == 0x205F || v == 0x3000

/-- Go `strings.TrimSpace`: leading and trailing white space removed. -/
def TrimSpace (s : Str) : Str :=
  ((s.dropWhile isSpace).reverse.dropWhile isSpace).reverse

/-- The rune-wise lower-casing `unicode.ToLower`. On ASCII the Go source fixes it
(`A`..`Z` are shifted by 32, every other ASCII rune is unchanged); outside ASCII
it reads the Unicode case tables of the toolchain, which are kept abstract here
apart from the fact that white space has no case. -/
structure CaseTable where
  /-- The image of a rune under `unicode.ToLower`. -/
  lower : Char → Char
  /-- The ASCII fast path of `unicode.ToLower`. -/
  lower_ascii : ∀ c : Char, c.toNat < 128 → lower c = c.toLower
  /-- White space is not cased. -/
  lower_space : ∀ c : Char, isSpace c = true → lower c = c

/-- Go `strings.ToLower`: every rune mapped through `unicode.ToLower`. -/
def ToLower (U : CaseTable) (s : Str) : Str := s.map U.lower

/-- Go `strings.HasPrefix`. -/
def HasPrefix : Str → Str → Bool
  | _, [] => true
  | [], _ :: _ => false
  | c :: cs, p :: ps => c == p && HasPrefix cs ps

/-- Go `strings.Index`, as the number of runes before the first occurrence
(`none` for Go's `-1`). The Go result counts bytes; it is positive exactly when
the rune count is, and slicing `s[:idx]` keeps exactly that many runes. -/
def Index : Str → Str → Option Nat
  | [], sub => if sub.isEmpty then some 0 else none
  | c :: cs, sub =>
    if HasPrefix (c :: cs) sub then some 0
    else (Index cs sub).map (· + 1)

/-- Go `strings.Contains`. -/
def Contains (s sub : Str) : Bool := (Index s sub).isSome

/-- Go `strings.ReplaceAll(s, old, "")` for a one-byte `old`: every occurrence
of that byte is removed. -/
def removeAll (s : Str) (old : Char) : Str := s.filter (fun c => c != old)

/-! ## Data model (`internal/models`) -/

/-- The record `models.Showtime`. `Price` is a `float64` in the source; no
modelled operation reads it, so it is carried as its 64-bit pattern. -/
structure Showtime where
  ID : Str
  TheaterID : Str
  MovieTitle : Str
  TMDBID : Int
  Date : Str
  Time : Str
  Format : Str
  Price : Nat
  Link : Str
  Screen : Str
  deriving DecidableEq, Repr

/-! ## Storage (`internal/storage`) -/

/-- What a path of the data directory holds: nothing (`os.IsNotExist`), a file
that cannot be opened or decoded, or the JSON encoding of a value. -/
inductive File (α : Type) where
  | missing : File α
  | unreadable : File α
  | holds (v : α) : File α
  deriving DecidableEq, Repr

/-- The data directory, as far as the showtime operations touch it. `writable`
says whether `os.Create` succeeds on its paths. -/
structure Storage where
  writable : Bool
  showtimes : File (List Showtime)
  deriving DecidableEq, Repr

/-- The helper `readJSON`: a missing file is no error and leaves `data` as it
was; any other failure is an error. -/
def readJSON {α : Type} (f : File α) (data : α) : Except String α :=
  match f with
  | .missing => .ok data
  | .unreadable => .error "failed to read JSON"
  | .holds v => .ok v

/-- The helper `writeJSON` on the showtimes path. -/
def writeShowtimes (s : Storage) (data : List Showtime) : Except String Storage :=
  if s.writable then .ok { s with showtimes := .holds data }
  else .error "failed to create file"

/-- The method `SaveShowtimes`. -/
def SaveShowtimes (s : Storage) (showtimes : List Showtime) : Except String Storage :=
  writeShowtimes s showtimes

/-- The method `LoadShowtimes`; the nil slice it starts from is the empty list. -/
def LoadShowtimes (s : Storage) : Except String (List Showtime) :=
  readJSON s.showtimes []

/-- Modelled from the spec: the method `ReplaceTheaterShowtimes`, which the
storage tests call and whose body is not among the sources. Following the
contract of the dataset merger, it reads the stored list (no file being the
empty dataset, a read failure being fatal), removes every showtime of
`theaterID`, keeps the others in their order, inserts `newShowtimes`, and writes
the result back. -/
def ReplaceTheaterShowtimes (s : Storage) (theaterID : Str) (newShowtimes : List Showtime) :
    Except String Storage :=
  match readJSON s.showtimes [] with
  | .error e => .error e
  | .ok existing =>
    writeShowtimes s (existing.filter (fun st => st.TheaterID != theaterID) ++ newShowtimes)

/-! ## The `time` package, as far as the scrapers use it -/

namespace time

/-- A `time.Time` given by the civil fields it was built from with `time.Date`
(seconds and nanoseconds are zero throughout). The instant it denotes is
`Time.abs`; when the fields form a calendar date and a clock time they are also
what `Year()`, `Month()`, `Day()` and `Format` read back. -/
structure Time where
  year : Int
  month : Int
  day : Int
  hour : Int
  min : Int
  deriving DecidableEq, Repr

/-- Go `isLeap`. -/
def isLeap (year : Int) : Bool := year % 4 == 0 && (year % 100 != 0 || year % 400 == 0)

/-- Go `daysBefore[m]`: the days of a non-leap year before month `m + 1`. -/
def daysBefore (m : Int) : Int :=
  match m with
  | 0 => 0
  | 1 => 31
  | 2 => 59
  | 3 => 90
  | 4 => 120
  | 5 => 151
  | 6 => 181
  | 7 => 212
  | 8 => 243
  | 9 => 273
  | 10 => 304
  | 11 => 334
  | _ => 365

/-- Go `daysIn(month, year)`. -/
def daysIn (month year : Int) : Int :=
  if month == 2 && isLeap year then 29
  else daysBefore month - daysBefore (month - 1)

/-- Go `daysSinceEpoch`, counted from 1 January of year 1 instead of the
internal epoch (a constant shift): the days before 1 January of `year`. -/
def daysSinceEpoch (year : Int) : Int :=
  let y := year - 1
  365 * y + y / 4 - y / 100 + y / 400

/-- The day number `time.Date` computes: the month is normalised into the year,
then the days before the year, before the month, the leap day and `day - 1` are
added; `day` itself may overflow the month. -/
def absDays (year month day : Int) : Int :=
  let m := (month - 1) % 12
  let y := year + (month - 1) / 12
  daysSinceEpoch y + daysBefore m + (if isLeap y && m ≥ 2 then 1 else 0) + (day - 1)

/-- The instant of a `Time`, in seconds, for a location with a fixed offset. -/
def Time.abs (t : Time) : Int :=
  absDays t.year t.month t.day * 86400 + t.hour * 3600 + t.min * 60

/-- Go `t.Before(u)`. -/
def Time.Before (t u : Time) : Bool := t.abs < u.abs

/-- Go `t.After(u)`. -/
def Time.After (t u : Time) : Bool := t.abs > u.abs

/-- Go `time.Date(year, month, day, hour, min, 0, 0, loc)`. -/
def Date (year month day hour min : Int) : Time := ⟨year, month, day, hour, min⟩

/-- Go `t.AddDate(years, months, days)`, for a `t` whose fields form a calendar
date: `Date(year+years, month+months, day+days, ...)`. -/
def Time.AddDate (t : Time) (years months days : Int) : Time :=
  Date (t.year + years) (t.month + months) (t.day + days) t.hour t.min

/-- The reading of `time.Now()`: the local calendar date of the current
instant. -/
structure Clock where
  year : Int
  month : Int
  day : Int
  valid : 1 ≤ month ∧ month ≤ 12 ∧ 1 ≤ day ∧ day ≤ daysIn month year

/-- The layout elements (`std...` constants of `format.go`) that occur in the
layouts of the scrapers. -/
inductive Std where
  | stdLongMonth
  | stdMonth
  | stdNumMonth
  | stdZeroMonth
  | stdLongWeekDay
  | stdDay
  | stdZeroDay
  | stdHour
  | stdHour12
  | stdZeroMinute
  | stdLongYear
  | stdPM
  | stdpm
  deriving DecidableEq, Repr

/-- A layout as `nextStdChunk` cuts it: each element with the literal text that
precedes it. None of the layouts used has literal text after its last
element. -/
abbrev Layout := List (Str × Std)

/-- The layout `"2006-01-02"`. -/
def layoutISO : Layout :=
  [([], .stdLongYear), (['-'], .stdZeroMonth), (['-'], .stdZeroDay)]

/-- The layout `"01/02/2006"`. -/
def layoutSlashZero : Layout :=
  [([], .stdZeroMonth), (['/'], .stdZeroDay), (['/'], .stdLongYear)]

/-- The layout `"1/2/2006"`. -/
def layoutSlash : Layout :=
  [([], .stdNumMonth), (['/'], .stdDay), (['/'], .stdLongYear)]

/-- The layout `"January 2, 2006"`. -/
def layoutLongMonth : Layout :=
  [([], .stdLongMonth), ([' '], .stdDay), ([',', ' '], .stdLongYear)]

/-- The layout `"Jan 2, 2006"`. -/
def layoutMonth : Layout :=
  [([], .stdMonth), ([' '], .stdDay), ([',', ' '], .stdLongYear)]

/-- The layout `"Monday, January 2, 2006"`. -/
def layoutWeekDay : Layout :=
  [([], .stdLongWeekDay), ([',', ' '], .stdLongMonth), ([' '], .stdDay),
    ([',', ' '], .stdLongYear)]

/-- The layout `"3:04 PM"`. -/
def layoutKitchenSpace : Layout :=
  [([], .stdHour12), ([':'], .stdZeroMinute), ([' '], .stdPM)]

/-- The layout `"3:04PM"`. -/
def layoutKitchen : Layout :=
  [([], .stdHour12), ([':'], .stdZeroMinute), ([], .stdPM)]

/-- The layout `"15:04"`. -/
def layoutClock : Layout :=
  [([], .stdHour), ([':'], .stdZeroMinute)]

/-- The layout `"3:04 pm"`. -/
def layoutKitchenLower : Layout :=
  [([], .stdHour12), ([':'], .stdZeroMinute), ([' '], .stdpm)]

/-- Go `longMonthNames`. -/
def longMonthNames : List Str :=
  ["January".toList, "February".toList, "March".toList, "April".toList, "May".toList,
    "June".toList, "July".toList, "August".toList, "September".toList, "October".toList,
    "November".toList, "December".toList]

/-- Go `shortMonthNames`. -/
def shortMonthNames : List Str :=
  ["Jan".toList, "Feb".toList, "Mar".toList, "Apr".toList, "May".toList, "Jun".toList,
    "Jul".toList, "Aug".toList, "Sep".toList, "Oct".toList, "Nov".toList, "Dec".toList]

/-- Go `longDayNames`. -/
def longDayNames : List Str :=
  ["Sunday".toList, "Monday".toList, "Tuesday".toList, "Wednesday".toList,
    "Thursday".toList, "Friday".toList, "Saturday".toList]

/-- Whether a rune is an ASCII decimal digit (`isDigit` of `format.go`). -/
def isDigit (c : Char) : Bool := 48 ≤ c.toNat && c.toNat ≤ 57

/-- The value `c - '0'` of a digit. -/
def digitVal (c : Char) : Int := (c.toNat - 48 : Nat)

/-- Go `getnum`: one or two digits (exactly two when `fixed`). -/
def getnum (s : Str) (fixed : Bool) : Option (Int × Str) :=
  match s with
  | [] => none
  | c0 :: rest =>
    if !isDigit c0 then none
    else
      match rest with
      | [] => if fixed then none else some (digitVal c0, rest)
      | c1 :: rest2 =>
        if !isDigit c1 then (if fixed then none else some (digitVal c0, rest))
        else some (digitVal c0 * 10 + digitVal c1, rest2)

/-- Go `cutspace`: leading blanks removed. -/
def cutspace (s : Str) : Str := s.dropWhile (fun c => c == ' ')

/-- Go `skip(value, prefix)`: the literal `prefix` is consumed from `value`; a
run of blanks of the prefix stands for any run of blanks of the value, and may
also meet its end. `cut` is set while the rest of such a run of the prefix is
being dropped (Go drops it in one `cutspace`). -/
def skipFrom : Str → Str → Bool → Option Str
  | value, [], _ => some value
  | value, p :: ps, cut =>
    if p == ' ' then
      if cut then skipFrom value ps true
      else
        match value with
        | [] => skipFrom [] ps true
        | v :: vs => if v != ' ' then none else skipFrom (cutspace (v :: vs)) ps true
    else
      match value with
      | [] => none
      | v :: vs => if v != p then none else skipFrom vs ps false

/-- Go `skip`. -/
def skip (value pre : Str) : Option Str := skipFrom value pre false

/-- Go `match` on one position: equal, or equal letters up to case. -/
def matchFold (c1 c2 : Char) : Bool :=
  c1 == c2 ||
    ((c1.toNat ||| 32) == (c2.toNat ||| 32) && 97 ≤ (c1.toNat ||| 32) && (c1.toNat ||| 32) ≤ 122)

/-- Go `match(s1, s2)` against the leading part of `val`: `v` is a prefix of
`val` up to case; the rest of `val` is returned. -/
def matchHead : Str → Str → Option Str
  | val, [] => some val
  | [], _ :: _ => none
  | c :: cs, v :: vs => if matchFold c v then matchHead cs vs else none

/-- Go `lookup(tab, val)`: the index of the first name of `tab` that starts
`val` up to case, and the rest of `val`. -/
def lookupFrom : List Str → Str → Nat → Option (Int × Str)
  | [], _, _ => none
  | v :: tab, val, i =>
    match matchHead val v with
    | some rest => some ((i : Int), rest)
    | none => lookupFrom tab val (i + 1)

/-- Go `lookup`. -/
def lookup (tab : List Str) (val : Str) : Option (Int × Str) := lookupFrom tab val 0

/-- The variables of `parse` that the layouts at hand can set. -/
structure Fields where
  year : Int
  month : Int
  day : Int
  hour : Int
  min : Int
  pmSet : Bool
  amSet : Bool
  deriving DecidableEq, Repr

/-- The initial values of `parse`. -/
def Fields.init : Fields := ⟨0, -1, -1, 0, 0, false, false⟩

/-- One case of the `switch std & stdMask` of `parse`; `none` is any error
(`errBad` or a range error). -/
def parseStd (std : Std) (f : Fields) (value : Str) : Option (Fields × Str) :=
  match std with
  | .stdLongYear =>
    match value with
    | a :: b :: c :: d :: rest =>
      if isDigit a && isDigit b && isDigit c && isDigit d then
        let y := ((digitVal a * 10 + digitVal b) * 10 + digitVal c) * 10 + digitVal d
        some ({ f with year := y }, rest)
      else none
    | _ => none
  | .stdMonth =>
    match lookup shortMonthNames value with
    | some (i, rest) => some ({ f with month := i + 1 }, rest)
    | none => none
  | .stdLongMonth =>
    match lookup longMonthNames value with
    | some (i, rest) => some ({ f with month := i + 1 }, rest)
    | none => none
  | .stdNumMonth =>
    match getnum value false with
    | some (m, rest) => if m ≤ 0 || 12 < m then none else some ({ f with month := m }, rest)
    | none => none
  | .stdZeroMonth =>
    match getnum value true with
    | some (m, rest) => if m ≤ 0 || 12 < m then none else some ({ f with month := m }, rest)
    | none => none
  | .stdLongWeekDay =>
    match lookup longDayNames value with
    | some (_, rest) => some (f, rest)
    | none => none
  | .stdDay =>
    match getnum value false with
    | some (d, rest) => some ({ f with day := d }, rest)
    | none => none
  | .stdZeroDay =>
    match getnum value true with
    | some (d, rest) => some ({ f with day := d }, rest)
    | none => none
  | .stdHour =>
    match getnum value false with
    | some (h, rest) => if h < 0 || 24 ≤ h then none else some ({ f with hour := h }, rest)
    | none => none
  | .stdHour12 =>
    match getnum value false with
    | some (h, rest) => if h < 0 || 12 < h then none else some ({ f with hour := h }, rest)
    | none => none
  | .stdZeroMinute =>
    match getnum value true with
    | some (m, rest) => if m < 0 || 60 ≤ m then none else some ({ f with min := m }, rest)
    | none => none
  | .stdPM =>
    match value with
    | a :: b :: rest =>
      if a == 'P' && b == 'M' then some ({ f with pmSet := true }, rest)
      else if a == 'A' && b == 'M' then some ({ f with amSet := true }, rest)
      else none
    | _ => none
  | .stdpm =>
    match value with
    | a :: b :: rest =>
      if a == 'p' && b == 'm' then some ({ f with pmSet := true }, rest)
      else if a == 'a' && b == 'm' then some ({ f with amSet := true }, rest)
      else none
    | _ => none

/-- The loop of `parse` over the chunks of the layout; at its end no text of
the value may be left (`extra text`). -/
def parseLoop : Layout → Fields → Str → Option Fields
  | [], f, value => if value.isEmpty then some f else none
  | (pre, std) :: layout, f, value =>
    (skip value pre).bind fun value1 =>
      (parseStd std f value1).bind fun r => parseLoop layout r.1 r.2

/-- What `parse` does after its loop: the 12-hour clock is resolved, a month and
a day that were not parsed default to 1, and the day of the month is
validated. -/
def finish (f : Fields) : Option Time :=
  let hour := if f.pmSet && f.hour < 12 then f.hour + 12
    else if f.amSet && f.hour == 12 then 0 else f.hour
  let month := if f.month < 0 then 1 else f.month
  let day := if f.day < 0 then 1 else f.day
  if day < 1 || day > daysIn month f.year then none
  else some (Date f.year month day hour f.min)

/-- Go `time.Parse(layout, value)` and `time.ParseInLocation(layout, value,
loc)`; `none` stands for a non-nil error. -/
def Parse (layout : Layout) (value : Str) : Option Time :=
  (parseLoop layout Fields.init value).bind finish

/-- The digit `'0' + k`. -/
def digit (k : Nat) : Char := Char.ofNat (48 + k)

/-- Go `appendInt(b, x, width)`: the decimal text of `x`, zero-padded to
`width`, with the two fast paths of the source. -/
def appendInt (x : Int) (width : Nat) : Str :=
  let u := x.natAbs
  (if x < 0 then ['-'] else []) ++
    (if width == 2 && u < 100 then [digit (u / 10), digit (u % 10)]
    else if width == 4 && u < 10000 then
      [digit (u / 100 / 10), digit (u / 100 % 10), digit (u % 100 / 10), digit (u % 100 % 10)]
    else List.replicate (width - (Nat.toDigits 10 u).length) '0' ++ Nat.toDigits 10 u)

/-- Go `t.Format("2006-01-02")`. -/
def Time.FormatISO (t : Time) : Str :=
  appendInt t.year 4 ++ ['-'] ++ appendInt t.month 2 ++ ['-'] ++ appendInt t.day 2

/-- Go `t.Format("15:04")`. -/
def Time.FormatClock (t : Time) : Str :=
  appendInt t.hour 2 ++ [':'] ++ appendInt t.min 2

end time

/-! ## The Cinemagic scraper (`internal/scrapers/cinemagic_theater`) -/

/-- The record `models.Theater`. -/
structure Theater where
  ID : Str
  Name : Str
  Address : Str
  City : Str
  Zip : Str
  Website : Str
  Phone : Str
  deriving DecidableEq, Repr

/-- The type `Scraper` of the Cinemagic package. -/
structure Scraper where
  theater : Theater
  deriving DecidableEq, Repr

/-- The constructor `NewScraper`. -/
def NewScraper : Scraper :=
  { theater :=
    { ID := "cinemagic-theater".toList
      Name := "Cinemagic Theater".toList
      Address := "2021 SE Hawthorne Blvd, Portland, OR 97214".toList
      City := "Portland".toList
      Zip := "97214".toList
      Website := "https://www.thecinemagictheater.com".toList
      Phone := [] } }

/-- The first layout of the list that parses the value, as the `for` loop over
`layouts` finds it. -/
def firstParse : List time.Layout → Str → Option time.Time
  | [], _ => none
  | layout :: layouts, value =>
    match time.Parse layout value with
    | some t => some t
    | none => firstParse layouts value

/-- The method `normalizeDate`. -/
def normalizeDate (dateStr : Str) : Str :=
  if len dateStr == 10 && byteIs dateStr 4 '-' && byteIs dateStr 7 '-' then dateStr
  else
    match firstParse [time.layoutISO, time.layoutSlashZero, time.layoutSlash,
        time.layoutLongMonth, time.layoutMonth, time.layoutWeekDay] dateStr with
    | some t => t.FormatISO
    | none => []

/-- The method `normalizeTime`. -/
def normalizeTime (timeStr0 : Str) : Str :=
  let timeStr := TrimSpace timeStr0
  if len timeStr == 5 && byteIs timeStr 2 ':' then timeStr
  else
    match firstParse [time.layoutKitchenSpace, time.layoutKitchen, time.layoutClock,
        time.layoutKitchenLower] timeStr with
    | some t => t.FormatClock
    | none => []

/-- The method `createShowtime`, with the reading of `time.Now()` as an
argument; `none` is the nil pointer. -/
def createShowtime (s : Scraper) (now : time.Clock) (movieTitle date timeStr format link : Str) :
    Option Showtime :=
  if date.isEmpty || timeStr.isEmpty then none
  else
    match time.Parse time.layoutISO date with
    | none => none
    | some showtimeDate =>
      let today := time.Date now.year now.month now.day 0 0
      let maxDate := today.AddDate 0 3 0
      if showtimeDate.Before today || showtimeDate.After maxDate then none
      else
        some
          { ID := s.theater.ID ++ ['-'] ++ removeAll date '-' ++ ['-'] ++ removeAll timeStr ':'
            TheaterID := s.theater.ID
            MovieTitle := movieTitle
            TMDBID := 0
            Date := date
            Time := timeStr
            Format := format
            Price := 0
            Link := link
            Screen := [] }

/-- The function `normalizeFormat`. -/
def normalizeFormat (U : CaseTable) (raw0 : Str) : Str :=
  let raw := ToLower U (TrimSpace raw0)
  if Contains raw "35".toList || Contains raw "35mm".toList then "35mm".toList
  else if Contains raw "70".toList || Contains raw "70mm".toList then "70mm".toList
  else if Contains raw "imax".toList then "IMAX".toList
  else "digital".toList

/-- The class `\s` of Go regular expressions: `[\t\n\f\r ]`. -/
def reSpace (c : Char) : Bool :=
  c.toNat == 9 || c.toNat == 10 || c.toNat == 12 || c.toNat == 13 || c.toNat == 32

/-- The match of `yearPattern`, the regular expression `\s*\(\d{4}\)`, at the
start of `s`: the number of runes it covers. The greedy `\s*` takes the whole
run of blanks, since no shorter run is followed by `(`. -/
def yearPatternMatch (s : Str) : Option Nat :=
  match s.dropWhile reSpace with
  | p :: a :: b :: c :: d :: q :: _ =>
    if p == '(' && time.isDigit a && time.isDigit b && time.isDigit c && time.isDigit d &&
        q == ')' then some ((s.takeWhile reSpace).length + 6)
    else none
  | _ => none

/-- Go `yearPattern.ReplaceAllString(title, "")`: the leftmost matches, none
overlapping another, are removed. The counter is the number of runes of the
current match that are still to be dropped. -/
def replaceYearFrom : Str → Nat → Str
  | [], _ => []
  | _ :: cs, n + 1 => replaceYearFrom cs n
  | c :: cs, 0 =>
    match yearPatternMatch (c :: cs) with
    | some k => replaceYearFrom cs (k - 1)
    | none => c :: replaceYearFrom cs 0

/-- The function `normalizeTitleForTMDB`. -/
def normalizeTitleForTMDB (rawTitle : Str) : Str :=
  let title := TrimSpace rawTitle
  let title :=
    match Index title ['('] with
    | some idx =>
      if idx > 0 then
        let base := TrimSpace (title.take idx)
        if len base > 0 then base else title
      else title
    | none => title
  let title :=
    match Index title [' ', '-', ' '] with
    | some idx =>
      if idx > 0 then
        let base := TrimSpace (title.take idx)
        if len base > 3 then base else title
      else title
    | none => title
  let title := replaceYearFrom title 0
  TrimSpace title

/-! ## Notions of the specification -/

/-- The case table that lower-cases ASCII letters only. -/
def asciiCase : CaseTable where
  lower := Char.toLower
  lower_ascii := fun _ _ => rfl
  lower_space := by
    intro c hc
    have h : ¬ (c.toNat ≥ 65 ∧ c.toNat ≤ 90) := by
      intro h
      simp only [isSpace, Bool.or_eq_true, Bool.and_eq_true, decide_eq_true_eq,
        beq_iff_eq] at hc
      omega
    simp only [Char.toLower, h, ↓reduceIte]

/-- The ranges the variables of `parse` stay in under the layouts at hand. -/
def time.Fields.inRange (f : time.Fields) : Prop :=
  0 ≤ f.year ∧ f.year < 10000 ∧ -1 ≤ f.month ∧ f.month ≠ 0 ∧ f.month ≤ 12 ∧
    -1 ≤ f.day ∧ f.day ≤ 99 ∧ 0 ≤ f.hour ∧ f.hour < 24 ∧ 0 ≤ f.min ∧ f.min < 60

/-- The fields form a calendar date of the years 0..9999 and a clock time. -/
def time.Time.isCivil (t : time.Time) : Prop :=
  0 ≤ t.year ∧ t.year < 10000 ∧ 1 ≤ t.month ∧ t.month ≤ 12 ∧ 1 ≤ t.day ∧
    t.day ≤ time.daysIn t.month t.year ∧ 0 ≤ t.hour ∧ t.hour < 24 ∧ 0 ≤ t.min ∧ t.min < 60

/-- A calendar date written `YYYY-MM-DD`: four digits, `-`, a two-digit month
01..12, `-`, a two-digit day that exists in that month; its year, month and
day. -/
def calendarDate (s : Str) : Option (Int × Int × Int) :=
  match s with
  | [y1, y2, y3, y4, s1, m1, m2, s2, d1, d2] =>
    if time.isDigit y1 && time.isDigit y2 && time.isDigit y3 && time.isDigit y4 && s1 == '-' &&
        time.isDigit m1 && time.isDigit m2 && s2 == '-' && time.isDigit d1 &&
        time.isDigit d2 then
      let y := ((time.digitVal y1 * 10 + time.digitVal y2) * 10 + time.digitVal y3) * 10
        + time.digitVal y4
      let m := time.digitVal m1 * 10 + time.digitVal m2
      let d := time.digitVal d1 * 10 + time.digitVal d2
      if 1 ≤ m && m ≤ 12 && 1 ≤ d && d ≤ time.daysIn m y then some (y, m, d) else none
    else none
  | _ => none

/-- The day number of `today`, local midnight of the clock reading. -/
def todayDays (now : time.Clock) : Int := time.absDays now.year now.month now.day

/-- The day number of `maxDate`, which is `today.AddDate(0, 3, 0)`. -/
def maxDateDays (now : time.Clock) : Int := time.absDays now.year (now.month + 3) now.day

/-- The calendar order of two dates given by year, month and day: the first is
not after the second. -/
def dateLE (y m d y' m' d' : Int) : Prop :=
  y < y' ∨ (y = y' ∧ (m < m' ∨ (m = m' ∧ d ≤ d')))

/-- The days of the year `y` before its month `m`. -/
def monthStart (y m : Int) : Int :=
  time.daysBefore (m - 1) + (if time.isLeap y = true ∧ 3 ≤ m then 1 else 0)

/-- The year and the month three calendar months after month `m` of year `y`. -/
def threeMonthsLater (y m : Int) : Int × Int :=
  if m ≤ 9 then (y, m + 3) else (y + 1, m - 9)

/-- A canonical date string `YYYY-MM-DD`. -/
def isCanonicalDate (s : Str) : Bool := (calendarDate s).isSome

/-- A canonical 24-hour time string `HH:MM`: two digits 00..23, `:`, two digits
00..59. -/
def isCanonicalTime (s : Str) : Bool :=
  match s with
  | [h1, h2, c, m1, m2] =>
    time.isDigit h1 && time.isDigit h2 && c == ':' && time.isDigit m1 && time.isDigit m2 &&
      time.digitVal h1 * 10 + time.digitVal h2 ≤ 23 && time.digitVal m1 * 10 + time.digitVal m2 ≤ 59
  | _ => false

/-- The 24-hour value of a 12-hour clock reading: 12 AM is 0, 12 PM stays 12,
any other PM hour gains 12, any other AM hour is unchanged. -/
def hour24 (h : Nat) (pm : Bool) : Nat :=
  if pm then (if h = 12 then 12 else h + 12) else (if h = 12 then 0 else h)

/-- The text `h:mm` followed by a marker, as a 12-hour clock reading is
written: the hour in decimal, a colon, the minute on two digits. -/
def clockText (h m : Nat) (marker : Str) : Str :=
  (Nat.repr h).toList ++ [':'] ++ time.appendInt m 2 ++ marker

/-- The markers of the layouts of `normalizeTime`, each with whether it means
PM: upper case with or without a blank before it, lower case after a blank. -/
def clockMarkers : List (Str × Bool) :=
  [(" AM".toList, false), ("AM".toList, false), (" am".toList, false),
    (" PM".toList, true), ("PM".toList, true), (" pm".toList, true)]

/-- The text contains `sub` (given in lower case) in some letter case. -/
def containsAnyCase (s sub : Str) : Bool := Contains (s.map Char.toLower) sub

/-- The text starts with a parenthesised four-digit group `(dddd)`. -/
def yearGroupAt (s : Str) : Bool :=
  match s with
  | p :: a :: b :: c :: d :: q :: _ =>
    p == '(' && time.isDigit a && time.isDigit b && time.isDigit c && time.isDigit d && q == ')'
  | _ => false

/-- The text has a parenthesised four-digit group `(dddd)` somewhere. -/
def hasYearGroup : Str → Bool
  | [] => false
  | c :: cs => yearGroupAt (c :: cs) || hasYearGroup cs

/-- The first of February 2026, a clock reading for the examples. -/
def clockFeb2026 : time.Clock := ⟨2026, 2, 1, by decide⟩

/-- A dataset with one showtime of `theater-a` and one of `theater-b`, after the
storage test. -/
def sampleShowtimes : List Showtime :=
  [ { ID := "show1".toList, TheaterID := "theater-a".toList, MovieTitle := "Movie A".toList,
      TMDBID := 0, Date := "2026-02-15".toList, Time := "19:00".toList,
      Format := "digital".toList, Price := 0, Link := [], Screen := [] },
    { ID := "show3".toList, TheaterID := "theater-b".toList, MovieTitle := "Movie C".toList,
      TMDBID := 0, Date := "2026-02-16".toList, Time := "20:00".toList,
      Format := "digital".toList, Price := 0, Link := [], Screen := [] } ]

/-! ## Further helpers of the Cinemagic scraper -/

/-- The loop of Go `genSplit` for a non-empty separator and no limit: the text
before each successive occurrence of `sep` is cut off, and what is left is the
last piece. The counter bounds the number of pieces, as `n` does in the
source. -/
def splitLoop : Nat → Str → Str → List Str
  | 0, s, _ => [s]
  | n + 1, s, sep =>
    match Index s sep with
    | none => [s]
    | some m => s.take m :: splitLoop n (s.drop (m + sep.length)) sep

/-- Go `strings.Split(s, sep)`; with an empty separator the text is cut into its
runes. -/
def Split (s sep : Str) : List Str :=
  if sep.isEmpty then s.map (fun c => [c]) else splitLoop s.length s sep

/-- Go `strings.HasSuffix`. -/
def HasSuffix (s suffix : Str) : Bool := HasPrefix s.reverse suffix.reverse

/-- Go `strings.TrimSuffix`. -/
def TrimSuffix (s suffix : Str) : Str :=
  if HasSuffix s suffix then s.take (s.length - suffix.length) else s

/-- The function `extractMovieSlugFromURL`. -/
def extractMovieSlugFromURL (url : Str) : Str :=
  let parts := Split url "/movie/".toList
  match parts with
  | [_, slug] => TrimSuffix slug "/".toList
  | _ => []

/-! ## Movies and the metadata client (`internal/tmdb`) -/

/-- The record `models.Movie`. The two `float64` fields are carried as their
64-bit patterns. Modelled from the spec: the field `LimitedInfo`, which the
client and the tests use and the declaration under `internal/models` lacks; it
is the `limited_info` flag of a placeholder record. -/
structure Movie where
  TMDBID : Int
  Title : Str
  OriginalTitle : Str
  Overview : Str
  Runtime : Int
  Rating : Str
  Genres : List Str
  ReleaseDate : Str
  PosterPath : Str
  BackdropPath : Str
  TMDBRating : Nat
  VoteCount : Int
  Popularity : Nat
  Cast : List Str
  Director : Str
  LimitedInfo : Bool
  deriving DecidableEq, Repr

/-- The type `cacheEntry`: a movie pointer (possibly nil) and its expiry, an
instant in nanoseconds. -/
structure cacheEntry where
  movie : Option Movie
  expiresAt : Int
  deriving DecidableEq, Repr

/-- The type `Cache`: the map of entries and the time to live. -/
structure Cache where
  entries : Str → Option cacheEntry
  ttl : Int

/-- The constructor `NewCache` (the sweeping goroutine it starts is `Cache.sweep`,
run by the environment). -/
def NewCache (ttl : Int) : Cache := ⟨fun _ => none, ttl⟩

/-- The method `Cache.Get`, with the reading of `time.Now()` as an argument. -/
def Cache.Get (c : Cache) (now : Int) (key : Str) : Option Movie :=
  match c.entries key with
  | none => none
  | some entry => if now > entry.expiresAt then none else entry.movie

/-- The method `Cache.Set`, with the reading of `time.Now()` as an argument. -/
def Cache.Set (c : Cache) (now : Int) (key : Str) (movie : Option Movie) : Cache :=
  { c with entries := fun k => if k = key then some ⟨movie, now + c.ttl⟩ else c.entries k }

/-- One pass of the loop of the method `cleanup`: the entries expired at `now`
are deleted. -/
def Cache.sweep (c : Cache) (now : Int) : Cache :=
  { c with entries := fun k =>
      match c.entries k with
      | none => none
      | some entry => if now > entry.expiresAt then none else some entry }

/-- The method `Cache.Clear`. -/
def Cache.Clear (c : Cache) : Cache := { c with entries := fun _ => none }

/-- What happens to a cache besides reading it and clearing it: an entry is set,
or the sweep runs. -/
inductive CacheOp where
  | set (key : Str) (movie : Option Movie) (now : Int)
  | sweep (now : Int)

/-- The cache after a sequence of operations. -/
def Cache.run : Cache → List CacheOp → Cache
  | c, [] => c
  | c, .set key movie now :: ops => (c.Set now key movie).run ops
  | c, .sweep now :: ops => (c.sweep now).run ops

/-- The environment of the client: the successive readings of `time.Now()`, and
the outcome of the n-th external search (`searchTMDB`, both of its requests) for
a query. -/
structure Env where
  clock : Nat → Int
  tmdb : Nat → Str → Except String Movie

/-- The type `Client`, reduced to its cache, together with the record of a run:
the number of clock readings made, the queries of the external searches made,
and the titles `SearchMovie` was invoked with, each in order. -/
structure Client where
  cache : Cache
  ticks : Nat
  searched : List Str
  invoked : List Str

/-- The constructor `NewClient`. -/
def NewClient (cacheTTL : Int) : Client := ⟨NewCache cacheTTL, 0, [], []⟩

/-- The method `normalizeTitle`. -/
def normalizeTitle (U : CaseTable) (title : Str) : Str := ToLower U (TrimSpace title)

/-- The method `searchTMDB`, as the environment answers it: the movie it builds
never has the `LimitedInfo` flag. -/
def searchTMDB (env : Env) (n : Nat) (title : Str) : Except String Movie :=
  match env.tmdb n title with
  | .error e => .error e
  | .ok movie => .ok { movie with LimitedInfo := false }

/-- The method `createPlaceholderMovie`. -/
def createPlaceholderMovie (title : Str) : Movie :=
  { TMDBID := 0
    Title := title
    OriginalTitle := []
    Overview := []
    Runtime := 0
    Rating := "NR".toList
    Genres := []
    ReleaseDate := []
    PosterPath := "/assets/placeholder-poster.png".toList
    BackdropPath := []
    TMDBRating := 0
    VoteCount := 0
    Popularity := 0
    Cast := []
    Director := []
    LimitedInfo := true }

/-- The method `SearchMovie`: the result and the client afterwards. -/
def SearchMovie (U : CaseTable) (env : Env) (c : Client) (title : Str) :
    Except String Movie × Client :=
  match c.cache.Get (env.clock c.ticks) title with
  | some cached =>
    (.ok cached, { c with ticks := c.ticks + 1, invoked := c.invoked ++ [title] })
  | none =>
    let normalizedTitle := normalizeTitle U title
    match searchTMDB env c.searched.length normalizedTitle with
    | .error e =>
      (.error e, { c with ticks := c.ticks + 1, searched := c.searched ++ [normalizedTitle],
                          invoked := c.invoked ++ [title] })
    | .ok movie =>
      (.ok movie,
        { cache := c.cache.Set (env.clock (c.ticks + 1)) title (some movie)
          ticks := c.ticks + 2
          searched := c.searched ++ [normalizedTitle]
          invoked := c.invoked ++ [title] })

/-- A Go `map[string]*models.Movie`, as the list of its keys, without
repetition, each with its value. -/
abbrev MovieMap := List (Str × Option Movie)

/-- The index expression `m[key]` with its `exists` flag. -/
def MovieMap.get (m : MovieMap) (key : Str) : Option (Option Movie) :=
  match m with
  | [] => none
  | (k, v) :: rest => if k = key then some v else MovieMap.get rest key

/-- The assignment `m[key] = value`. -/
def MovieMap.set (m : MovieMap) (key : Str) (value : Option Movie) : MovieMap :=
  match m with
  | [] => [(key, value)]
  | (k, v) :: rest => if k = key then (k, value) :: rest else (k, v) :: MovieMap.set rest key value

/-- The keys of the map. -/
def MovieMap.keys (m : MovieMap) : List Str := m.map Prod.fst

/-- The loop of `EnrichShowtimes` over the showtimes that are left, from the
showtimes enriched so far, the map `movieCache` and the client. -/
def enrichLoop (U : CaseTable) (env : Env) :
    List Showtime → List Showtime → MovieMap → Client → (List Showtime × MovieMap) × Client
  | [], enriched, movieCache, c => ((enriched, movieCache), c)
  | showtime :: rest, enriched, movieCache, c =>
    match movieCache.get showtime.MovieTitle with
    | some movie =>
      let showtime1 :=
        match movie with
        | some m => { showtime with TMDBID := m.TMDBID }
        | none => showtime
      enrichLoop U env rest (enriched ++ [showtime1]) movieCache c
    | none =>
      match SearchMovie U env c showtime.MovieTitle with
      | (.error _, c1) =>
        let placeholderMovie := createPlaceholderMovie showtime.MovieTitle
        enrichLoop U env rest (enriched ++ [{ showtime with TMDBID := 0 }])
          (movieCache.set showtime.MovieTitle (some placeholderMovie)) c1
      | (.ok movie, c1) =>
        enrichLoop U env rest (enriched ++ [{ showtime with TMDBID := movie.TMDBID }])
          (movieCache.set showtime.MovieTitle (some movie)) c1

/-- The method `EnrichShowtimes`: the enriched showtimes, the map from title to
movie, and the client afterwards. -/
def EnrichShowtimes (U : CaseTable) (env : Env) (c : Client) (showtimes : List Showtime) :
    (List Showtime × MovieMap) × Client :=
  enrichLoop U env showtimes [] [] c

/-! ## The other files of the data directory (`internal/storage`) -/

/-- The record `models.ScrapeMetadata`; `LastUpdated` is an instant counted from
the zero `time.Time`, which is `0`. -/
structure ScrapeMetadata where
  LastUpdated : Int
  TheaterID : Str
  Status : Str
  ErrorMessage : Str
  MoviesScraped : Int
  ShowtimesScraped : Int
  deriving DecidableEq, Repr

/-- What `movies.json` holds when it is JSON: an object from title to movie (or
null), as the batch command writes it, or an array of movies, as `SaveMovies`
writes it. -/
inductive MoviesFile where
  | asMap (m : MovieMap)
  | asList (l : List Movie)
  deriving DecidableEq, Repr

/-- The data directory with all of its files. -/
structure DataDir extends Storage where
  theaters : File (List Theater)
  movies : File MoviesFile
  metadata : File (List ScrapeMetadata)
  deriving DecidableEq, Repr

/-- The order in which a `range` over a Go map visits its entries: some
rearrangement, chosen by the runtime. -/
structure RangeOrder where
  visit : MovieMap → MovieMap
  perm : ∀ m : MovieMap, (visit m).Perm m

/-- The order of the entries as they are written. -/
def RangeOrder.inOrder : RangeOrder := ⟨fun m => m, fun m => List.Perm.refl m⟩

/-- The helper `writeJSON` on the metadata path. -/
def writeMetadata (d : DataDir) (data : List ScrapeMetadata) : Except String DataDir :=
  if d.writable then .ok { d with metadata := .holds data }
  else .error "failed to create file"

/-- The method `LoadTheaters`. -/
def LoadTheaters (d : DataDir) : Except String (List Theater) :=
  readJSON d.theaters []

/-- The helper `readJSON` into a `map[string]*models.Movie`: an array does not
decode into a map. -/
def readMoviesMap (f : File MoviesFile) : Except String MovieMap :=
  match f with
  | .missing => .ok []
  | .unreadable => .error "failed to read JSON"
  | .holds (.asMap m) => .ok m
  | .holds (.asList _) => .error "failed to decode JSON"

/-- The helper `readJSON` into a `[]models.Movie`: an object does not decode into
a slice. -/
def readMoviesList (f : File MoviesFile) : Except String (List Movie) :=
  match f with
  | .missing => .ok []
  | .unreadable => .error "failed to read JSON"
  | .holds (.asMap _) => .error "failed to decode JSON"
  | .holds (.asList l) => .ok l

/-- The method `LoadMovies`: the map form first, then the array form. -/
def LoadMovies (R : RangeOrder) (d : DataDir) : Except String (List Movie) :=
  match readMoviesMap d.movies with
  | .ok moviesMap => .ok ((R.visit moviesMap).filterMap (fun kv => kv.2))
  | .error _ => readMoviesList d.movies

/-- The method `SaveMetadata`. The error of reading the existing history is
discarded (`_ = s.readJSON(...)`), which leaves the slice nil. -/
def SaveMetadata (d : DataDir) (metadata : ScrapeMetadata) : Except String DataDir :=
  let allMetadata0 : List ScrapeMetadata :=
    match readJSON d.metadata [] with
    | .ok v => v
    | .error _ => []
  let allMetadata1 := allMetadata0 ++ [metadata]
  let allMetadata2 :=
    if allMetadata1.length > 100 then allMetadata1.drop (allMetadata1.length - 100)
    else allMetadata1
  writeMetadata d allMetadata2

/-- The method `GetLastUpdate`. -/
def GetLastUpdate (d : DataDir) : Except String Int :=
  match readJSON d.metadata [] with
  | .error e => .error e
  | .ok allMetadata =>
    match allMetadata.getLast? with
    | none => .ok 0
    | some last => .ok last.LastUpdated

/-! ## Further notions of the specification -/

/-- The parentheses of the text are not nested: no `(` occurs between a `(` and
the next `)`. The flag says whether a `(` is open. -/
def parenFlat : Str → Bool → Bool
  | [], _ => true
  | c :: cs, o =>
    if c == '(' then (if o then false else parenFlat cs true)
    else if c == ')' then parenFlat cs false
    else parenFlat cs o

/-- The operations that leave the entry of `k` alone as far as a reading at
`t'` can tell: setting another key, and sweeping no later than `t'`. -/
def CacheOp.spares (k : Str) (t' : Int) : CacheOp → Bool
  | .set key _ _ => decide (key ≠ k)
  | .sweep now => decide (now ≤ t')

/-- The history a data directory holds: nothing when there is no file, none
when the file cannot be read. -/
def DataDir.history (d : DataDir) : Option (List ScrapeMetadata) :=
  match d.metadata with
  | .missing => some []
  | .unreadable => none
  | .holds h => some h

/-- A run outcome numbered `n`. -/
def sampleMetadata (n : Nat) : ScrapeMetadata :=
  ⟨n, "cinemagic-theater".toList, "success".toList, [], 0, 0⟩

/-- An environment in which every external search fails; the clock reads the
number of the reading. -/
def failingEnv : Env := ⟨fun n => n, fun _ _ => .error "no results found"⟩

/-- A showtime of a film the external service does not know. -/
def unknownShowtime : Showtime :=
  { ID := "cinemagic-theater-20260214-1900".toList
    TheaterID := "cinemagic-theater".toList
    MovieTitle := "Unknown Film".toList
    TMDBID := 0
    Date := "2026-02-14".toList
    Time := "19:00".toList
    Format := "digital".toList
    Price := 0
    Link := []
    Screen := [] }

/-! ## More of the Go standard library -/

/-- The rune-wise upper-casing `unicode.ToUpper`: fixed by the Go source on
ASCII (`a`..`z` are shifted by 32), abstract outside ASCII. -/
structure UpperTable where
  /-- The image of a rune under `unicode.ToUpper`. -/
  upper : Char → Char
  /-- The ASCII fast path of `unicode.ToUpper`. -/
  upper_ascii : ∀ c : Char, c.toNat < 128 → upper c = c.toUpper

/-- Go `strings.ToUpper`: every rune mapped through `unicode.ToUpper`. -/
def ToUpper (V : UpperTable) (s : Str) : Str := s.map V.upper

/-- Go `s[:n]` for a byte count `n`. The slice is a text of the model when the
cut falls between two runes; beyond the end Go panics, and a cut inside a rune
leaves bytes that are not valid UTF-8, which `Str` does not cover. -/
def sliceTo : Str → Nat → Except String Str
  | _, 0 => .ok []
  | [], _ + 1 => .error "slice bounds out of range"
  | c :: cs, n + 1 =>
    if (runeBytes c).length ≤ n + 1 then
      match sliceTo cs (n + 1 - (runeBytes c).length) with
      | .ok r => .ok (c :: r)
      | .error e => .error e
    else .error "cut inside a rune"

/-- The loop of Go `strings.FieldsFunc`: `cur` is the field being read. -/
def fieldsLoop (f : Char → Bool) : Str → Str → List Str
  | [], cur => if cur.isEmpty then [] else [cur]
  | c :: cs, cur =>
    if f c then (if cur.isEmpty then fieldsLoop f cs [] else cur :: fieldsLoop f cs [])
    else fieldsLoop f cs (cur ++ [c])

/-- Go `strings.FieldsFunc`: the maximal runs of runes that do not satisfy `f`. -/
def FieldsFunc (s : Str) (f : Char → Bool) : List Str := fieldsLoop f s []

/-- Go `strings.Fields`: the maximal runs of runes that are not white space. -/
def strings.Fields (s : Str) : List Str := FieldsFunc s isSpace

/-- Go `strings.Join`. -/
def Join : List Str → Str → Str
  | [], _ => []
  | [a], _ => a
  | a :: b :: rest, sep => a ++ sep ++ Join (b :: rest) sep

/-- Go `strings.TrimLeft` for a cutset of one rune. -/
def TrimLeft (s : Str) (cut : Char) : Str := s.dropWhile (fun c => c == cut)

/-- Go `strings.TrimRight` for a cutset of one rune. -/
def TrimRight : Str → Char → Str
  | [], _ => []
  | c :: cs, cut =>
    match TrimRight cs cut with
    | [] => if c == cut then [] else [c]
    | r :: rs => c :: r :: rs

/-- Go `strings.Trim` for a cutset of one rune. -/
def Trim (s : Str) (cut : Char) : Str := TrimRight (TrimLeft s cut) cut

/-- Go `strconv.Atoi`: an optional sign and decimal digits, within the range of
a 64-bit `int`; `none` for an error. -/
def Atoi (s : Str) : Option Int :=
  let neg := s.head? == some '-'
  let digits := if s.head? == some '-' || s.head? == some '+' then s.tail else s
  if digits.isEmpty || !digits.all time.isDigit then none
  else
    let n : Int := digits.foldl (fun a c => a * 10 + time.digitVal c) 0
    let v := if neg then -n else n
    if v < -9223372036854775808 || v > 9223372036854775807 then none else some v

/-- The value of a 64-bit `int` after an arithmetic operation whose exact result
is `x`: Go wraps around. -/
def wrapInt (x : Int) : Int :=
  (x + 9223372036854775808) % 18446744073709551616 - 9223372036854775808

/-- The verb `%d` of `fmt` on an `int`. -/
def fmtD (x : Int) : Str :=
  (if x < 0 then ['-'] else []) ++ Nat.toDigits 10 x.natAbs

/-- The verb `%02d` of `fmt` on an `int`: zero-padded to two places, the sign
counting as one. -/
def fmt02D (x : Int) : Str :=
  (if x < 0 then ['-'] else []) ++
    List.replicate (2 - (if x < 0 then 1 else 0) - (Nat.toDigits 10 x.natAbs).length) '0' ++
    Nat.toDigits 10 x.natAbs

/-! ## The Clinton Street scraper (`internal/scrapers/clinton_street_theater`) -/

namespace clinton_street_theater

/-- The type `Scraper` of the Clinton Street package. -/
structure Scraper where
  theater : Theater
  deriving DecidableEq, Repr

/-- The constructor `NewScraper`. -/
def NewScraper : Scraper :=
  { theater :=
    { ID := "clinton-street-theater".toList
      Name := "Clinton Street Theater".toList
      Address := "2522 SE Clinton Street".toList
      City := "Portland".toList
      Zip := "97202".toList
      Website := "https://cstpdx.com".toList
      Phone := "(971) 808-3331".toList } }

/-- The match of `yearPattern`, the regular expression `\s*\(\d{4}\)\s*`, at the
start of `s`: the number of runes it covers. Both `\s*` are greedy and take the
whole run of blanks. -/
def yearSpanMatch (s : Str) : Option Nat :=
  match yearPatternMatch s with
  | some k => some (k + ((s.drop k).takeWhile reSpace).length)
  | none => none

/-- Go `yearPattern.ReplaceAllString(cleaned, "")`: the leftmost matches, none
overlapping another, are removed. The counter is the number of runes of the
current match that are still to be dropped. -/
def removeYearSpans : Str → Nat → Str
  | [], _ => []
  | _ :: cs, n + 1 => removeYearSpans cs n
  | c :: cs, 0 =>
    match yearSpanMatch (c :: cs) with
    | some k => removeYearSpans cs (k - 1)
    | none => c :: removeYearSpans cs 0

/-- Whether `tagPattern`, the regular expression `\s*\([^)]*\)\s*$`, matches at
the start of `s`: blanks, `(`, the text up to the first `)`, that `)`, and
blanks up to the end of the text. -/
def tagPatternMatch (s : Str) : Bool :=
  match s.dropWhile reSpace with
  | '(' :: rest =>
    match rest.dropWhile (fun c => c != ')') with
    | ')' :: tail => tail.all reSpace
    | _ => false
  | _ => false

/-- Go `tagPattern.ReplaceAllString(cleaned, "")`: the text is cut at the
leftmost match, which reaches the end. -/
def removeTag : Str → Str
  | [] => []
  | c :: cs => if tagPatternMatch (c :: cs) then [] else c :: removeTag cs

/-- The method `cleanMovieTitle`. The index of `" with "` is found in the
lower-cased text and counts bytes; the original text is cut at that byte. -/
def cleanMovieTitle (U : CaseTable) (title : Str) : Except String Str :=
  let cleaned :=
    if Contains title "presents:".toList then
      match Split title "presents:".toList with
      | _ :: part :: _ => TrimSpace part
      | _ => title
    else title
  let lowerCleaned := ToLower U cleaned
  let cut : Except String Str :=
    if Contains lowerCleaned " with ".toList then
      match Index lowerCleaned " with ".toList with
      | some r =>
        let withIndex := len (lowerCleaned.take r)
        if withIndex > 0 then
          match sliceTo cleaned withIndex with
          | .ok head => .ok (TrimSpace head)
          | .error e => .error e
        else .ok cleaned
      | none => .ok cleaned
    else .ok cleaned
  match cut with
  | .ok cleaned => .ok (TrimSpace (removeTag (removeYearSpans cleaned 0)))
  | .error e => .error e

/-- The keywords of `isNonMovieEvent`. -/
def nonMovieKeywords : List Str :=
  ["comedy night".toList, "live concert".toList, "drag show".toList, "stand up".toList,
    "standup".toList, "performance".toList]

/-- The method `isNonMovieEvent`. -/
def isNonMovieEvent (U : CaseTable) (title rawTitle : Str) : Bool :=
  nonMovieKeywords.any
    (fun keyword => Contains (ToLower U title) keyword || Contains (ToLower U rawTitle) keyword)

/-- The table `monthMap` of `parseDate`. -/
def monthMap : List (Str × Str) :=
  [("January".toList, "01".toList), ("February".toList, "02".toList),
    ("March".toList, "03".toList), ("April".toList, "04".toList),
    ("May".toList, "05".toList), ("June".toList, "06".toList),
    ("July".toList, "07".toList), ("August".toList, "08".toList),
    ("September".toList, "09".toList), ("October".toList, "10".toList),
    ("November".toList, "11".toList), ("December".toList, "12".toList)]

/-- The method `parseDate`; the year is the one of the clock. -/
def parseDate (clock : time.Clock) (datePart : Str) : Str :=
  match Split datePart ",".toList with
  | _ :: part :: _ =>
    match strings.Fields (TrimSpace part) with
    | monthName :: dayStr :: _ =>
      match monthMap.lookup monthName with
      | none => []
      | some monthNum =>
        let day := if len dayStr == 1 then '0' :: dayStr else dayStr
        fmtD clock.year ++ ['-'] ++ monthNum ++ ['-'] ++ day
    | _ => []
  | _ => []

/-- The method `parseTime`. -/
def parseTime (V : UpperTable) (timePart : Str) : Str :=
  let timePart := TrimSpace timePart
  let isPM := HasSuffix (ToUpper V timePart) "PM".toList
  let isAM := HasSuffix (ToUpper V timePart) "AM".toList
  if !isAM && !isPM then timePart
  else
    let timePart := TrimSuffix (TrimSuffix timePart " PM".toList) " AM".toList
    let timePart := TrimSuffix (TrimSuffix timePart " pm".toList) " am".toList
    let timePart := TrimSpace timePart
    match Split timePart ":".toList with
    | [hourStr, minute] =>
      match Atoi hourStr with
      | none => []
      | some hour =>
        let hour :=
          if isPM && hour != 12 then wrapInt (hour + 12)
          else if isAM && hour == 12 then 0
          else hour
        fmt02D hour ++ [':'] ++ minute
    | _ => []

/-- The method `parseDateTime`. -/
def parseDateTime (V : UpperTable) (clock : time.Clock) (dateTimeStr : Str) : Str × Str :=
  if dateTimeStr.isEmpty then ([], [])
  else
    match Split dateTimeStr "@".toList with
    | [part0, part1] =>
      (parseDate clock (TrimSpace part0), parseTime V (TrimSpace part1))
    | _ => ([], [])

/-- The method `parsePrice`: the runes other than digits and `.` are removed
(the regular expression `[^\d.]`) and the rest is read by `strconv.ParseFloat`,
which is the parameter `parseFloat` (the bit pattern of the `float64`, `none`
for an error). -/
def parsePrice (parseFloat : Str → Option Nat) (priceStr : Str) : Nat :=
  if priceStr.isEmpty then 0
  else
    match parseFloat (priceStr.filter (fun c => time.isDigit c || c == '.')) with
    | none => 0
    | some price => price

/-- The class `[a-z0-9]`, whose complement the regular expression `[^a-z0-9]+`
of `sanitizeForID` matches. -/
def isIDChar (c : Char) : Bool :=
  (97 ≤ c.toNat && c.toNat ≤ 122) || (48 ≤ c.toNat && c.toNat ≤ 57)

/-- Go `re.ReplaceAllString(safe, "-")` for `[^a-z0-9]+`: every maximal run of
runes outside the class becomes one hyphen. The flag says whether the previous
rune belongs to the current match. -/
def replaceRuns : Str → Bool → Str
  | [], _ => []
  | c :: cs, inMatch =>
    if isIDChar c then c :: replaceRuns cs false
    else if inMatch then replaceRuns cs true
    else '-' :: replaceRuns cs true

/-- The method `sanitizeForID`. -/
def sanitizeForID (U : CaseTable) (title : Str) : Str :=
  Trim (replaceRuns (ToLower U title) false) '-'

/-- What `extractShowtime` reads from an event element of the list view: the
texts and attributes of the selectors it queries, each with its fallback. -/
structure ListEvent where
  titleLinkText : Str
  h3Text : Str
  datetimeText : Str
  timeText : Str
  titleLinkHref : Str
  aHref : Str
  priceText : Str
  squareLinkText : Str
  deriving DecidableEq, Repr

/-- The method `extractShowtime`: `none` is the nil pointer. -/
def extractShowtime (s : Scraper) (U : CaseTable) (V : UpperTable)
    (parseFloat : Str → Option Nat) (clock : time.Clock) (e : ListEvent) :
    Except String (Option Showtime) :=
  let rawTitle := if e.titleLinkText.isEmpty then e.h3Text else e.titleLinkText
  if rawTitle.isEmpty then .ok none
  else
    match cleanMovieTitle U rawTitle with
    | .error err => .error err
    | .ok movieTitle =>
      if isNonMovieEvent U movieTitle rawTitle then .ok none
      else
        let dateTimeStr := if e.datetimeText.isEmpty then e.timeText else e.datetimeText
        let (date, showTime) := parseDateTime V clock dateTimeStr
        if date.isEmpty || showTime.isEmpty then .ok none
        else
          let eventLink := if e.titleLinkHref.isEmpty then e.aHref else e.titleLinkHref
          let priceStr := if e.priceText.isEmpty then e.squareLinkText else e.priceText
          let price := parsePrice parseFloat priceStr
          let id := s.theater.ID ++ ['-'] ++ sanitizeForID U movieTitle ++ ['-'] ++
            removeAll (date ++ showTime) ':'
          .ok (some
            { ID := id
              TheaterID := s.theater.ID
              MovieTitle := movieTitle
              TMDBID := 0
              Date := date
              Time := showTime
              Format := "digital".toList
              Price := price
              Link := eventLink
              Screen := [] })

/-- What `extractCalendarShowtime` reads from an event element of the calendar
view; `dayDatetimes` are the `datetime` attributes of the `time` elements of the
enclosing day cells, in the order they are visited. -/
structure CalendarEvent where
  titleLinkText : Str
  aText : Str
  datetimeAttr : Str
  dayDatetimes : List Str
  titleLinkHref : Str
  aHref : Str
  deriving DecidableEq, Repr

/-- The `float64` value `10.0`, as its bit pattern. -/
def defaultPrice : Nat := 0x4024000000000000

/-- The method `extractCalendarShowtime`: `none` is the nil pointer. -/
def extractCalendarShowtime (s : Scraper) (U : CaseTable) (e : CalendarEvent) :
    Except String (Option Showtime) :=
  let rawTitle := if e.titleLinkText.isEmpty then e.aText else e.titleLinkText
  if rawTitle.isEmpty then .ok none
  else
    match cleanMovieTitle U rawTitle with
    | .error err => .error err
    | .ok movieTitle =>
      if isNonMovieEvent U movieTitle rawTitle then .ok none
      else
        let timeStr := if e.datetimeAttr.isEmpty then "19:00".toList else e.datetimeAttr
        let dateStr := e.dayDatetimes.foldl (fun cur dt => if len dt == 10 then dt else cur) []
        if dateStr.isEmpty then .ok none
        else
          let eventLink := if e.titleLinkHref.isEmpty then e.aHref else e.titleLinkHref
          let id := s.theater.ID ++ ['-'] ++ sanitizeForID U movieTitle ++ ['-'] ++
            removeAll (dateStr ++ timeStr) ':'
          .ok (some
            { ID := id
              TheaterID := s.theater.ID
              MovieTitle := movieTitle
              TMDBID := 0
              Date := dateStr
              Time := timeStr
              Format := "digital".toList
              Price := defaultPrice
              Link := eventLink
              Screen := [] })

end clinton_street_theater

/-! ## The details of a movie (`internal/tmdb`) -/

/-- One entry of `release_dates.results` of a decoded details response: the
region and the certifications of its release dates. -/
structure ReleaseDatesResult where
  ISO31661 : Str
  ReleaseDates : List Str
  deriving DecidableEq, Repr

/-- One entry of `credits.crew`. -/
structure CrewMember where
  Name : Str
  Job : Str
  deriving DecidableEq, Repr

/-- The decoded response of the details request (the anonymous struct
`details` of `GetMovieDetails`; the one of `enrichMovieDetails` has the last
five fields only). Genres and cast are given by their names. -/
structure MovieDetails where
  ID : Int
  Title : Str
  OriginalTitle : Str
  Overview : Str
  ReleaseDate : Str
  PosterPath : Str
  BackdropPath : Str
  VoteAverage : Nat
  VoteCount : Int
  Popularity : Nat
  Runtime : Int
  Genres : List Str
  Cast : List Str
  Crew : List CrewMember
  ReleaseDates : List ReleaseDatesResult
  deriving DecidableEq, Repr

/-- The method `buildPosterURL`. -/
def buildPosterURL (posterPath : Str) : Str :=
  if posterPath.isEmpty then [] else "https://image.tmdb.org/t/p/w500".toList ++ posterPath

/-- The method `buildBackdropURL`. -/
def buildBackdropURL (backdropPath : Str) : Str :=
  if backdropPath.isEmpty then [] else "https://image.tmdb.org/t/p/w1280".toList ++ backdropPath

/-- The loop "Find director": the name of the first crew member whose job is
`Director`, the director staying as it was when there is none. -/
def findDirector (crew : List CrewMember) (director : Str) : Str :=
  match crew with
  | [] => director
  | crewMember :: rest =>
    if crewMember.Job = "Director".toList then crewMember.Name else findDirector rest director

/-- The loop "Find US rating": the first certification of the first entry of
region `US` that has a release date, the rating staying as it was when there is
none. -/
def findUSRating (results : List ReleaseDatesResult) (rating : Str) : Str :=
  match results with
  | [] => rating
  | result :: rest =>
    if result.ISO31661 = "US".toList ∧ result.ReleaseDates.length > 0 then
      result.ReleaseDates.headD []
    else findUSRating rest rating

/-- The method `enrichMovieDetails` on the outcome of its request. -/
def enrichMovieDetails (movie : Movie) (response : Except String MovieDetails) :
    Except String Movie :=
  match response with
  | .error e => .error e
  | .ok details =>
    let rating := findUSRating details.ReleaseDates movie.Rating
    .ok { movie with
      Runtime := details.Runtime
      Genres := details.Genres
      Cast := details.Cast.take 5
      Director := findDirector details.Crew movie.Director
      Rating := if rating.isEmpty then "NR".toList else rating }

/-- The method `GetMovieDetails` on the outcome of its request: the result and
the client afterwards. -/
def GetMovieDetails (env : Env) (c : Client) (tmdbID : Int)
    (response : Except String MovieDetails) : Except String Movie × Client :=
  let cacheKey := "id-".toList ++ fmtD tmdbID
  match c.cache.Get (env.clock c.ticks) cacheKey with
  | some cached => (.ok cached, { c with ticks := c.ticks + 1 })
  | none =>
    match response with
    | .error e => (.error e, { c with ticks := c.ticks + 1 })
    | .ok details =>
      let rating := findUSRating details.ReleaseDates []
      let movie : Movie :=
        { TMDBID := details.ID
          Title := details.Title
          OriginalTitle := details.OriginalTitle
          Overview := details.Overview
          Runtime := details.Runtime
          Rating := if rating.isEmpty then "NR".toList else rating
          Genres := details.Genres
          ReleaseDate := details.ReleaseDate
          PosterPath := buildPosterURL details.PosterPath
          BackdropPath := buildBackdropURL details.BackdropPath
          TMDBRating := details.VoteAverage
          VoteCount := details.VoteCount
          Popularity := details.Popularity
          Cast := details.Cast.take 5
          Director := findDirector details.Crew []
          LimitedInfo := false }
      (.ok movie,
        { c with cache := c.cache.Set (env.clock (c.ticks + 1)) cacheKey (some movie)
                 ticks := c.ticks + 2 })

/-! ## The batch command and the scrape handler (`cmd/scraper`, `internal/api`) -/

/-- One line group of the display step of `main`: the arguments of its `Printf`
calls. -/
inductive DisplayLine where
  | withMovie (title year date time : Str) (tmdbID : Int) (rating : Nat) (poster : Str)
  | noData (title date time : Str)
  deriving DecidableEq, Repr

/-- The display loop of `main` ("Showtimes found:") over the enriched showtimes
and the map `movieData`; an error is the panic of `movie.ReleaseDate[:4]`. -/
def displayShowtimes (movieData : MovieMap) : List Showtime → Except String (List DisplayLine)
  | [] => .ok []
  | st :: rest =>
    match movieData.get st.MovieTitle with
    | some (some movie) =>
      match sliceTo movie.ReleaseDate 4 with
      | .error e => .error e
      | .ok year =>
        match displayShowtimes movieData rest with
        | .error e => .error e
        | .ok lines =>
          .ok (.withMovie st.MovieTitle year st.Date st.Time movie.TMDBID movie.TMDBRating
            movie.PosterPath :: lines)
    | _ =>
      match displayShowtimes movieData rest with
      | .error e => .error e
      | .ok lines => .ok (.noData st.MovieTitle st.Date st.Time :: lines)

namespace scrapers

/-- The interface `Scraper`, as `runScrapers` uses it: `Scrape` is the outcome
of the one call made. -/
structure Scraper where
  GetTheaterInfo : Theater
  Scrape : Except String (List Showtime)
  GetID : Str

end scrapers

/-- The loop of `runScrapers` over the scrapers that are left, in the order the
map is visited; `n` is the number of clock readings made. The result of
`SaveMetadata` is not looked at. -/
def runScrapersLoop (clock : Nat → Int) :
    List scrapers.Scraper → Nat → List ScrapeMetadata → DataDir → List ScrapeMetadata × DataDir
  | [], _, results, d => (results, d)
  | scraper :: rest, n, results, d =>
    let metadata : ScrapeMetadata :=
      { LastUpdated := clock n
        TheaterID := scraper.GetID
        Status := "success".toList
        ErrorMessage := []
        MoviesScraped := 0
        ShowtimesScraped := 0 }
    let metadata : ScrapeMetadata :=
      match scraper.Scrape with
      | .error err => { metadata with Status := "error".toList, ErrorMessage := err.toList }
      | .ok showtimes => { metadata with ShowtimesScraped := showtimes.length }
    let d1 :=
      match SaveMetadata d metadata with
      | .ok d1 => d1
      | .error _ => d
    runScrapersLoop clock rest (n + 1) (results ++ [metadata]) d1

/-- The method `runScrapers`; the scrapers of the map are given in the order
the loop visits them. -/
def runScrapers (clock : Nat → Int) (d : DataDir) (scrapers : List scrapers.Scraper) :
    List ScrapeMetadata × DataDir :=
  runScrapersLoop clock scrapers 0 [] d

/-- The method `SaveMovies`. -/
def SaveMovies (d : DataDir) (movies : List Movie) : Except String DataDir :=
  if d.writable then .ok { d with movies := .holds (.asList movies) }
  else .error "failed to create file"

/-! ## Notions of the specification, continued -/

/-- The entry `runScrapers` builds for a scraper run at clock reading `n`. -/
def scrapeOutcome (clock : Nat → Int) (n : Nat) (s : scrapers.Scraper) : ScrapeMetadata :=
  match s.Scrape with
  | .error err =>
    { LastUpdated := clock n, TheaterID := s.GetID, Status := "error".toList,
      ErrorMessage := err.toList, MoviesScraped := 0, ShowtimesScraped := 0 }
  | .ok showtimes =>
    { LastUpdated := clock n, TheaterID := s.GetID, Status := "success".toList,
      ErrorMessage := [], MoviesScraped := 0, ShowtimesScraped := showtimes.length }

/-- The case table that upper-cases ASCII letters only. -/
def asciiUpper : UpperTable := ⟨Char.toUpper, fun _ _ => rfl⟩

/-- A decoded details response, with an entry of another region and an entry of
region `US` rated `PG-13`. -/
def sampleDetails : MovieDetails :=
  { ID := 438631
    Title := "Dune".toList
    OriginalTitle := "Dune".toList
    Overview := []
    ReleaseDate := "2021-09-15".toList
    PosterPath := "/d5NXSklXo0qyIYkgV94XAgMIckC.jpg".toList
    BackdropPath := []
    VoteAverage := 0
    VoteCount := 0
    Popularity := 0
    Runtime := 155
    Genres := ["Science Fiction".toList, "Adventure".toList]
    Cast := []
    Crew := [⟨"Denis Villeneuve".toList, "Director".toList⟩]
    ReleaseDates :=
      [⟨"FR".toList, ["TP".toList]⟩, ⟨"US".toList, ["PG-13".toList, []]⟩] }

/-- An event of the calendar view on 2026-02-11 at 19:00. -/
def sampleCalendarEvent : clinton_street_theater.CalendarEvent :=
  { titleLinkText := "Eraserhead (1977)".toList
    aText := []
    datetimeAttr := "19:00".toList
    dayDatetimes := ["2026-02-11".toList]
    titleLinkHref := "https://cstpdx.com/event/eraserhead/".toList
    aHref := [] }

/-- The same event in the list view. -/
def sampleListEvent : clinton_street_theater.ListEvent :=
  { titleLinkText := "Eraserhead (1977)".toList
    h3Text := []
    datetimeText := "Wednesday, February 11 @ 7:00 PM".toList
    timeText := []
    titleLinkHref := "https://cstpdx.com/event/eraserhead/".toList
    aHref := []
    priceText := []
    squareLinkText := [] }

/-- The showtime of `sampleCalendarEvent`. -/
def sampleCalendarShowtime : Showtime :=
  { ID := "clinton-street-theater-eraserhead-2026-02-111900".toList
    TheaterID := "clinton-street-theater".toList
    MovieTitle := "Eraserhead".toList
    TMDBID := 0
    Date := "2026-02-11".toList
    Time := "19:00".toList
    Format := "digital".toList
    Price := clinton_street_theater.defaultPrice
    Link := "https://cstpdx.com/event/eraserhead/".toList
    Screen := [] }

/-- A movie as `searchTMDB` builds it before the details are fetched: without
rating. -/
def sampleBareMovie : Movie :=
  { createPlaceholderMovie "Dune".toList with TMDBID := 438631, Rating := [], LimitedInfo := false }

/-! ## Theorems -/

/-- C1. On a readable (or absent) showtimes file holding `L` and a writable
directory, `ReplaceTheaterShowtimes theaterID newShowtimes` succeeds and the
list then loaded is made of exactly the showtimes of `L` of other theaters, in
their original order, together with exactly `newShowtimes`; with an empty
`newShowtimes` it is exactly those other showtimes, and with no prior file it is
made of exactly `newShowtimes`. -/
theorem replaceTheaterShowtimes_merge (s : Storage) (theaterID : Str)
    (newShowtimes L : List Showtime) (hw : s.writable = true)
    (hr : readJSON s.showtimes [] = .ok L) :
    ∃ s2 R, ReplaceTheaterShowtimes s theaterID newShowtimes = .ok s2 ∧
      LoadShowtimes s2 = .ok R ∧
      R.Perm (L.filter (fun st => st.TheaterID ≠ theaterID) ++ newShowtimes) ∧
      (L.filter (fun st => st.TheaterID ≠ theaterID)).Sublist R ∧
      (∀ st ∈ R, st ∈ newShowtimes ∨ (st ∈ L ∧ st.TheaterID ≠ theaterID)) ∧
      (newShowtimes = [] → R = L.filter (fun st => st.TheaterID ≠ theaterID)) ∧
      (s.showtimes = .missing → R.Perm newShowtimes) := by
  have hf : L.filter (fun st => st.TheaterID != theaterID)
      = L.filter (fun st => decide (st.TheaterID ≠ theaterID)) := by
    congr 1
    funext st
    by_cases h : st.TheaterID = theaterID <;> simp [h]
  refine ⟨{ s with showtimes := .holds (L.filter (fun st => st.TheaterID != theaterID)
      ++ newShowtimes) }, L.filter (fun st => st.TheaterID != theaterID) ++ newShowtimes,
      ?_, ?_, ?_, ?_, ?_, ?_, ?_⟩
  · simp [ReplaceTheaterShowtimes, hr, writeShowtimes, hw]
  · simp [LoadShowtimes, readJSON]
  · rw [hf]
  · rw [hf]
    exact List.sublist_append_left _ _
  · intro st hst
    rw [hf] at hst
    rcases List.mem_append.mp hst with h | h
    · right
      simpa using List.mem_filter.mp h
    · left
      exact h
  · intro hn
    rw [hf, hn, List.append_nil]
  · intro hm
    rw [hm] at hr
    simp only [readJSON] at hr
    cases hr
    simp

/-- C1 at the dataset of the storage test: replacing `theater-a` by nothing. -/
theorem replaceTheaterShowtimes_merge_witness :
    ∃ s2 R, ReplaceTheaterShowtimes ⟨true, .holds sampleShowtimes⟩ "theater-a".toList [] = .ok s2 ∧
      LoadShowtimes s2 = .ok R ∧
      R.Perm (sampleShowtimes.filter (fun st => st.TheaterID ≠ "theater-a".toList) ++ []) ∧
      (sampleShowtimes.filter (fun st => st.TheaterID ≠ "theater-a".toList)).Sublist R ∧
      (∀ st ∈ R, st ∈ ([] : List Showtime) ∨
        (st ∈ sampleShowtimes ∧ st.TheaterID ≠ "theater-a".toList)) ∧
      (([] : List Showtime) = [] →
        R = sampleShowtimes.filter (fun st => st.TheaterID ≠ "theater-a".toList)) ∧
      ((⟨true, .holds sampleShowtimes⟩ : Storage).showtimes = .missing → R.Perm []) :=
  replaceTheaterShowtimes_merge ⟨true, .holds sampleShowtimes⟩ "theater-a".toList []
    sampleShowtimes rfl rfl

/-! ### The `time` package -/

namespace time

theorem digitVal_nonneg (c : Char) : 0 ≤ digitVal c := by
  unfold digitVal; exact Int.ofNat_nonneg _

theorem digitVal_le (c : Char) (h : isDigit c = true) : digitVal c ≤ 9 := by
  unfold isDigit at h
  unfold digitVal
  simp at h
  omega

theorem getnum_some (s : Str) (fixed : Bool) (n : Int) (rest : Str)
    (h : getnum s fixed = some (n, rest)) :
    (∃ c0 c1, s = c0 :: c1 :: rest ∧ isDigit c0 = true ∧ isDigit c1 = true ∧
        n = digitVal c0 * 10 + digitVal c1) ∨
    (fixed = false ∧ ∃ c0, s = c0 :: rest ∧ isDigit c0 = true ∧ n = digitVal c0 ∧
        ∀ c1 r, rest = c1 :: r → isDigit c1 = false) := by
  rcases s with _ | ⟨c0, _ | ⟨c1, r⟩⟩
  · simp [getnum] at h
  · by_cases h0 : isDigit c0 = true <;> cases fixed <;> simp [getnum, h0] at h
    obtain ⟨hn, hr⟩ := h
    subst hn hr
    exact Or.inr ⟨rfl, c0, rfl, h0, rfl, by intro c1 r hr; cases hr⟩
  · by_cases h0 : isDigit c0 = true <;> by_cases h1 : isDigit c1 = true <;> cases fixed <;>
      simp [getnum, h0, h1] at h
    · obtain ⟨hn, hr⟩ := h
      subst hn hr
      exact Or.inl ⟨c0, c1, rfl, h0, h1, rfl⟩
    · obtain ⟨hn, hr⟩ := h
      subst hn hr
      exact Or.inl ⟨c0, c1, rfl, h0, h1, rfl⟩
    · obtain ⟨hn, hr⟩ := h
      subst hn hr
      refine Or.inr ⟨rfl, c0, rfl, h0, rfl, ?_⟩
      intro c r hr
      cases hr
      simpa using h1

theorem getnum_bounds (s : Str) (fixed : Bool) (n : Int) (rest : Str)
    (h : getnum s fixed = some (n, rest)) : 0 ≤ n ∧ n ≤ 99 := by
  rcases getnum_some s fixed n rest h with ⟨c0, c1, -, h0, h1, rfl⟩ | ⟨-, c0, -, h0, rfl, -⟩
  · have := digitVal_nonneg c0
    have := digitVal_nonneg c1
    have := digitVal_le c0 h0
    have := digitVal_le c1 h1
    omega
  · have := digitVal_nonneg c0
    have := digitVal_le c0 h0
    omega

theorem lookupFrom_bounds (tab : List Str) (val : Str) (i : Nat) (n : Int) (rest : Str)
    (h : lookupFrom tab val i = some (n, rest)) : (i : Int) ≤ n ∧ n < i + tab.length := by
  induction tab generalizing i with
  | nil => simp [lookupFrom] at h
  | cons v tab ih =>
    unfold lookupFrom at h
    split at h
    · simp at h
      simp
      omega
    · have := ih (i + 1) h
      simp at this ⊢
      omega


theorem parseStd_inRange (std : Std) (f f1 : Fields) (value rest : Str)
    (hf : f.inRange) (h : parseStd std f value = some (f1, rest)) : f1.inRange := by
  unfold Fields.inRange at hf ⊢
  cases std <;> simp only [parseStd] at h
  case stdLongMonth =>
    split at h
    · rename_i i r hl
      have := lookupFrom_bounds _ _ _ _ _ hl
      simp [longMonthNames] at this
      simp at h
      obtain ⟨rfl, -⟩ := h
      simp
      omega
    · simp at h
  case stdMonth =>
    split at h
    · rename_i i r hl
      have := lookupFrom_bounds _ _ _ _ _ hl
      simp [shortMonthNames] at this
      simp at h
      obtain ⟨rfl, -⟩ := h
      simp
      omega
    · simp at h
  case stdNumMonth =>
    split at h
    · rename_i n r hg
      have := getnum_bounds _ _ _ _ hg
      split at h
      · simp at h
      · rename_i hc
        simp only [Bool.or_eq_true, decide_eq_true_eq, not_or, not_le, not_lt] at hc
        simp only [Option.some.injEq, Prod.mk.injEq] at h
        obtain ⟨rfl, -⟩ := h
        simp only
        omega
    · simp at h
  case stdZeroMonth =>
    split at h
    · rename_i n r hg
      have := getnum_bounds _ _ _ _ hg
      split at h
      · simp at h
      · rename_i hc
        simp only [Bool.or_eq_true, decide_eq_true_eq, not_or, not_le, not_lt] at hc
        simp only [Option.some.injEq, Prod.mk.injEq] at h
        obtain ⟨rfl, -⟩ := h
        simp only
        omega
    · simp at h
  case stdDay =>
    split at h
    · rename_i n r hg
      have := getnum_bounds _ _ _ _ hg
      simp only [Option.some.injEq, Prod.mk.injEq] at h
      obtain ⟨rfl, -⟩ := h
      simp only
      omega
    · simp at h
  case stdZeroDay =>
    split at h
    · rename_i n r hg
      have := getnum_bounds _ _ _ _ hg
      simp only [Option.some.injEq, Prod.mk.injEq] at h
      obtain ⟨rfl, -⟩ := h
      simp only
      omega
    · simp at h
  case stdHour =>
    split at h
    · rename_i n r hg
      have := getnum_bounds _ _ _ _ hg
      split at h
      · simp at h
      · rename_i hc
        simp only [Bool.or_eq_true, decide_eq_true_eq, not_or, not_le, not_lt] at hc
        simp only [Option.some.injEq, Prod.mk.injEq] at h
        obtain ⟨rfl, -⟩ := h
        simp only
        omega
    · simp at h
  case stdHour12 =>
    split at h
    · rename_i n r hg
      have := getnum_bounds _ _ _ _ hg
      split at h
      · simp at h
      · rename_i hc
        simp only [Bool.or_eq_true, decide_eq_true_eq, not_or, not_le, not_lt] at hc
        simp only [Option.some.injEq, Prod.mk.injEq] at h
        obtain ⟨rfl, -⟩ := h
        simp only
        omega
    · simp at h
  case stdZeroMinute =>
    split at h
    · rename_i n r hg
      have := getnum_bounds _ _ _ _ hg
      split at h
      · simp at h
      · rename_i hc
        simp only [Bool.or_eq_true, decide_eq_true_eq, not_or, not_le, not_lt] at hc
        simp only [Option.some.injEq, Prod.mk.injEq] at h
        obtain ⟨rfl, -⟩ := h
        simp only
        omega
    · simp at h
  case stdLongWeekDay =>
    split at h
    · simp at h
      obtain ⟨rfl, -⟩ := h
      exact hf
    · simp at h
  case stdLongYear =>
    split at h
    · rename_i a b c d r
      split at h
      · rename_i hd
        simp at hd
        obtain ⟨⟨⟨ha, hb⟩, hc⟩, hd⟩ := hd
        have := digitVal_nonneg a
        have := digitVal_nonneg b
        have := digitVal_nonneg c
        have := digitVal_nonneg d
        have := digitVal_le a ha
        have := digitVal_le b hb
        have := digitVal_le c hc
        have := digitVal_le d hd
        simp at h
        obtain ⟨rfl, -⟩ := h
        simp
        omega
      · simp at h
    · simp at h
  case stdPM =>
    split at h
    · split at h
      · simp at h
        obtain ⟨rfl, -⟩ := h
        exact hf
      · split at h
        · simp at h
          obtain ⟨rfl, -⟩ := h
          exact hf
        · simp at h
    · simp at h
  case stdpm =>
    split at h
    · split at h
      · simp at h
        obtain ⟨rfl, -⟩ := h
        exact hf
      · split at h
        · simp at h
          obtain ⟨rfl, -⟩ := h
          exact hf
        · simp at h
    · simp at h

theorem parseLoop_inRange (layout : Layout) (f f1 : Fields) (value : Str)
    (hf : f.inRange) (h : parseLoop layout f value = some f1) : f1.inRange := by
  induction layout generalizing f value with
  | nil =>
    simp only [parseLoop] at h
    split at h
    · cases h
      exact hf
    · cases h
  | cons c layout ih =>
    obtain ⟨pre, std⟩ := c
    simp only [parseLoop, Option.bind_eq_some] at h
    obtain ⟨v1, -, ⟨f2, v2⟩, hp, hl⟩ := h
    exact ih f2 v2 (parseStd_inRange std f f2 v1 v2 hf hp) hl


theorem daysIn_le (month year : Int) (h1 : 1 ≤ month) (h12 : month ≤ 12) :
    daysIn month year ≤ 31 := by
  have h : month = 1 ∨ month = 2 ∨ month = 3 ∨ month = 4 ∨ month = 5
      ∨ month = 6 ∨ month = 7 ∨ month = 8 ∨ month = 9 ∨ month = 10 ∨ month = 11 ∨ month = 12 := by
    omega
  rcases h with h | h | h | h | h | h | h | h | h | h | h | h <;> subst h <;>
    simp [daysIn, daysBefore]
  split <;> omega

theorem finish_isCivil (f : Fields) (t : Time) (hf : f.inRange) (h : finish f = some t) :
    t.isCivil := by
  unfold Fields.inRange at hf
  have hm : 1 ≤ (if f.month < 0 then 1 else f.month) ∧ (if f.month < 0 then 1 else f.month) ≤ 12 := by
    split <;> omega
  have hh : 0 ≤ (if (f.pmSet && decide (f.hour < 12)) = true then f.hour + 12
      else if (f.amSet && f.hour == 12) = true then 0 else f.hour) ∧
      (if (f.pmSet && decide (f.hour < 12)) = true then f.hour + 12
      else if (f.amSet && f.hour == 12) = true then 0 else f.hour) < 24 := by
    split
    · rename_i hp
      simp at hp
      omega
    · split <;> omega
  unfold finish at h
  simp only at h
  generalize (if f.month < 0 then 1 else f.month) = month at h hm
  generalize (if f.day < 0 then (1 : Int) else f.day) = day at h
  generalize (if (f.pmSet && decide (f.hour < 12)) = true then f.hour + 12
      else if (f.amSet && f.hour == 12) = true then 0 else f.hour) = hour at h hh
  by_cases hd : (decide (day < 1) || decide (day > daysIn month f.year)) = true
  · simp [hd] at h
  · rw [if_neg hd] at h
    simp only [Option.some.injEq] at h
    subst h
    simp only [Bool.or_eq_true, decide_eq_true_eq, not_or, not_lt] at hd
    unfold Time.isCivil Date
    simp only
    exact ⟨hf.1, hf.2.1, hm.1, hm.2, hd.1, by omega, hh.1, hh.2, hf.2.2.2.2.2.2.2.2.2.1,
      hf.2.2.2.2.2.2.2.2.2.2⟩

theorem Parse_isCivil (layout : Layout) (value : Str) (t : Time)
    (h : Parse layout value = some t) : t.isCivil := by
  simp only [Parse, Option.bind_eq_some] at h
  obtain ⟨f, hl, hfin⟩ := h
  refine finish_isCivil f t (parseLoop_inRange layout Fields.init f value ?_ hl) hfin
  simp [Fields.inRange, Fields.init]


theorem digit_toNat (k : Nat) (h : k < 10) : (digit k).toNat = 48 + k := by
  interval_cases k <;> rfl

theorem appendInt_two (x : Int) (h0 : 0 ≤ x) (h1 : x < 100) :
    appendInt x 2 = [digit (x.natAbs / 10), digit (x.natAbs % 10)] := by
  have h2 : ¬ x < 0 := by omega
  have h3 : x.natAbs < 100 := by omega
  simp [appendInt, h2, h3]

theorem appendInt_four (x : Int) (h0 : 0 ≤ x) (h1 : x < 10000) :
    appendInt x 4 = [digit (x.natAbs / 100 / 10), digit (x.natAbs / 100 % 10),
      digit (x.natAbs % 100 / 10), digit (x.natAbs % 100 % 10)] := by
  have h2 : ¬ x < 0 := by omega
  have h3 : x.natAbs < 10000 := by omega
  simp [appendInt, h2, h3]

end time

open time

theorem runeBytes_digit (k : Nat) (h : k < 10) : runeBytes (digit k) = [48 + k] := by
  have := digit_toNat k h
  unfold runeBytes
  simp only [this]
  rw [if_pos (by omega)]

theorem normalizeDate_digits (a b c d e f g h : Nat) (ha : a < 10) (hb : b < 10) (hc : c < 10)
    (hd : d < 10) (he : e < 10) (hf : f < 10) (hg : g < 10) (hh : h < 10) :
    normalizeDate [digit a, digit b, digit c, digit d, '-', digit e, digit f, '-', digit g,
      digit h] = [digit a, digit b, digit c, digit d, '-', digit e, digit f, '-', digit g,
      digit h] := by
  have hdash : runeBytes '-' = [45] := by decide
  have hu : utf8 [digit a, digit b, digit c, digit d, '-', digit e, digit f, '-', digit g,
      digit h] = [48 + a, 48 + b, 48 + c, 48 + d, 45, 48 + e, 48 + f, 45, 48 + g, 48 + h] := by
    simp [utf8, runeBytes_digit, hdash, *]
  unfold normalizeDate
  rw [if_pos]
  simp [len, byteIs, hu]

theorem FormatISO_digits (t : Time) (ht : t.isCivil) :
    ∃ a b c d e f g h : Nat, a < 10 ∧ b < 10 ∧ c < 10 ∧ d < 10 ∧ e < 10 ∧ f < 10 ∧ g < 10 ∧
      h < 10 ∧ t.FormatISO = [digit a, digit b, digit c, digit d, '-', digit e, digit f, '-',
        digit g, digit h] := by
  obtain ⟨hy0, hy1, hm0, hm1, hd0, hd1, -⟩ := ht
  have := daysIn_le t.month t.year hm0 hm1
  refine ⟨t.year.natAbs / 100 / 10, t.year.natAbs / 100 % 10, t.year.natAbs % 100 / 10,
    t.year.natAbs % 100 % 10, t.month.natAbs / 10, t.month.natAbs % 10, t.day.natAbs / 10,
    t.day.natAbs % 10, by omega, by omega, by omega, by omega, by omega, by omega, by omega,
    by omega, ?_⟩
  unfold Time.FormatISO
  rw [appendInt_four _ hy0 hy1, appendInt_two _ (by omega) (by omega),
    appendInt_two _ (by omega) (by omega)]
  rfl

theorem firstParse_some (layouts : List Layout) (value : Str) (t : Time)
    (h : firstParse layouts value = some t) : ∃ layout ∈ layouts, Parse layout value = some t := by
  induction layouts with
  | nil => simp [firstParse] at h
  | cons l ls ih =>
    unfold firstParse at h
    split at h
    · rename_i t1 hp
      cases h
      exact ⟨l, List.mem_cons_self _ _, hp⟩
    · obtain ⟨l1, hl1, hp⟩ := ih h
      exact ⟨l1, List.mem_cons_of_mem _ hl1, hp⟩

/-- C4. `normalizeDate` is idempotent: normalising its result again gives the same
result, for every input. -/
theorem normalizeDate_idempotent (x : Str) : normalizeDate (normalizeDate x) = normalizeDate x := by
  by_cases hc : (len x == 10 && byteIs x 4 '-' && byteIs x 7 '-') = true
  · have hx : normalizeDate x = x := by
      unfold normalizeDate
      rw [if_pos hc]
    rw [hx, hx]
  · have hx : normalizeDate x = match firstParse [time.layoutISO, time.layoutSlashZero,
        time.layoutSlash, time.layoutLongMonth, time.layoutMonth, time.layoutWeekDay] x with
        | some t => t.FormatISO
        | none => [] := by
      unfold normalizeDate
      exact if_neg hc
    rw [hx]
    split
    · rename_i t ht
      obtain ⟨layout, -, hp⟩ := firstParse_some _ _ _ ht
      obtain ⟨a, b, c, d, e, f, g, h, ha, hb, hc, hd, he, hf, hg, hh, heq⟩ :=
        FormatISO_digits t (Parse_isCivil layout x t hp)
      rw [heq]
      exact normalizeDate_digits a b c d e f g h ha hb hc hd he hf hg hh
    · decide

/-! ### The validity window and the identity of a showtime -/

theorem skip_dash (v r : Str) (h : skip v ['-'] = some r) : v = '-' :: r := by
  rcases v with _ | ⟨c, vs⟩
  · simp [skip, skipFrom] at h
  · by_cases hc : c = '-'
    · subst hc
      simp [skip, skipFrom] at h
      rw [h]
    · simp [skip, skipFrom, hc] at h

theorem calendarDate_some (s : Str) (y m d : Int) (h : calendarDate s = some (y, m, d)) :
    ∃ y1 y2 y3 y4 m1 m2 d1 d2, s = [y1, y2, y3, y4, '-', m1, m2, '-', d1, d2] ∧
      isDigit y1 = true ∧ isDigit y2 = true ∧ isDigit y3 = true ∧ isDigit y4 = true ∧
      isDigit m1 = true ∧ isDigit m2 = true ∧ isDigit d1 = true ∧ isDigit d2 = true ∧
      y = ((digitVal y1 * 10 + digitVal y2) * 10 + digitVal y3) * 10 + digitVal y4 ∧
      m = digitVal m1 * 10 + digitVal m2 ∧ d = digitVal d1 * 10 + digitVal d2 ∧
      1 ≤ m ∧ m ≤ 12 ∧ 1 ≤ d ∧ d ≤ daysIn m y := by
  unfold calendarDate at h
  split at h
  · rename_i y1 y2 y3 y4 s1 m1 m2 s2 d1 d2
    split at h
    · rename_i hdig
      simp only [Bool.and_eq_true, beq_iff_eq] at hdig
      obtain ⟨⟨⟨⟨⟨⟨⟨⟨⟨h1, h2⟩, h3⟩, h4⟩, rfl⟩, h5⟩, h6⟩, rfl⟩, h7⟩, h8⟩ := hdig
      simp only at h
      split at h
      · rename_i hr
        simp only [Bool.and_eq_true, decide_eq_true_eq] at hr
        simp only [Option.some.injEq, Prod.mk.injEq] at h
        obtain ⟨rfl, rfl, rfl⟩ := h
        exact ⟨y1, y2, y3, y4, m1, m2, d1, d2, rfl, h1, h2, h3, h4, h5, h6, h7, h8, rfl, rfl, rfl,
          hr.1.1.1, hr.1.1.2, hr.1.2, hr.2⟩
      · cases h
    · cases h
  · cases h

theorem calendarDate_digits (y1 y2 y3 y4 m1 m2 d1 d2 : Char)
    (h1 : isDigit y1 = true) (h2 : isDigit y2 = true) (h3 : isDigit y3 = true)
    (h4 : isDigit y4 = true) (h5 : isDigit m1 = true) (h6 : isDigit m2 = true)
    (h7 : isDigit d1 = true) (h8 : isDigit d2 = true)
    (hm : 1 ≤ digitVal m1 * 10 + digitVal m2 ∧ digitVal m1 * 10 + digitVal m2 ≤ 12)
    (hd : 1 ≤ digitVal d1 * 10 + digitVal d2 ∧ digitVal d1 * 10 + digitVal d2 ≤
      daysIn (digitVal m1 * 10 + digitVal m2)
        (((digitVal y1 * 10 + digitVal y2) * 10 + digitVal y3) * 10 + digitVal y4)) :
    calendarDate [y1, y2, y3, y4, '-', m1, m2, '-', d1, d2] =
      some (((digitVal y1 * 10 + digitVal y2) * 10 + digitVal y3) * 10 + digitVal y4,
        digitVal m1 * 10 + digitVal m2, digitVal d1 * 10 + digitVal d2) := by
  simp [calendarDate, h1, h2, h3, h4, h5, h6, h7, h8, hm.1, hm.2, hd.1, hd.2]

theorem Parse_layoutISO_digits (y1 y2 y3 y4 m1 m2 d1 d2 : Char)
    (h1 : isDigit y1 = true) (h2 : isDigit y2 = true) (h3 : isDigit y3 = true)
    (h4 : isDigit y4 = true) (h5 : isDigit m1 = true) (h6 : isDigit m2 = true)
    (h7 : isDigit d1 = true) (h8 : isDigit d2 = true)
    (hm : 1 ≤ digitVal m1 * 10 + digitVal m2 ∧ digitVal m1 * 10 + digitVal m2 ≤ 12)
    (hd : 1 ≤ digitVal d1 * 10 + digitVal d2 ∧ digitVal d1 * 10 + digitVal d2 ≤
      daysIn (digitVal m1 * 10 + digitVal m2)
        (((digitVal y1 * 10 + digitVal y2) * 10 + digitVal y3) * 10 + digitVal y4)) :
    Parse layoutISO [y1, y2, y3, y4, '-', m1, m2, '-', d1, d2] =
      some (Date (((digitVal y1 * 10 + digitVal y2) * 10 + digitVal y3) * 10 + digitVal y4)
        (digitVal m1 * 10 + digitVal m2) (digitVal d1 * 10 + digitVal d2) 0 0) := by
  have hm0 : ¬ (digitVal m1 * 10 + digitVal m2 ≤ 0) := by omega
  have hm1 : ¬ (12 < digitVal m1 * 10 + digitVal m2) := by omega
  have hm2 : ¬ (digitVal m1 * 10 + digitVal m2 < 0) := by omega
  have hd0 : ¬ (digitVal d1 * 10 + digitVal d2 < 0) := by omega
  have hd1 : ¬ (digitVal d1 * 10 + digitVal d2 < 1) := by omega
  have hd2 : ¬ (daysIn (digitVal m1 * 10 + digitVal m2)
        (((digitVal y1 * 10 + digitVal y2) * 10 + digitVal y3) * 10 + digitVal y4) <
        digitVal d1 * 10 + digitVal d2) := by omega
  simp [Parse, layoutISO, parseLoop, parseStd, skip, skipFrom, getnum, Fields.init, finish,
    h1, h2, h3, h4, h5, h6, h7, h8, hm0, hm1, hm2, hd0, hd1, hd2]

theorem Parse_layoutISO_some (s : Str) (t : Time) (h : Parse layoutISO s = some t) :
    ∃ y1 y2 y3 y4 m1 m2 d1 d2, s = [y1, y2, y3, y4, '-', m1, m2, '-', d1, d2] ∧
      isDigit y1 = true ∧ isDigit y2 = true ∧ isDigit y3 = true ∧ isDigit y4 = true ∧
      isDigit m1 = true ∧ isDigit m2 = true ∧ isDigit d1 = true ∧ isDigit d2 = true ∧
      (1 ≤ digitVal m1 * 10 + digitVal m2 ∧ digitVal m1 * 10 + digitVal m2 ≤ 12) ∧
      (1 ≤ digitVal d1 * 10 + digitVal d2 ∧ digitVal d1 * 10 + digitVal d2 ≤
        daysIn (digitVal m1 * 10 + digitVal m2)
          (((digitVal y1 * 10 + digitVal y2) * 10 + digitVal y3) * 10 + digitVal y4)) := by
  simp only [Parse, layoutISO, parseLoop, Option.bind_eq_some] at h
  obtain ⟨f, ⟨v1, hs1, ⟨f1, v2⟩, hp1, v3, hs2, ⟨f2, v4⟩, hp2, v5, hs3, ⟨f3, v6⟩, hp3, hend⟩,
    hfin⟩ := h
  simp only at hs2 hp2 hs3 hp3 hend
  have hv1 : v1 = s := by
    simp [skip, skipFrom] at hs1
    exact hs1.symm
  subst hv1
  have hv2 := skip_dash _ _ hs2
  have hv4 := skip_dash _ _ hs3
  subst hv2 hv4
  -- the year
  simp only [parseStd] at hp1
  split at hp1
  case h_2 => cases hp1
  rename_i y1 y2 y3 y4 r1
  split at hp1
  case isFalse => cases hp1
  rename_i hy
  simp only [Bool.and_eq_true] at hy
  simp only [Option.some.injEq, Prod.mk.injEq] at hp1
  obtain ⟨hf1, hr1⟩ := hp1
  subst hr1
  -- the month
  simp only [parseStd] at hp2
  split at hp2
  case h_2 => cases hp2
  rename_i m r2 hg2
  split at hp2
  case isTrue => cases hp2
  rename_i hmr
  simp only [Option.some.injEq, Prod.mk.injEq] at hp2
  obtain ⟨hf2, hr2⟩ := hp2
  subst hr2
  rcases getnum_some _ _ _ _ hg2 with ⟨m1, m2, hv3, hm1, hm2, hm⟩ | ⟨hfix, -⟩
  swap
  · cases hfix
  subst hv3
  -- the day
  simp only [parseStd] at hp3
  split at hp3
  case h_2 => cases hp3
  rename_i d r3 hg3
  simp only [Option.some.injEq, Prod.mk.injEq] at hp3
  obtain ⟨hf3, hr3⟩ := hp3
  subst hr3
  rcases getnum_some _ _ _ _ hg3 with ⟨d1, d2, hv5, hd1, hd2, hd⟩ | ⟨hfix, -⟩
  swap
  · cases hfix
  subst hv5
  -- the end of the value
  split at hend
  case isFalse => cases hend
  rename_i hempty
  simp only [List.isEmpty_iff] at hempty
  subst hempty
  simp only [Option.some.injEq] at hend
  subst hend hf3 hf2 hf1
  refine ⟨y1, y2, y3, y4, m1, m2, d1, d2, rfl, hy.1.1.1, hy.1.1.2, hy.1.2, hy.2, hm1, hm2, hd1,
    hd2, ?_, ?_⟩
  · simp only [Bool.or_eq_true, decide_eq_true_eq, not_or, not_le, not_lt] at hmr
    omega
  · simp only [Bool.or_eq_true, decide_eq_true_eq, not_or, not_le, not_lt] at hmr
    have hm0 : ¬ (m < 0) := by omega
    have hd0 : ¬ (d < 0) := by
      have := digitVal_nonneg d1
      have := digitVal_nonneg d2
      omega
    simp only [finish, Fields.init, hm0, hd0, ↓reduceIte] at hfin
    split at hfin
    · cases hfin
    · rename_i hdr
      simp only [Bool.or_eq_true, decide_eq_true_eq, not_or, not_le, not_lt] at hdr
      subst hm hd
      exact ⟨hdr.1, hdr.2⟩

/-- `time.Parse("2006-01-02", s)` succeeds exactly on the calendar dates written
`YYYY-MM-DD`, and yields midnight of that date. -/
theorem Parse_layoutISO_eq (s : Str) :
    Parse layoutISO s = (calendarDate s).map (fun p => Date p.1 p.2.1 p.2.2 0 0) := by
  cases hP : Parse layoutISO s with
  | some t =>
    obtain ⟨y1, y2, y3, y4, m1, m2, d1, d2, rfl, h1, h2, h3, h4, h5, h6, h7, h8, hm, hd⟩ :=
      Parse_layoutISO_some s t hP
    rw [Parse_layoutISO_digits y1 y2 y3 y4 m1 m2 d1 d2 h1 h2 h3 h4 h5 h6 h7 h8 hm hd] at hP
    rw [calendarDate_digits y1 y2 y3 y4 m1 m2 d1 d2 h1 h2 h3 h4 h5 h6 h7 h8 hm hd, ← hP]
    rfl
  | none =>
    cases hC : calendarDate s with
    | none => rfl
    | some p =>
      obtain ⟨y, m, d⟩ := p
      obtain ⟨y1, y2, y3, y4, m1, m2, d1, d2, rfl, h1, h2, h3, h4, h5, h6, h7, h8, rfl, rfl, rfl,
        hm0, hm1, hd0, hd1⟩ := calendarDate_some s y m d hC
      rw [Parse_layoutISO_digits y1 y2 y3 y4 m1 m2 d1 d2 h1 h2 h3 h4 h5 h6 h7 h8 ⟨hm0, hm1⟩
        ⟨hd0, hd1⟩] at hP
      cases hP

theorem daysSinceEpoch_succ (y : Int) :
    daysSinceEpoch (y + 1) = daysSinceEpoch y + 365 + (if isLeap y = true then 1 else 0) := by
  unfold daysSinceEpoch isLeap
  simp only [Bool.and_eq_true, Bool.or_eq_true, beq_iff_eq, bne_iff_ne, ne_eq]
  split <;> omega

/-- Three calendar months later is never earlier: `today` is not after
`today.AddDate(0, 3, 0)`. -/
theorem absDays_le_addMonths (now : Clock) :
    absDays now.year now.month now.day ≤ absDays now.year (now.month + 3) now.day := by
  obtain ⟨y, m, d, hm0, hm1, -, -⟩ := now
  simp only
  have h : m = 1 ∨ m = 2 ∨ m = 3 ∨ m = 4 ∨ m = 5 ∨ m = 6 ∨ m = 7 ∨ m = 8 ∨ m = 9 ∨ m = 10 ∨
      m = 11 ∨ m = 12 := by omega
  have hs := daysSinceEpoch_succ y
  rcases h with h | h | h | h | h | h | h | h | h | h | h | h <;> subst h <;>
    simp [absDays, daysBefore, hs] <;> repeat' split <;> omega

theorem daysSinceEpoch_mono (y y' : Int) (h : y ≤ y') : daysSinceEpoch y ≤ daysSinceEpoch y' := by
  unfold daysSinceEpoch
  simp only
  omega

theorem absDays_month (y m d : Int) (h1 : 1 ≤ m) (h12 : m ≤ 12) :
    absDays y m d = daysSinceEpoch y + monthStart y m + (d - 1) := by
  have h : m = 1 ∨ m = 2 ∨ m = 3 ∨ m = 4 ∨ m = 5 ∨ m = 6 ∨ m = 7 ∨ m = 8 ∨ m = 9 ∨ m = 10 ∨
      m = 11 ∨ m = 12 := by omega
  rcases h with h | h | h | h | h | h | h | h | h | h | h | h <;> subst h <;>
    simp [absDays, daysBefore, monthStart] <;> omega

theorem monthStart_succ (y m : Int) (h1 : 1 ≤ m) (h12 : m ≤ 12) :
    monthStart y (m + 1) = monthStart y m + daysIn m y := by
  have h : m = 1 ∨ m = 2 ∨ m = 3 ∨ m = 4 ∨ m = 5 ∨ m = 6 ∨ m = 7 ∨ m = 8 ∨ m = 9 ∨ m = 10 ∨
      m = 11 ∨ m = 12 := by omega
  cases hl : isLeap y <;>
  rcases h with h | h | h | h | h | h | h | h | h | h | h | h <;> subst h <;>
    simp [daysBefore, daysIn, monthStart, hl]

theorem daysIn_pos (y m : Int) (h1 : 1 ≤ m) (h12 : m ≤ 12) : 28 ≤ daysIn m y := by
  have h : m = 1 ∨ m = 2 ∨ m = 3 ∨ m = 4 ∨ m = 5 ∨ m = 6 ∨ m = 7 ∨ m = 8 ∨ m = 9 ∨ m = 10 ∨
      m = 11 ∨ m = 12 := by omega
  cases hl : isLeap y <;>
  rcases h with h | h | h | h | h | h | h | h | h | h | h | h <;> subst h <;>
    simp [daysBefore, daysIn, hl]

theorem monthStart_mono (y m : Int) (k : Nat) (h1 : 1 ≤ m) (h13 : m + k ≤ 13) :
    monthStart y m ≤ monthStart y (m + k) := by
  induction k with
  | zero => simp
  | succ k ih =>
    have h := ih (by push_cast at h13 ⊢; omega)
    have hs := monthStart_succ y (m + k) (by omega) (by push_cast at h13; omega)
    have hp := daysIn_pos y (m + k) (by omega) (by push_cast at h13; omega)
    have he : m + ((k + 1 : Nat) : Int) = m + (k : Int) + 1 := by push_cast; omega
    rw [he, hs]
    omega

theorem monthStart_nonneg (y m : Int) (h1 : 1 ≤ m) (h12 : m ≤ 12) : 0 ≤ monthStart y m := by
  have h := monthStart_mono y 1 (m - 1).toNat (le_refl _) (by omega)
  have he : (1 : Int) + ((m - 1).toNat : Int) = m := by omega
  rw [he] at h
  have h0 : monthStart y 1 = 0 := by simp [monthStart, daysBefore]
  omega

theorem monthStart_end (y : Int) : monthStart y 13 = 365 + (if isLeap y = true then 1 else 0) := by
  simp [monthStart, daysBefore]

theorem yearEnd_lt (y m d : Int) (h1 : 1 ≤ m) (h12 : m ≤ 12) (hd : d ≤ daysIn m y) :
    absDays y m d < daysSinceEpoch (y + 1) := by
  rw [absDays_month y m d h1 h12, daysSinceEpoch_succ]
  have hs := monthStart_succ y m h1 h12
  have hm := monthStart_mono y (m + 1) (12 - m).toNat (by omega) (by omega)
  have he : m + 1 + ((12 - m).toNat : Int) = 13 := by omega
  rw [he, monthStart_end] at hm
  omega

theorem absDays_lt_of_before (y m d y' m' d' : Int) (h1 : 1 ≤ m) (h12 : m ≤ 12)
    (hd : d ≤ daysIn m y) (h1' : 1 ≤ m') (h12' : m' ≤ 12) (hd' : 1 ≤ d')
    (h : y < y' ∨ (y = y' ∧ (m < m' ∨ (m = m' ∧ d < d')))) :
    absDays y m d < absDays y' m' d' := by
  rcases h with hy | ⟨rfl, hm | ⟨rfl, hdd⟩⟩
  · have ha := yearEnd_lt y m d h1 h12 hd
    have hb := daysSinceEpoch_mono (y + 1) y' (by omega)
    have hc := absDays_month y' m' d' h1' h12'
    have hnn := monthStart_nonneg y' m' h1' h12'
    omega
  · rw [absDays_month y m d h1 h12, absDays_month y m' d' h1' h12']
    have hs := monthStart_succ y m h1 h12
    have hm := monthStart_mono y (m + 1) (m' - (m + 1)).toNat (by omega) (by omega)
    have he : m + 1 + ((m' - (m + 1)).toNat : Int) = m' := by omega
    rw [he] at hm
    omega
  · rw [absDays_month y m d h1 h12, absDays_month y m d' h1' h12']
    omega

/-- On calendar dates the day numbers of `time.Date` are ordered like the dates. -/
theorem absDays_le_iff (y m d y' m' d' : Int) (h1 : 1 ≤ m) (h12 : m ≤ 12) (hd1 : 1 ≤ d)
    (hd : d ≤ daysIn m y) (h1' : 1 ≤ m') (h12' : m' ≤ 12) (hd1' : 1 ≤ d')
    (hd' : d' ≤ daysIn m' y') :
    absDays y m d ≤ absDays y' m' d' ↔ dateLE y m d y' m' d' := by
  unfold dateLE
  constructor
  · intro hle
    by_contra hnot
    have hgt : y' < y ∨ (y' = y ∧ (m' < m ∨ (m' = m ∧ d' < d))) := by omega
    have := absDays_lt_of_before y' m' d' y m d h1' h12' hd' h1 h12 hd1 hgt
    omega
  · intro hle
    by_cases heq : y = y' ∧ m = m' ∧ d = d'
    · obtain ⟨rfl, rfl, rfl⟩ := heq
      exact le_refl _
    · have hlt : y < y' ∨ (y = y' ∧ (m < m' ∨ (m = m' ∧ d < d'))) := by omega
      exact le_of_lt (absDays_lt_of_before y m d y' m' d' h1 h12 hd h1' h12' hd1' hlt)

/-- The day number of `today.AddDate(0, 3, 0)` is that of the same day of the
month three months later, whether or not that day exists. -/
theorem maxDateDays_eq (now : Clock) :
    maxDateDays now = absDays (threeMonthsLater now.year now.month).1
      (threeMonthsLater now.year now.month).2 now.day := by
  obtain ⟨y, m, d, hm0, hm1, -, -⟩ := now
  simp only [maxDateDays, threeMonthsLater]
  have h : m = 1 ∨ m = 2 ∨ m = 3 ∨ m = 4 ∨ m = 5 ∨ m = 6 ∨ m = 7 ∨ m = 8 ∨ m = 9 ∨ m = 10 ∨
      m = 11 ∨ m = 12 := by omega
  rcases h with h | h | h | h | h | h | h | h | h | h | h | h <;> subst h <;>
    simp [absDays]

theorem createShowtime_isSome_iff (s : Scraper) (now : Clock)
    (movieTitle date timeStr format link : Str) :
    (createShowtime s now movieTitle date timeStr format link).isSome = true ↔
      date ≠ [] ∧ timeStr ≠ [] ∧ ∃ y m d, calendarDate date = some (y, m, d) ∧
        todayDays now ≤ absDays y m d ∧ absDays y m d ≤ maxDateDays now := by
  unfold createShowtime
  rw [Parse_layoutISO_eq]
  by_cases hd : date = []
  · simp [hd]
  by_cases ht : timeStr = []
  · simp [ht]
  have he : (date.isEmpty || timeStr.isEmpty) = false := by
    simp [List.isEmpty_iff, hd, ht]
  rw [he]
  simp only [Bool.false_eq_true, ↓reduceIte, ne_eq, hd, not_false_eq_true, ht, true_and]
  cases hC : calendarDate date with
  | none => simp
  | some p =>
    obtain ⟨y, m, d⟩ := p
    simp only [Option.map_some', Time.Before, Time.After, Time.abs, Time.AddDate, Date,
      Option.some.injEq, Prod.mk.injEq, exists_and_left, exists_eq_left',
      todayDays, maxDateDays]
    split
    · rename_i hout
      simp only [Bool.or_eq_true, decide_eq_true_eq] at hout
      simp only [Option.isSome_none, Bool.false_eq_true, false_iff, not_exists, not_and, not_le]
      rintro y' m' d' ⟨rfl, rfl, rfl⟩ hle
      simp only [add_zero] at hout
      omega
    · rename_i hin
      simp only [Bool.or_eq_true, decide_eq_true_eq, not_or, not_lt, add_zero] at hin
      simp only [Option.isSome_some, true_iff]
      exact ⟨y, m, d, ⟨rfl, rfl, rfl⟩, by omega, by omega⟩

/-- C2. For a fixed clock reading, `createShowtime` returns a showtime exactly
when date and time are non-empty, the date is a calendar date written
`YYYY-MM-DD`, and its day lies between `today` and `maxDate = today.AddDate(0,
3, 0)`, both included; so a date on the day of `today` or of `maxDate` is
accepted, and the day before `today` and the day after `maxDate` are rejected.
The day numbers compare like calendar dates: the lower bound says that today's
date is not after the date, and when today's day of the month exists three
months later, the upper bound says that the date is not after that day. -/
theorem createShowtime_window (s : Scraper) (now : Clock)
    (movieTitle date timeStr format link : Str) :
    ((createShowtime s now movieTitle date timeStr format link).isSome = true ↔
      date ≠ [] ∧ timeStr ≠ [] ∧ ∃ y m d, calendarDate date = some (y, m, d) ∧
        todayDays now ≤ absDays y m d ∧ absDays y m d ≤ maxDateDays now) ∧
    (∀ y m d, timeStr ≠ [] → calendarDate date = some (y, m, d) →
      (absDays y m d = todayDays now →
        (createShowtime s now movieTitle date timeStr format link).isSome = true) ∧
      (absDays y m d = maxDateDays now →
        (createShowtime s now movieTitle date timeStr format link).isSome = true) ∧
      (absDays y m d = todayDays now - 1 →
        createShowtime s now movieTitle date timeStr format link = none) ∧
      (absDays y m d = maxDateDays now + 1 →
        createShowtime s now movieTitle date timeStr format link = none)) ∧
    (∀ y m d, calendarDate date = some (y, m, d) →
      (todayDays now ≤ absDays y m d ↔ dateLE now.year now.month now.day y m d) ∧
      (now.day ≤ daysIn (threeMonthsLater now.year now.month).2
          (threeMonthsLater now.year now.month).1 →
        (absDays y m d ≤ maxDateDays now ↔
          dateLE y m d (threeMonthsLater now.year now.month).1
            (threeMonthsLater now.year now.month).2 now.day))) := by
  have hiff := createShowtime_isSome_iff s now movieTitle date timeStr format link
  have hle : todayDays now ≤ maxDateDays now := absDays_le_addMonths now
  refine ⟨hiff, ?_, ?_⟩
  · intro y m d ht hC
    have hd : date ≠ [] := by
      intro h
      rw [h] at hC
      simp [calendarDate] at hC
    refine ⟨?_, ?_, ?_, ?_⟩
    · intro h
      exact hiff.mpr ⟨hd, ht, y, m, d, hC, by omega, by omega⟩
    · intro h
      exact hiff.mpr ⟨hd, ht, y, m, d, hC, by omega, by omega⟩
    · intro h
      rw [← Option.not_isSome_iff_eq_none]
      intro hs
      obtain ⟨-, -, y', m', d', hC', h1, h2⟩ := hiff.mp hs
      rw [hC] at hC'
      simp only [Option.some.injEq, Prod.mk.injEq] at hC'
      obtain ⟨rfl, rfl, rfl⟩ := hC'
      omega
    · intro h
      rw [← Option.not_isSome_iff_eq_none]
      intro hs
      obtain ⟨-, -, y', m', d', hC', h1, h2⟩ := hiff.mp hs
      rw [hC] at hC'
      simp only [Option.some.injEq, Prod.mk.injEq] at hC'
      obtain ⟨rfl, rfl, rfl⟩ := hC'
      omega
  · intro y m d hC
    obtain ⟨_, _, _, _, _, _, _, _, -, -, -, -, -, -, -, -, -, -, -, -, hm1, hm12, hd1, hdm⟩ :=
      calendarDate_some date y m d hC
    obtain ⟨hn1, hn12, hnd1, hndm⟩ := now.valid
    refine ⟨absDays_le_iff _ _ _ _ _ _ hn1 hn12 hnd1 hndm hm1 hm12 hd1 hdm, ?_⟩
    intro hex
    rw [maxDateDays_eq now]
    have hM : 1 ≤ (threeMonthsLater now.year now.month).2 ∧
        (threeMonthsLater now.year now.month).2 ≤ 12 := by
      unfold threeMonthsLater
      split <;> simp only <;> omega
    exact absDays_le_iff _ _ _ _ _ _ hm1 hm12 hd1 hdm hM.1 hM.2 hnd1 hex

theorem createShowtime_some_ID (s : Scraper) (now : Clock)
    (movieTitle date timeStr format link : Str) (a : Showtime)
    (h : createShowtime s now movieTitle date timeStr format link = some a) :
    a.ID = s.theater.ID ++ ['-'] ++ removeAll date '-' ++ ['-'] ++ removeAll timeStr ':' := by
  unfold createShowtime at h
  split at h
  · cases h
  · split at h
    · cases h
    · simp only at h
      split at h
      · cases h
      · simp only [Option.some.injEq] at h
        rw [← h]

theorem isDigit_ne_colon (c : Char) (h : isDigit c = true) : c ≠ ':' := by
  rintro rfl
  revert h
  decide

theorem removeAll_canonicalTime (t : Str) (h : isCanonicalTime t = true) :
    ∃ a b c d, t = [a, b, ':', c, d] ∧ removeAll t ':' = [a, b, c, d] := by
  unfold isCanonicalTime at h
  split at h
  · rename_i a b k c d
    simp only [Bool.and_eq_true, beq_iff_eq, decide_eq_true_eq] at h
    obtain ⟨⟨⟨⟨⟨⟨ha, hb⟩, rfl⟩, hc⟩, hd⟩, -⟩, -⟩ := h
    refine ⟨a, b, c, d, rfl, ?_⟩
    have ha1 : (a != ':') = true := by simp [isDigit_ne_colon a ha]
    have hb1 : (b != ':') = true := by simp [isDigit_ne_colon b hb]
    have hc1 : (c != ':') = true := by simp [isDigit_ne_colon c hc]
    have hd1 : (d != ':') = true := by simp [isDigit_ne_colon d hd]
    simp [removeAll, List.filter_cons, ha1, hb1, hc1, hd1]
  · cases h

/-- C3 (amended). For one theater and one accepted date, two different times
in canonical `HH:MM` form give showtimes with different ids. -/
theorem createShowtime_ids_differ (s : Scraper) (now : Clock)
    (title1 title2 date t1 t2 format1 format2 link1 link2 : Str) (a b : Showtime)
    (ha : createShowtime s now title1 date t1 format1 link1 = some a)
    (hb : createShowtime s now title2 date t2 format2 link2 = some b)
    (h1 : isCanonicalTime t1 = true) (h2 : isCanonicalTime t2 = true) (hne : t1 ≠ t2) :
    a.ID ≠ b.ID := by
  rw [createShowtime_some_ID _ _ _ _ _ _ _ _ ha, createShowtime_some_ID _ _ _ _ _ _ _ _ hb]
  intro heq
  have heq2 := List.append_cancel_left heq
  obtain ⟨a1, b1, c1, d1, rfl, hr1⟩ := removeAll_canonicalTime t1 h1
  obtain ⟨a2, b2, c2, d2, rfl, hr2⟩ := removeAll_canonicalTime t2 h2
  rw [hr1, hr2] at heq2
  simp only [List.cons.injEq, and_true] at heq2
  obtain ⟨rfl, rfl, rfl, rfl⟩ := heq2
  exact hne rfl

/-- C3 at the two showtimes of the id test, 19:00 and 21:00 on 2026-02-15. -/
theorem createShowtime_ids_differ_witness :
    ∃ a b, createShowtime NewScraper clockFeb2026 "Movie".toList "2026-02-15".toList
        "19:00".toList "digital".toList "link".toList = some a ∧
      createShowtime NewScraper clockFeb2026 "Movie".toList "2026-02-15".toList
        "21:00".toList "digital".toList "link".toList = some b ∧ a.ID ≠ b.ID :=
  ⟨_, _, rfl, rfl, createShowtime_ids_differ NewScraper clockFeb2026 "Movie".toList
    "Movie".toList "2026-02-15".toList "19:00".toList "21:00".toList "digital".toList
    "digital".toList "link".toList "link".toList _ _ (by decide) (by decide) (by decide)
    (by decide) (by decide)⟩

/-- C3 as stated fails: the different time strings `19:00` and `1900` on the
same accepted date give the same id. -/
theorem createShowtime_ids_collide :
    ∃ a b, createShowtime NewScraper clockFeb2026 "Movie".toList "2026-02-15".toList
        "19:00".toList "digital".toList "link".toList = some a ∧
      createShowtime NewScraper clockFeb2026 "Movie".toList "2026-02-15".toList
        "1900".toList "digital".toList "link".toList = some b ∧
      "19:00".toList ≠ "1900".toList ∧ a.ID = b.ID :=
  ⟨_, _, rfl, rfl, by decide, by decide⟩

/-! ### Dates and times that are passed through -/

/-- C5 fails on the code: a text of ten bytes with `-` at positions 4 and 7 is
returned as it is, although it is neither empty nor a calendar date. -/
theorem normalizeDate_returns_malformed :
    normalizeDate "2026-13-45".toList = "2026-13-45".toList ∧
      isCanonicalDate "2026-13-45".toList = false ∧
      normalizeDate "abcd-ef-gh".toList = "abcd-ef-gh".toList ∧
      isCanonicalDate "abcd-ef-gh".toList = false := by
  decide

/-- C7 fails on the code: a text of five bytes with `:` at position 2 is returned
as it is, although it is neither empty nor a 24-hour time, and `createShowtime`
then accepts it as the time of a showtime. -/
theorem normalizeTime_returns_malformed :
    normalizeTime "99:99".toList = "99:99".toList ∧
      isCanonicalTime "99:99".toList = false ∧
      normalizeTime "ab:cd".toList = "ab:cd".toList ∧
      isCanonicalTime "ab:cd".toList = false ∧
      (createShowtime NewScraper clockFeb2026 "Movie".toList "2026-02-15".toList
        (normalizeTime "ab:cd".toList) "digital".toList "link".toList).isSome = true := by
  decide

/-! ### Clock readings -/

theorem isDigit_digit (k : Nat) (h : k < 10) : isDigit (digit k) = true := by
  interval_cases k <;> rfl

theorem digitVal_digit (k : Nat) (h : k < 10) : digitVal (digit k) = (k : Int) := by
  interval_cases k <;> rfl

theorem isSpace_digit (k : Nat) (h : k < 10) : isSpace (digit k) = false := by
  interval_cases k <;> rfl

theorem digit_ne_blank (k : Nat) (h : k < 10) : (digit k == ' ') = false := by
  interval_cases k <;> rfl

theorem len_cons (c : Char) (s : Str) : len (c :: s) = (runeBytes c).length + len s := by
  simp [len, utf8]

theorem runeBytes_length_pos (c : Char) : 1 ≤ (runeBytes c).length := by
  unfold runeBytes
  simp only
  split
  · simp
  · split
    · simp
    · split <;> simp

theorem TrimSpace_cons_of_ends (c : Char) (s : Str) (hc : isSpace c = false)
    (hl : ∀ d ∈ (c :: s).getLast?, isSpace d = false) : TrimSpace (c :: s) = c :: s := by
  unfold TrimSpace
  have h1 : (c :: s).dropWhile isSpace = c :: s := by
    simp [List.dropWhile, hc]
  rw [h1]
  have h2 : (c :: s).reverse.dropWhile isSpace = (c :: s).reverse := by
    cases hr : (c :: s).reverse with
    | nil => rfl
    | cons d r =>
      have hd : (c :: s).getLast? = some d := by
        rw [List.getLast?_eq_head?_reverse, hr]
        rfl
      have := hl d (by rw [hd]; exact rfl)
      simp [List.dropWhile, this]
  rw [h2, List.reverse_reverse]

theorem getnum_two (a b : Nat) (ha : a < 10) (hb : b < 10) (rest : Str) (fixed : Bool) :
    getnum (digit a :: digit b :: rest) fixed = some ((a : Int) * 10 + b, rest) := by
  simp [getnum, isDigit_digit, digitVal_digit, ha, hb]

theorem getnum_one (a : Nat) (ha : a < 10) (c : Char) (rest : Str) (hc : isDigit c = false) :
    getnum (digit a :: c :: rest) false = some ((a : Int), c :: rest) := by
  simp [getnum, isDigit_digit, digitVal_digit, ha, hc]

theorem repr_hour (h : Nat) (h1 : 1 ≤ h) (h12 : h ≤ 12) :
    (Nat.repr h).toList = if h < 10 then [digit h] else [digit 1, digit (h - 10)] := by
  interval_cases h <;> rfl

theorem length_le_len (s : Str) : s.length ≤ len s := by
  induction s with
  | nil => simp [len, utf8]
  | cons c s ih =>
    rw [len_cons]
    have := runeBytes_length_pos c
    simp only [List.length_cons]
    omega

theorem normalizeTime_long (c : Char) (s : Str) (hc : isSpace c = false)
    (hl : ∀ d ∈ (c :: s).getLast?, isSpace d = false) (hlen : 5 ≤ s.length) :
    normalizeTime (c :: s) =
      match firstParse [layoutKitchenSpace, layoutKitchen, layoutClock, layoutKitchenLower]
        (c :: s) with
      | some t => t.FormatClock
      | none => [] := by
  unfold normalizeTime
  rw [TrimSpace_cons_of_ends c s hc hl]
  have := length_le_len (c :: s)
  simp only [List.length_cons] at this
  have hne : ¬ (len (c :: s) == 5 && byteIs (c :: s) 2 ':') = true := by
    simp only [Bool.and_eq_true, beq_iff_eq, not_and]
    intro h
    omega
  exact if_neg hne

theorem parseLoop_step (pre : Str) (std : Std) (layout : Layout) (f f1 : Fields)
    (value v1 v2 : Str) (hs : skip value pre = some v1)
    (hp : parseStd std f v1 = some (f1, v2)) :
    parseLoop ((pre, std) :: layout) f value = parseLoop layout f1 v2 := by
  simp [parseLoop, hs, hp]

theorem parseLoop_skip_none (pre : Str) (std : Std) (layout : Layout) (f : Fields)
    (value : Str) (hs : skip value pre = none) :
    parseLoop ((pre, std) :: layout) f value = none := by
  simp [parseLoop, hs]

theorem parseLoop_std_none (pre : Str) (std : Std) (layout : Layout) (f : Fields)
    (value v1 : Str) (hs : skip value pre = some v1) (hp : parseStd std f v1 = none) :
    parseLoop ((pre, std) :: layout) f value = none := by
  simp [parseLoop, hs, hp]

/-- The text of an hour 1..12 is read back by `getnum` up to the colon. -/
theorem getnum_hour (h : Nat) (h1 : 1 ≤ h) (h12 : h ≤ 12) (rest : Str) :
    getnum ((Nat.repr h).toList ++ ':' :: rest) false = some ((h : Int), ':' :: rest) := by
  have hc : isDigit ':' = false := by decide
  rw [repr_hour h h1 h12]
  split
  · rename_i hlt
    exact getnum_one h hlt ':' rest hc
  · have := getnum_two 1 (h - 10) (by omega) (by omega) (':' :: rest) false
    simp only [List.cons_append, List.nil_append]
    rw [this]
    congr 2
    omega

theorem hour_head (h : Nat) (h1 : 1 ≤ h) (h12 : h ≤ 12) :
    ∃ c s, (Nat.repr h).toList = c :: s ∧ isSpace c = false := by
  rw [repr_hour h h1 h12]
  split
  · exact ⟨_, _, rfl, isSpace_digit h (by omega)⟩
  · exact ⟨_, _, rfl, isSpace_digit 1 (by omega)⟩

/-- The hour and the minute of every layout of `normalizeTime` read the text
`h:mm` and leave what follows it. -/
theorem parseLoop_hour_minute (hstd : Std) (hh : hstd = .stdHour12 ∨ hstd = .stdHour)
    (tail : Layout) (h m : Nat) (h1 : 1 ≤ h) (h12 : h ≤ 12) (hm : m < 60) (rest : Str) :
    parseLoop (([], hstd) :: ([':'], .stdZeroMinute) :: tail) Fields.init
        ((Nat.repr h).toList ++ [':'] ++ appendInt m 2 ++ rest) =
      parseLoop tail ⟨0, -1, -1, h, m, false, false⟩ rest := by
  have hm2 : appendInt (m : Int) 2 = [digit (m / 10), digit (m % 10)] := by
    rw [appendInt_two _ (by omega) (by omega)]
    simp
  have hval : (Nat.repr h).toList ++ [':'] ++ appendInt m 2 ++ rest =
      (Nat.repr h).toList ++ ':' :: digit (m / 10) :: digit (m % 10) :: rest := by
    rw [hm2]
    simp
  rw [hval]
  have hg := getnum_hour h h1 h12 (digit (m / 10) :: digit (m % 10) :: rest)
  have hmin := getnum_two (m / 10) (m % 10) (by omega) (by omega) rest true
  have hmv : ((m / 10 : Nat) : Int) * 10 + ((m % 10 : Nat) : Int) = (m : Int) := by omega
  rw [hmv] at hmin
  have h0 : ¬ ((h : Int) < 0) := by omega
  have h13 : ¬ (12 < (h : Int)) := by omega
  have h24 : ¬ (24 ≤ (h : Int)) := by omega
  have hm0 : ¬ ((m : Int) < 0) := by omega
  have hm60 : ¬ (60 ≤ (m : Int)) := by omega
  rw [parseLoop_step [] hstd _ Fields.init ⟨0, -1, -1, h, 0, false, false⟩ _ _
    (':' :: digit (m / 10) :: digit (m % 10) :: rest) rfl
    (by rcases hh with rfl | rfl <;> simp only [parseStd, Fields.init] <;> rw [hg] <;>
      simp [h0, h13, h24])]
  rw [parseLoop_step [':'] .stdZeroMinute _ ⟨0, -1, -1, h, 0, false, false⟩
    ⟨0, -1, -1, h, m, false, false⟩ _ (digit (m / 10) :: digit (m % 10) :: rest) rest
    (by simp [skip, skipFrom]) (by simp [parseStd, hmin, hm0, hm60])]

theorem finish_clock (h m : Nat) (h12 : h ≤ 12) (pm am : Bool) (hx : (pm && am) = false)
    (hset : (pm || am) = true) :
    finish ⟨0, -1, -1, h, m, pm, am⟩ = some (Date 0 1 1 (hour24 h pm) m) := by
  have hd : daysIn 1 0 = 31 := by decide
  cases pm <;> cases am <;> simp at hx hset
  · by_cases h12e : h = 12
    · subst h12e
      simp [finish, hour24, hd]
    · have : ¬ ((h : Int) = 12) := by omega
      simp [finish, hour24, hd, h12e, this]
  · by_cases h12e : h = 12
    · subst h12e
      simp [finish, hour24, hd]
    · have : (h : Int) < 12 := by omega
      simp [finish, hour24, hd, h12e, this]

theorem firstParse_cons_some (l : Layout) (ls : List Layout) (v : Str) (t : Time)
    (h : Parse l v = some t) : firstParse (l :: ls) v = some t := by
  simp [firstParse, h]

theorem firstParse_cons_none (l : Layout) (ls : List Layout) (v : Str)
    (h : Parse l v = none) : firstParse (l :: ls) v = firstParse ls v := by
  simp [firstParse, h]

theorem Parse_clockText (hstd : Std) (hh : hstd = .stdHour12 ∨ hstd = .stdHour)
    (tail : Layout) (h m : Nat) (h1 : 1 ≤ h) (h12 : h ≤ 12) (hm : m < 60) (marker : Str) :
    Parse (([], hstd) :: ([':'], .stdZeroMinute) :: tail) (clockText h m marker) =
      (parseLoop tail ⟨0, -1, -1, h, m, false, false⟩ marker).bind finish := by
  unfold Parse clockText
  rw [parseLoop_hour_minute hstd hh tail h m h1 h12 hm marker]

theorem normalizeTime_clockText (h m : Nat) (h1 : 1 ≤ h) (h12 : h ≤ 12) (hm : m < 60)
    (marker : Str) (hmk : 2 ≤ marker.length)
    (hl : ∀ d ∈ marker.getLast?, isSpace d = false) :
    normalizeTime (clockText h m marker) =
      match firstParse [layoutKitchenSpace, layoutKitchen, layoutClock, layoutKitchenLower]
        (clockText h m marker) with
      | some t => t.FormatClock
      | none => [] := by
  obtain ⟨c, s0, hht, hc⟩ := hour_head h h1 h12
  have hm2 : appendInt (m : Int) 2 = [digit (m / 10), digit (m % 10)] := by
    rw [appendInt_two _ (by omega) (by omega)]
    simp
  have hform : clockText h m marker =
      c :: (s0 ++ ':' :: digit (m / 10) :: digit (m % 10) :: marker) := by
    unfold clockText
    rw [hht, hm2]
    simp
  rw [hform]
  refine normalizeTime_long c _ hc ?_ ?_
  · intro d hd
    have hne : marker ≠ [] := by
      intro h0
      rw [h0] at hmk
      simp at hmk
    have hlast : (c :: (s0 ++ ':' :: digit (m / 10) :: digit (m % 10) :: marker)).getLast? =
        marker.getLast? := by
      have : c :: (s0 ++ ':' :: digit (m / 10) :: digit (m % 10) :: marker) =
          (c :: (s0 ++ [':', digit (m / 10), digit (m % 10)])) ++ marker := by simp
      rw [this, List.getLast?_append]
      cases hml : marker.getLast? with
      | none =>
        rw [List.getLast?_eq_none_iff] at hml
        exact absurd hml hne
      | some x => rfl
    rw [hlast] at hd
    exact hl d hd
  · simp only [List.length_append, List.length_cons]
    omega

theorem FormatClock_Date (h m : Nat) (pm : Bool) :
    (Date 0 1 1 (hour24 h pm) m).FormatClock =
      appendInt (hour24 h pm) 2 ++ [':'] ++ appendInt m 2 := rfl

/-- C6 (amended). For every hour 1..12, every minute 00..59 and a marker `AM`
or `PM` in upper case, with or without a blank before it, or `am` or `pm` in
lower case after a blank, `normalizeTime` returns the zero-padded 24-hour text
`HH:MM`, with `HH = 00` for 12 AM, `12` for 12 PM, `h + 12` for any other PM
hour and `h` for any other AM hour. -/
theorem normalizeTime_clock (h m : Nat) (h1 : 1 ≤ h) (h12 : h ≤ 12) (hm : m < 60)
    (marker : Str) (pm : Bool) (hmk : (marker, pm) ∈ clockMarkers) :
    normalizeTime (clockText h m marker) =
      appendInt (hour24 h pm) 2 ++ [':'] ++ appendInt m 2 := by
  have hKS : Parse layoutKitchenSpace (clockText h m marker) =
      (parseLoop [([' '], .stdPM)] ⟨0, -1, -1, h, m, false, false⟩ marker).bind finish :=
    Parse_clockText .stdHour12 (Or.inl rfl) [([' '], .stdPM)] h m h1 h12 hm marker
  have hK : Parse layoutKitchen (clockText h m marker) =
      (parseLoop [([], .stdPM)] ⟨0, -1, -1, h, m, false, false⟩ marker).bind finish :=
    Parse_clockText .stdHour12 (Or.inl rfl) [([], .stdPM)] h m h1 h12 hm marker
  have hC : Parse layoutClock (clockText h m marker) =
      (parseLoop [] ⟨0, -1, -1, h, m, false, false⟩ marker).bind finish :=
    Parse_clockText .stdHour (Or.inr rfl) [] h m h1 h12 hm marker
  have hKL : Parse layoutKitchenLower (clockText h m marker) =
      (parseLoop [([' '], .stdpm)] ⟨0, -1, -1, h, m, false, false⟩ marker).bind finish :=
    Parse_clockText .stdHour12 (Or.inl rfl) [([' '], .stdpm)] h m h1 h12 hm marker
  simp only [clockMarkers, List.mem_cons, Prod.mk.injEq, List.mem_singleton,
    List.not_mem_nil, or_false] at hmk
  rcases hmk with ⟨rfl, rfl⟩ | ⟨rfl, rfl⟩ | ⟨rfl, rfl⟩ | ⟨rfl, rfl⟩ | ⟨rfl, rfl⟩ | ⟨rfl, rfl⟩
  · -- " AM"
    rw [normalizeTime_clockText h m h1 h12 hm _ (by decide) (by decide)]
    have hp : parseLoop [([' '], .stdPM)] ⟨0, -1, -1, h, m, false, false⟩ " AM".toList =
        some ⟨0, -1, -1, h, m, false, true⟩ := rfl
    rw [hp, Option.some_bind, finish_clock h m h12 false true rfl rfl] at hKS
    rw [firstParse_cons_some _ _ _ _ hKS]
    rfl
  · -- "AM"
    rw [normalizeTime_clockText h m h1 h12 hm _ (by decide) (by decide)]
    have hp1 : parseLoop [([' '], .stdPM)] ⟨0, -1, -1, h, m, false, false⟩ "AM".toList =
        none := rfl
    have hp : parseLoop [([], .stdPM)] ⟨0, -1, -1, h, m, false, false⟩ "AM".toList =
        some ⟨0, -1, -1, h, m, false, true⟩ := rfl
    rw [hp1, Option.none_bind] at hKS
    rw [hp, Option.some_bind, finish_clock h m h12 false true rfl rfl] at hK
    rw [firstParse_cons_none _ _ _ hKS, firstParse_cons_some _ _ _ _ hK]
    rfl
  · -- " am"
    rw [normalizeTime_clockText h m h1 h12 hm _ (by decide) (by decide)]
    have hp1 : parseLoop [([' '], .stdPM)] ⟨0, -1, -1, h, m, false, false⟩ " am".toList =
        none := rfl
    have hp2 : parseLoop [([], .stdPM)] ⟨0, -1, -1, h, m, false, false⟩ " am".toList =
        none := rfl
    have hp3 : parseLoop [] ⟨0, -1, -1, h, m, false, false⟩ " am".toList = none := rfl
    have hp : parseLoop [([' '], .stdpm)] ⟨0, -1, -1, h, m, false, false⟩ " am".toList =
        some ⟨0, -1, -1, h, m, false, true⟩ := rfl
    rw [hp1, Option.none_bind] at hKS
    rw [hp2, Option.none_bind] at hK
    rw [hp3, Option.none_bind] at hC
    rw [hp, Option.some_bind, finish_clock h m h12 false true rfl rfl] at hKL
    rw [firstParse_cons_none _ _ _ hKS, firstParse_cons_none _ _ _ hK,
      firstParse_cons_none _ _ _ hC, firstParse_cons_some _ _ _ _ hKL]
    rfl
  · -- " PM"
    rw [normalizeTime_clockText h m h1 h12 hm _ (by decide) (by decide)]
    have hp : parseLoop [([' '], .stdPM)] ⟨0, -1, -1, h, m, false, false⟩ " PM".toList =
        some ⟨0, -1, -1, h, m, true, false⟩ := rfl
    rw [hp, Option.some_bind, finish_clock h m h12 true false rfl rfl] at hKS
    rw [firstParse_cons_some _ _ _ _ hKS]
    rfl
  · -- "PM"
    rw [normalizeTime_clockText h m h1 h12 hm _ (by decide) (by decide)]
    have hp1 : parseLoop [([' '], .stdPM)] ⟨0, -1, -1, h, m, false, false⟩ "PM".toList =
        none := rfl
    have hp : parseLoop [([], .stdPM)] ⟨0, -1, -1, h, m, false, false⟩ "PM".toList =
        some ⟨0, -1, -1, h, m, true, false⟩ := rfl
    rw [hp1, Option.none_bind] at hKS
    rw [hp, Option.some_bind, finish_clock h m h12 true false rfl rfl] at hK
    rw [firstParse_cons_none _ _ _ hKS, firstParse_cons_some _ _ _ _ hK]
    rfl
  · -- " pm"
    rw [normalizeTime_clockText h m h1 h12 hm _ (by decide) (by decide)]
    have hp1 : parseLoop [([' '], .stdPM)] ⟨0, -1, -1, h, m, false, false⟩ " pm".toList =
        none := rfl
    have hp2 : parseLoop [([], .stdPM)] ⟨0, -1, -1, h, m, false, false⟩ " pm".toList =
        none := rfl
    have hp3 : parseLoop [] ⟨0, -1, -1, h, m, false, false⟩ " pm".toList = none := rfl
    have hp : parseLoop [([' '], .stdpm)] ⟨0, -1, -1, h, m, false, false⟩ " pm".toList =
        some ⟨0, -1, -1, h, m, true, false⟩ := rfl
    rw [hp1, Option.none_bind] at hKS
    rw [hp2, Option.none_bind] at hK
    rw [hp3, Option.none_bind] at hC
    rw [hp, Option.some_bind, finish_clock h m h12 true false rfl rfl] at hKL
    rw [firstParse_cons_none _ _ _ hKS, firstParse_cons_none _ _ _ hK,
      firstParse_cons_none _ _ _ hC, firstParse_cons_some _ _ _ _ hKL]
    rfl

/-- C6 at the reading `7:30 PM` of the tests. -/
theorem normalizeTime_clock_witness :
    normalizeTime (clockText 7 30 " PM".toList) = "19:30".toList :=
  normalizeTime_clock 7 30 (by decide) (by decide) (by decide) " PM".toList true (by decide)

/-- C6 as stated fails: a lower-case marker without a blank before it, and a
marker in mixed case, are not parsed. -/
theorem normalizeTime_clock_unparsed :
    normalizeTime (clockText 7 30 "pm".toList) = [] ∧
      normalizeTime (clockText 7 30 " Pm".toList) = [] := by
  decide

/-! ### Film formats -/

/-! ### `strings.Contains` and sublists -/

theorem HasPrefix_iff (s p : Str) : HasPrefix s p = true ↔ p <+: s := by
  induction s generalizing p with
  | nil =>
    cases p with
    | nil => simp [HasPrefix]
    | cons a p => simp [HasPrefix]
  | cons c s ih =>
    cases p with
    | nil => simp [HasPrefix]
    | cons a p =>
      simp only [HasPrefix, Bool.and_eq_true, beq_iff_eq, List.cons_prefix_cons, ih]
      constructor
      · rintro ⟨rfl, h⟩
        exact ⟨rfl, h⟩
      · rintro ⟨rfl, h⟩
        exact ⟨rfl, h⟩

theorem Contains_iff (s sub : Str) : Contains s sub = true ↔ sub <:+: s := by
  unfold Contains
  induction s with
  | nil =>
    cases sub with
    | nil => simp [Index]
    | cons a p => simp [Index]
  | cons c s ih =>
    rw [List.infix_cons_iff, ← ih, ← HasPrefix_iff]
    by_cases hp : HasPrefix (c :: s) sub = true
    · simp [Index, hp]
    · simp [Index, hp]

theorem Contains_congr (s t sub : Str) (h : sub <:+: s ↔ sub <:+: t) :
    Contains s sub = Contains t sub := by
  rw [Bool.eq_iff_iff, Contains_iff, Contains_iff]
  exact h

theorem infix_strip_left (p0 : Char) (ps pre s : Str) (h : ∀ c ∈ pre, c ≠ p0) :
    (p0 :: ps) <:+: pre ++ s ↔ (p0 :: ps) <:+: s := by
  induction pre with
  | nil => simp
  | cons c pre ih =>
    have hc : c ≠ p0 := h c (List.mem_cons_self _ _)
    rw [List.cons_append, List.infix_cons_iff, ih (fun d hd => h d (List.mem_cons_of_mem _ hd))]
    constructor
    · rintro (hpre | hin)
      · rw [List.cons_prefix_cons] at hpre
        exact absurd hpre.1.symm hc
      · exact hin
    · intro hin
      exact Or.inr hin

theorem infix_strip_right (p : Str) (q : Char) (post s : Str) (h : ∀ c ∈ post, c ≠ q) :
    (p ++ [q]) <:+: s ++ post ↔ (p ++ [q]) <:+: s := by
  have key := infix_strip_left q p.reverse post.reverse s.reverse
    (fun c hc => h c (List.mem_reverse.mp hc))
  have e1 : (p ++ [q]).reverse = q :: p.reverse := by simp
  have e2 : (s ++ post).reverse = post.reverse ++ s.reverse := by simp
  rw [← e1, ← e2, List.reverse_infix, List.reverse_infix] at key
  exact key

/-- `TrimSpace` removes a run of white space at each end and nothing else. -/
theorem TrimSpace_decomp (s : Str) :
    ∃ pre post : Str, s = pre ++ TrimSpace s ++ post ∧ (∀ c ∈ pre, isSpace c = true) ∧
      (∀ c ∈ post, isSpace c = true) := by
  refine ⟨s.takeWhile isSpace,
    (((s.dropWhile isSpace).reverse).takeWhile isSpace).reverse, ?_, ?_, ?_⟩
  · unfold TrimSpace
    rw [List.append_assoc, ← List.reverse_append, List.takeWhile_append_dropWhile,
      List.reverse_reverse, List.takeWhile_append_dropWhile]
  · intro c hc
    exact List.mem_takeWhile_imp hc
  · intro c hc
    exact List.mem_takeWhile_imp (List.mem_reverse.mp hc)

theorem Contains_ToLower_TrimSpace (U : CaseTable) (raw : Str) (p0 q : Char) (ps : Str)
    (p : Str) (hp0 : isSpace p0 = false) (hq : isSpace q = false)
    (hl : p = p0 :: ps) (hr : ∃ pi, p = pi ++ [q]) :
    Contains (ToLower U (TrimSpace raw)) p = Contains (ToLower U raw) p := by
  obtain ⟨pre, post, hdec, hpre, hpost⟩ := TrimSpace_decomp raw
  apply Contains_congr
  have hmap : ToLower U raw = pre ++ ToLower U (TrimSpace raw) ++ post := by
    have h1 : pre.map U.lower = pre := by
      conv_rhs => rw [← List.map_id pre]
      exact List.map_congr_left (fun c hc => U.lower_space c (hpre c hc))
    have h2 : post.map U.lower = post := by
      conv_rhs => rw [← List.map_id post]
      exact List.map_congr_left (fun c hc => U.lower_space c (hpost c hc))
    unfold ToLower
    conv_lhs => rw [hdec]
    rw [List.map_append, List.map_append, h1, h2]
  rw [hmap]
  obtain ⟨pi, hpi⟩ := hr
  have hA : p <:+: pre ++ ToLower U (TrimSpace raw) ++ post ↔
      p <:+: pre ++ ToLower U (TrimSpace raw) := by
    rw [hpi]
    exact infix_strip_right pi q post _ (by
      intro c hc hcq
      have := hpost c hc
      rw [hcq, hq] at this
      cases this)
  have hB : p <:+: pre ++ ToLower U (TrimSpace raw) ↔ p <:+: ToLower U (TrimSpace raw) := by
    rw [hl]
    exact infix_strip_left p0 ps pre _ (by
      intro c hc hcq
      have := hpre c hc
      rw [hcq, hp0] at this
      cases this)
  rw [hA, hB]

theorem Contains_of_longer (s p q : Str) (hpq : p <:+: q) (h : Contains s q = true) :
    Contains s p = true := by
  rw [Contains_iff] at h ⊢
  exact hpq.trans h

theorem normalizeFormat_eq (U : CaseTable) (raw : Str) :
    normalizeFormat U raw =
      (if Contains (ToLower U raw) "35".toList then "35mm".toList
      else if Contains (ToLower U raw) "70".toList then "70mm".toList
      else if Contains (ToLower U raw) "imax".toList then "IMAX".toList
      else "digital".toList) := by
  have h35 := Contains_ToLower_TrimSpace U raw '3' '5' ['5'] "35".toList (by decide)
    (by decide) rfl ⟨['3'], rfl⟩
  have h70 := Contains_ToLower_TrimSpace U raw '7' '0' ['0'] "70".toList (by decide)
    (by decide) rfl ⟨['7'], rfl⟩
  have hix := Contains_ToLower_TrimSpace U raw 'i' 'x' ['m', 'a', 'x'] "imax".toList
    (by decide) (by decide) rfl ⟨['i', 'm', 'a'], rfl⟩
  have h35mm : Contains (ToLower U (TrimSpace raw)) "35mm".toList = true →
      Contains (ToLower U (TrimSpace raw)) "35".toList = true :=
    Contains_of_longer _ _ _ ⟨[], "mm".toList, rfl⟩
  have h70mm : Contains (ToLower U (TrimSpace raw)) "70mm".toList = true →
      Contains (ToLower U (TrimSpace raw)) "70".toList = true :=
    Contains_of_longer _ _ _ ⟨[], "mm".toList, rfl⟩
  unfold normalizeFormat
  simp only
  rw [← h35, ← h70, ← hix]
  cases ha : Contains (ToLower U (TrimSpace raw)) "35".toList
  · cases hb : Contains (ToLower U (TrimSpace raw)) "35mm".toList
    · cases hc : Contains (ToLower U (TrimSpace raw)) "70".toList
      · cases hd : Contains (ToLower U (TrimSpace raw)) "70mm".toList
        · simp
        · rw [h70mm hd] at hc
          cases hc
      · simp
    · rw [h35mm hb] at ha
      cases ha
  · simp

/-- C9. `normalizeFormat` is the cascade on the lower-cased input: `35mm` if it
contains `35`, otherwise `70mm` if it contains `70`, otherwise `IMAX` if it
contains `imax`, otherwise `digital`; so its result is one of these four
values. -/
theorem normalizeFormat_cascade (U : CaseTable) (raw : Str) :
    normalizeFormat U raw =
      (if Contains (ToLower U raw) "35".toList then "35mm".toList
      else if Contains (ToLower U raw) "70".toList then "70mm".toList
      else if Contains (ToLower U raw) "imax".toList then "IMAX".toList
      else "digital".toList) ∧
    normalizeFormat U raw ∈
      ["digital".toList, "35mm".toList, "70mm".toList, "IMAX".toList] := by
  refine ⟨normalizeFormat_eq U raw, ?_⟩
  rw [normalizeFormat_eq U raw]
  split
  · simp
  · split
    · simp
    · split <;> simp

theorem toLower_ascii_of (c : Char) (h : c.toLower.toNat < 128) : c.toNat < 128 := by
  unfold Char.toLower at h
  simp only at h
  split at h
  · omega
  · exact h

theorem ToLower_of_ascii (U : CaseTable) (w : Str) (h : ∀ c ∈ w, c.toLower.toNat < 128) :
    ToLower U w = w.map Char.toLower := by
  unfold ToLower
  exact List.map_congr_left (fun c hc => U.lower_ascii c (toLower_ascii_of c (h c hc)))

theorem Contains_ToLower_of_anyCase (U : CaseTable) (raw sub : Str)
    (hsub : ∀ c ∈ sub, c.toNat < 128) (h : containsAnyCase raw sub = true) :
    Contains (ToLower U raw) sub = true := by
  unfold containsAnyCase at h
  rw [Contains_iff] at h ⊢
  obtain ⟨A, B, hAB⟩ := h
  rw [List.append_assoc] at hAB
  obtain ⟨a, r, hraw, -, hr⟩ := List.map_eq_append_iff.mp hAB.symm
  obtain ⟨w, b, hr2, hw, -⟩ := List.map_eq_append_iff.mp hr
  have hwa : ∀ c ∈ w, c.toLower.toNat < 128 := by
    intro c hc
    apply hsub
    rw [← hw]
    exact List.mem_map_of_mem _ hc
  refine ⟨ToLower U a, ToLower U b, ?_⟩
  rw [hraw, hr2]
  unfold ToLower
  rw [List.map_append, List.map_append]
  have := ToLower_of_ascii U w hwa
  unfold ToLower at this
  rw [this, hw, List.append_assoc]

/-- C8 (amended). An input that contains `imax` in any letter case, and whose
lower-cased form contains neither `35` nor `70`, is normalised to `IMAX`. -/
theorem normalizeFormat_imax (U : CaseTable) (raw : Str)
    (h : containsAnyCase raw "imax".toList = true)
    (h35 : Contains (ToLower U raw) "35".toList = false)
    (h70 : Contains (ToLower U raw) "70".toList = false) :
    normalizeFormat U raw = "IMAX".toList := by
  have hi := Contains_ToLower_of_anyCase U raw "imax".toList (by decide) h
  rw [normalizeFormat_eq U raw, h35, h70, hi]
  rfl

/-- C8 at the mixed-case input `IMax` of the tests. -/
theorem normalizeFormat_imax_witness :
    normalizeFormat asciiCase "IMax".toList = "IMAX".toList :=
  normalizeFormat_imax asciiCase "IMax".toList (by decide) (by decide) (by decide)

/-- C8 as stated fails: `IMAX 70mm` contains `imax` and is normalised to `70mm`,
whatever the case tables are outside ASCII. -/
theorem normalizeFormat_imax_70mm :
    containsAnyCase "IMAX 70mm".toList "imax".toList = true ∧
      ∀ U : CaseTable, normalizeFormat U "IMAX 70mm".toList = "70mm".toList := by
  refine ⟨by decide, fun U => ?_⟩
  rw [normalizeFormat_eq U, ToLower_of_ascii U _ (by decide)]
  decide

/-! ### Title normalisation -/

theorem TrimSpace_head (s : Str) (c : Char) (r : Str) (h : TrimSpace s = c :: r) :
    isSpace c = false := by
  have hpre : TrimSpace s <+: s.dropWhile isSpace := List.rdropWhile_prefix isSpace _
  rw [h] at hpre
  obtain ⟨t, ht⟩ := hpre
  have hd := List.head?_dropWhile_not isSpace s
  rw [← ht] at hd
  simpa using hd

theorem TrimSpace_idem (s : Str) : TrimSpace (TrimSpace s) = TrimSpace s := by
  cases hr : TrimSpace s with
  | nil => rfl
  | cons c r =>
    have hc := TrimSpace_head s c r hr
    have h1 : (c :: r).dropWhile isSpace = c :: r := by simp [List.dropWhile, hc]
    have h2 : List.rdropWhile isSpace (TrimSpace s) = TrimSpace s :=
      List.rdropWhile_idempotent isSpace _
    show List.rdropWhile isSpace ((c :: r).dropWhile isSpace) = c :: r
    rw [h1, ← hr]
    exact h2

theorem TrimSpace_infix (s : Str) : TrimSpace s <:+: s := by
  obtain ⟨pre, post, h, -, -⟩ := TrimSpace_decomp s
  exact ⟨pre, post, h.symm⟩

theorem TrimSpace_ne_nil (s : Str) (c : Char) (hc : c ∈ s) (hs : isSpace c = false) :
    TrimSpace s ≠ [] := by
  obtain ⟨pre, post, h, hpre, hpost⟩ := TrimSpace_decomp s
  intro hnil
  rw [hnil, List.append_nil] at h
  rw [h] at hc
  rcases List.mem_append.mp hc with h1 | h1
  · rw [hpre c h1] at hs
    cases hs
  · rw [hpost c h1] at hs
    cases hs

theorem Index_single_take (s : Str) (c : Char) (i : Nat) (h : Index s [c] = some i) :
    c ∉ s.take i := by
  induction s generalizing i with
  | nil => simp
  | cons d s ih =>
    by_cases hd : d = c
    · subst hd
      simp [Index, HasPrefix] at h
      subst h
      simp
    · have hp : HasPrefix (d :: s) [c] = false := by simp [HasPrefix, hd]
      simp only [Index, hp, Bool.false_eq_true, ↓reduceIte, Option.map_eq_some'] at h
      obtain ⟨j, hj, rfl⟩ := h
      simp only [List.take_succ_cons, List.mem_cons, not_or]
      exact ⟨fun h' => hd h'.symm, ih j hj⟩

theorem hasYearGroup_mem (s : Str) (h : hasYearGroup s = true) : '(' ∈ s := by
  induction s with
  | nil => simp [hasYearGroup] at h
  | cons c cs ih =>
    simp only [hasYearGroup, Bool.or_eq_true] at h
    rcases h with h | h
    · unfold yearGroupAt at h
      split at h
      · simp only [Bool.and_eq_true, beq_iff_eq] at h
        rename_i heq
        simp only [List.cons.injEq] at heq
        rw [heq.1, h.1.1.1.1.1]
        exact List.mem_cons_self _ _
      · cases h
    · exact List.mem_cons_of_mem _ (ih h)

theorem hasYearGroup_suffix (s t : Str) (hts : t <:+ s) (h : hasYearGroup t = true) :
    hasYearGroup s = true := by
  induction s with
  | nil =>
    have : t = [] := by simpa using hts
    rw [this] at h
    exact h
  | cons c cs ih =>
    rcases List.suffix_cons_iff.mp hts with heq | hsuf
    · rw [← heq]
      exact h
    · simp only [hasYearGroup, Bool.or_eq_true]
      exact Or.inr (ih hsuf)

theorem yearPatternMatch_hasYearGroup (s : Str) (k : Nat) (h : yearPatternMatch s = some k) :
    hasYearGroup s = true := by
  apply hasYearGroup_suffix s (s.dropWhile reSpace) (List.dropWhile_suffix _)
  unfold yearPatternMatch at h
  split at h
  · rename_i p a b c d q r heq
    split at h
    · rename_i hcond
      rw [heq]
      simp only [hasYearGroup, yearGroupAt, Bool.or_eq_true]
      exact Or.inl hcond
    · cases h
  · cases h

theorem replaceYearFrom_id (s : Str) (h : hasYearGroup s = false) :
    replaceYearFrom s 0 = s := by
  induction s with
  | nil => rfl
  | cons c cs ih =>
    have hm : yearPatternMatch (c :: cs) = none := by
      cases hk : yearPatternMatch (c :: cs) with
      | none => rfl
      | some k =>
        rw [yearPatternMatch_hasYearGroup _ k hk] at h
        cases h
    have hcs : hasYearGroup cs = false := by
      simp only [hasYearGroup, Bool.or_eq_false_iff] at h
      exact h.2
    simp only [replaceYearFrom, hm]
    rw [ih hcs]

theorem not_hasYearGroup_of_not_mem (s : Str) (h : '(' ∉ s) : hasYearGroup s = false := by
  cases hg : hasYearGroup s with
  | false => rfl
  | true => exact absurd (hasYearGroup_mem s hg) h

theorem Index_none_of_not_Contains (s sub : Str) (h : Contains s sub = false) :
    Index s sub = none := by
  unfold Contains at h
  cases hi : Index s sub with
  | none => rfl
  | some i =>
    rw [hi] at h
    cases h

/-- C10. For a whitespace-trimmed title: (a) if its first `(` is at an index
above 0 and the text before it contains no ` - `, the result is that text with
surrounding white space trimmed; (b) if it starts with `(` and contains no ` - `
and no parenthesised four-digit group, the result is the title unchanged. -/
theorem normalizeTitleForTMDB_paren (t : Str) (ht : TrimSpace t = t) :
    (∀ idx, Index t ['('] = some idx → 0 < idx →
      Contains (t.take idx) " - ".toList = false →
      normalizeTitleForTMDB t = TrimSpace (t.take idx)) ∧
    (t.head? = some '(' → Contains t " - ".toList = false → hasYearGroup t = false →
      normalizeTitleForTMDB t = t) := by
  constructor
  · intro idx hidx hpos hdash
    -- the text before the parenthesis is not blank
    obtain ⟨c, r, rfl⟩ : ∃ c r, t = c :: r := by
      cases t with
      | nil => simp [Index] at hidx
      | cons c r => exact ⟨c, r, rfl⟩
    have hc : isSpace c = false := TrimSpace_head _ c r ht
    have hmem : c ∈ (c :: r).take idx := by
      obtain ⟨j, rfl⟩ : ∃ j, idx = j + 1 := ⟨idx - 1, by omega⟩
      simp
    have hbase : TrimSpace ((c :: r).take idx) ≠ [] := TrimSpace_ne_nil _ c hmem hc
    have hlen : len (TrimSpace ((c :: r).take idx)) > 0 := by
      have := length_le_len (TrimSpace ((c :: r).take idx))
      have : 0 < (TrimSpace ((c :: r).take idx)).length := List.length_pos.mpr hbase
      omega
    -- it has neither a dash suffix nor a parenthesis
    have hinf := TrimSpace_infix ((c :: r).take idx)
    have hnodash : Index (TrimSpace ((c :: r).take idx)) [' ', '-', ' '] = none := by
      apply Index_none_of_not_Contains
      cases hC : Contains (TrimSpace ((c :: r).take idx)) [' ', '-', ' '] with
      | false => rfl
      | true =>
        rw [Contains_iff] at hC
        have := (Contains_iff _ _).mpr (hC.trans hinf)
        rw [show " - ".toList = [' ', '-', ' '] from rfl] at hdash
        rw [hdash] at this
        cases this
    have hnoparen : '(' ∉ TrimSpace ((c :: r).take idx) :=
      fun h => Index_single_take _ _ _ hidx (hinf.subset h)
    unfold normalizeTitleForTMDB
    simp only [ht, hidx, hpos, hlen, ↓reduceIte, hnodash]
    rw [replaceYearFrom_id _ (not_hasYearGroup_of_not_mem _ hnoparen), TrimSpace_idem]
  · intro hhead hdash hyear
    obtain ⟨r, rfl⟩ : ∃ r, t = '(' :: r := by
      cases t with
      | nil => simp at hhead
      | cons c r =>
        simp only [List.head?_cons, Option.some.injEq] at hhead
        exact ⟨r, by rw [hhead]⟩
    have hidx : Index ('(' :: r) ['('] = some 0 := by simp [Index, HasPrefix]
    have hnodash : Index ('(' :: r) [' ', '-', ' '] = none :=
      Index_none_of_not_Contains _ _ hdash
    unfold normalizeTitleForTMDB
    simp only [ht, hidx, lt_self_iff_false, ↓reduceIte, hnodash, gt_iff_lt]
    rw [replaceYearFrom_id _ hyear, ht]

/-- C10 at the two titles of the claim. -/
theorem normalizeTitleForTMDB_paren_witness :
    normalizeTitleForTMDB "Blade Runner (Director's Cut)".toList = "Blade Runner".toList ∧
      normalizeTitleForTMDB "(500) Days of Summer".toList = "(500) Days of Summer".toList :=
  ⟨(normalizeTitleForTMDB_paren "Blade Runner (Director's Cut)".toList (by decide)).1 13
      (by decide) (by decide) (by decide),
    (normalizeTitleForTMDB_paren "(500) Days of Summer".toList (by decide)).2 (by decide)
      (by decide) (by decide)⟩

/-! ### Dash suffixes and year groups of titles -/

theorem Index_none_of_not_mem (s : Str) (c : Char) (h : c ∉ s) : Index s [c] = none := by
  apply Index_none_of_not_Contains
  cases hC : Contains s [c] with
  | false => rfl
  | true =>
    rw [Contains_iff] at hC
    exact absurd (hC.subset (List.mem_singleton_self c)) h

theorem Index_zero_HasPrefix (s sub : Str) (h : Index s sub = some 0) : HasPrefix s sub = true := by
  cases s with
  | nil =>
    cases sub with
    | nil => rfl
    | cons a p => simp [Index] at h
  | cons c cs =>
    by_cases hp : HasPrefix (c :: cs) sub = true
    · exact hp
    · simp [Index, hp] at h

/-- C11 (amended). For a whitespace-trimmed title without `(` whose first ` - `
is at index `i`: if the trimmed text before it is longer than 3 bytes, the
result is that trimmed text; if it has 3 bytes or fewer, the result is the title
unchanged. -/
theorem normalizeTitleForTMDB_dash (t : Str) (ht : TrimSpace t = t) (hp : '(' ∉ t) (i : Nat)
    (hi : Index t " - ".toList = some i) :
    (len (TrimSpace (t.take i)) > 3 → normalizeTitleForTMDB t = TrimSpace (t.take i)) ∧
      (len (TrimSpace (t.take i)) ≤ 3 → normalizeTitleForTMDB t = t) := by
  have hi' : Index t [' ', '-', ' '] = some i := hi
  have hnoparen : Index t ['('] = none := Index_none_of_not_mem t '(' hp
  have hpos : i > 0 := by
    rcases Nat.eq_zero_or_pos i with h0 | h0
    · subst h0
      have hpre := (HasPrefix_iff _ _).mp (Index_zero_HasPrefix _ _ hi')
      obtain ⟨r, hr⟩ := hpre
      have := TrimSpace_head t ' ' ('-' :: ' ' :: r) (by rw [ht, ← hr]; rfl)
      revert this
      decide
    · exact h0
  constructor
  · intro hlen
    have hsub : ∀ c ∈ TrimSpace (t.take i), c ∈ t := fun c hc =>
      (List.take_subset i t) (( TrimSpace_infix (t.take i)).subset hc)
    have hnp : '(' ∉ TrimSpace (t.take i) := fun h => hp (hsub _ h)
    unfold normalizeTitleForTMDB
    simp only [ht, hnoparen, hi', hpos, hlen, ↓reduceIte]
    rw [replaceYearFrom_id _ (not_hasYearGroup_of_not_mem _ hnp), TrimSpace_idem]
  · intro hlen
    have hlen' : ¬ (len (TrimSpace (t.take i)) > 3) := by omega
    unfold normalizeTitleForTMDB
    simp only [ht, hnoparen, hi', hpos, hlen', ↓reduceIte]
    rw [replaceYearFrom_id _ (not_hasYearGroup_of_not_mem _ hp), ht]

/-- C11 at the two titles of the claim. -/
theorem normalizeTitleForTMDB_dash_witness :
    normalizeTitleForTMDB "Jaws - 45th Anniversary".toList = "Jaws".toList ∧
      normalizeTitleForTMDB "X - Y".toList = "X - Y".toList :=
  ⟨(normalizeTitleForTMDB_dash "Jaws - 45th Anniversary".toList (by decide) (by decide) 4
      (by decide)).1 (by decide),
    (normalizeTitleForTMDB_dash "X - Y".toList (by decide) (by decide) 1 (by decide)).2
      (by decide)⟩

/-- C11 as stated fails: the text before the dash of `Été - 1985` has three
characters, yet the title is cut down to it, because the code measures bytes. -/
theorem normalizeTitleForTMDB_dash_bytes :
    Index "Été - 1985".toList " - ".toList = some 3 ∧
      (TrimSpace ("Été - 1985".toList.take 3)).length = 3 ∧
      normalizeTitleForTMDB "Été - 1985".toList = "Été".toList ∧
      normalizeTitleForTMDB "Été - 1985".toList ≠ "Été - 1985".toList := by
  decide

theorem parenFlat_mono (s : Str) (h : parenFlat s true = true) : parenFlat s false = true := by
  induction s with
  | nil => rfl
  | cons c cs ih =>
    unfold parenFlat at h ⊢
    by_cases h1 : (c == '(') = true
    · simp [h1] at h
    · by_cases h2 : (c == ')') = true
      · simpa [h1, h2] using h
      · simp only [h1, h2, Bool.false_eq_true, ↓reduceIte] at h ⊢
        exact ih h

theorem parenFlat_any (s : Str) (o : Bool) (h : parenFlat s o = true) :
    parenFlat s false = true := by
  cases o with
  | false => exact h
  | true => exact parenFlat_mono s h

theorem parenFlat_append (a b : Str) (o : Bool) (h : parenFlat (a ++ b) o = true) :
    parenFlat a o = true ∧ parenFlat b false = true := by
  induction a generalizing o with
  | nil => exact ⟨rfl, parenFlat_any b o h⟩
  | cons c cs ih =>
    simp only [List.cons_append] at h
    rw [parenFlat] at h ⊢
    by_cases h1 : (c == '(') = true
    · simp only [h1, ↓reduceIte] at h ⊢
      cases o with
      | true => simp at h
      | false =>
        simp only [Bool.false_eq_true, ↓reduceIte] at h ⊢
        exact ih true h
    · by_cases h2 : (c == ')') = true
      · simp only [h1, h2, Bool.false_eq_true, ↓reduceIte] at h ⊢
        exact ih false h
      · simp only [h1, h2, Bool.false_eq_true, ↓reduceIte] at h ⊢
        exact ih o h

theorem parenFlat_part (s t : Str) (hts : t <:+: s) (h : parenFlat s false = true) :
    parenFlat t false = true := by
  obtain ⟨a, b, rfl⟩ := hts
  have h1 := (parenFlat_append (a ++ t) b false h).1
  exact (parenFlat_append a t false h1).2

theorem reSpace_not_paren (c : Char) (h : reSpace c = true) : (c == '(') = false ∧ (c == ')') = false := by
  unfold reSpace at h
  simp only [Bool.or_eq_true, beq_iff_eq] at h
  constructor
  · cases hc : (c == '(') with
    | false => rfl
    | true =>
      rw [beq_iff_eq] at hc
      subst hc
      revert h
      decide
  · cases hc : (c == ')') with
    | false => rfl
    | true =>
      rw [beq_iff_eq] at hc
      subst hc
      revert h
      decide

theorem parenFlat_blanks (ws r : Str) (o : Bool) (h : ∀ c ∈ ws, reSpace c = true) :
    parenFlat (ws ++ r) o = parenFlat r o := by
  induction ws with
  | nil => rfl
  | cons c cs ih =>
    have hc := reSpace_not_paren c (h c (List.mem_cons_self _ _))
    simp only [List.cons_append]
    rw [parenFlat]
    simp only [hc.1, hc.2, Bool.false_eq_true, ↓reduceIte]
    exact ih (fun d hd => h d (List.mem_cons_of_mem _ hd))

/-- The pattern matches only where, after blanks, a `(` follows. -/
theorem yearPatternMatch_some (s : Str) (k : Nat) (h : yearPatternMatch s = some k) :
    ∃ a b c d r, s.dropWhile reSpace = '(' :: a :: b :: c :: d :: ')' :: r ∧
      k = (s.takeWhile reSpace).length + 6 := by
  unfold yearPatternMatch at h
  split at h
  · rename_i p a b c d q r heq
    split at h
    · rename_i hcond
      simp only [Bool.and_eq_true, beq_iff_eq] at hcond
      obtain ⟨⟨⟨⟨⟨rfl, -⟩, -⟩, -⟩, -⟩, rfl⟩ := hcond
      simp only [Option.some.injEq] at h
      exact ⟨a, b, c, d, r, heq, h.symm⟩
    · cases h
  · cases h

theorem yearPatternMatch_open (s : Str) (h : parenFlat s true = true) :
    yearPatternMatch s = none := by
  cases hk : yearPatternMatch s with
  | none => rfl
  | some k =>
    obtain ⟨a, b, c, d, r, hd, -⟩ := yearPatternMatch_some s k hk
    have hs : s = s.takeWhile reSpace ++ s.dropWhile reSpace :=
      (List.takeWhile_append_dropWhile reSpace s).symm
    rw [hs, hd, parenFlat_blanks _ _ _ (fun c hc => List.mem_takeWhile_imp hc)] at h
    simp [parenFlat] at h

theorem replaceYearFrom_drop (s : Str) (n : Nat) :
    replaceYearFrom s n = replaceYearFrom (s.drop n) 0 := by
  induction s generalizing n with
  | nil => simp [replaceYearFrom]
  | cons c cs ih =>
    cases n with
    | zero => rfl
    | succ n =>
      simp only [replaceYearFrom, List.drop_succ_cons]
      exact ih n

theorem replaceYearFrom_cons (c : Char) (cs : Str) :
    replaceYearFrom (c :: cs) 0 =
      match yearPatternMatch (c :: cs) with
      | some k => replaceYearFrom ((c :: cs).drop k) 0
      | none => c :: replaceYearFrom cs 0 := by
  cases hk : yearPatternMatch (c :: cs) with
  | none => simp [replaceYearFrom, hk]
  | some k =>
    obtain ⟨_, _, _, _, _, -, hk6⟩ := yearPatternMatch_some _ k hk
    obtain ⟨j, rfl⟩ : ∃ j, k = j + 1 := ⟨k - 1, by omega⟩
    simp only [replaceYearFrom, hk, Nat.add_sub_cancel, List.drop_succ_cons]
    exact replaceYearFrom_drop cs j

/-- Inside an open parenthesis the digits up to the closing one are copied as
they are. -/
theorem replaceYearFrom_open (w cs : Str) (hw : ∀ c ∈ w, isDigit c = true)
    (h : parenFlat cs true = true) (hpre : w ++ [')'] <+: replaceYearFrom cs 0) :
    w ++ [')'] <+: cs := by
  induction w generalizing cs with
  | nil =>
    cases cs with
    | nil => simp [replaceYearFrom] at hpre
    | cons c cs =>
      rw [replaceYearFrom_cons, yearPatternMatch_open _ h] at hpre
      simp only [List.nil_append, List.cons_prefix_cons] at hpre ⊢
      exact ⟨hpre.1, List.nil_prefix⟩
  | cons d w ih =>
    cases cs with
    | nil => simp [replaceYearFrom] at hpre
    | cons c cs =>
      rw [replaceYearFrom_cons, yearPatternMatch_open _ h] at hpre
      simp only [List.cons_append, List.cons_prefix_cons] at hpre ⊢
      obtain ⟨rfl, hpre⟩ := hpre
      have hd : isDigit d = true := hw d (List.mem_cons_self _ _)
      have h1 : (d == '(') = false := by
        cases hc : (d == '(') with
        | false => rfl
        | true =>
          rw [beq_iff_eq] at hc
          subst hc
          revert hd
          decide
      have h2 : (d == ')') = false := by
        cases hc : (d == ')') with
        | false => rfl
        | true =>
          rw [beq_iff_eq] at hc
          subst hc
          revert hd
          decide
      rw [parenFlat] at h
      simp only [h1, h2, Bool.false_eq_true, ↓reduceIte] at h
      exact ⟨rfl, ih cs (fun c hc => hw c (List.mem_cons_of_mem _ hc)) h hpre⟩

theorem yearGroupAt_append (s t : Str) (h : yearGroupAt s = true) : yearGroupAt (s ++ t) = true := by
  unfold yearGroupAt at h
  split at h
  · rename_i p a b c d q r
    simpa [yearGroupAt] using h
  · cases h

theorem hasYearGroup_append_right (s t : Str) (h : hasYearGroup s = true) :
    hasYearGroup (s ++ t) = true := by
  induction s with
  | nil => simp [hasYearGroup] at h
  | cons c cs ih =>
    simp only [hasYearGroup, Bool.or_eq_true] at h
    simp only [List.cons_append, hasYearGroup, Bool.or_eq_true]
    rcases h with h | h
    · exact Or.inl (yearGroupAt_append (c :: cs) t h)
    · exact Or.inr (ih h)

theorem hasYearGroup_part (s t : Str) (hts : t <:+: s) (h : hasYearGroup t = true) :
    hasYearGroup s = true := by
  obtain ⟨a, b, rfl⟩ := hts
  exact hasYearGroup_append_right _ b
    (hasYearGroup_suffix (a ++ t) t (List.suffix_append a t) h)

theorem yearGroupAt_match (s : Str) (h : yearGroupAt s = true) :
    ∃ k, yearPatternMatch s = some k := by
  unfold yearGroupAt at h
  split at h
  · rename_i p a b c d q r
    have hp : p = '(' := by
      simp only [Bool.and_eq_true, beq_iff_eq] at h
      exact h.1.1.1.1.1
    subst hp
    have hd : ('(' :: a :: b :: c :: d :: q :: r).dropWhile reSpace =
        '(' :: a :: b :: c :: d :: q :: r := by
      rw [List.dropWhile_cons_of_neg (by decide)]
    unfold yearPatternMatch
    rw [hd]
    simp only [h, ↓reduceIte]
    exact ⟨_, rfl⟩
  · cases h

/-- Without nested parentheses, removing the year groups leaves none. -/
theorem replaceYearFrom_flat (n : Nat) (s : Str) (hn : s.length ≤ n)
    (h : parenFlat s false = true) : hasYearGroup (replaceYearFrom s 0) = false := by
  induction n generalizing s with
  | zero =>
    have : s = [] := List.length_eq_zero.mp (by omega)
    subst this
    rfl
  | succ n ih =>
    cases s with
    | nil => rfl
    | cons c cs =>
      rw [replaceYearFrom_cons]
      cases hk : yearPatternMatch (c :: cs) with
      | some k =>
        simp only
        obtain ⟨_, _, _, _, _, -, hk6⟩ := yearPatternMatch_some _ k hk
        apply ih
        · simp only [List.length_drop, List.length_cons] at hn ⊢
          omega
        · exact parenFlat_part _ _ (List.drop_suffix k (c :: cs)).isInfix h
      | none =>
        simp only
        have hcs : parenFlat cs false = true :=
          parenFlat_part _ _ (List.suffix_cons c cs).isInfix h
        have hrest := ih cs (by simp only [List.length_cons] at hn; omega) hcs
        simp only [hasYearGroup, hrest, Bool.or_false]
        cases hg : yearGroupAt (c :: replaceYearFrom cs 0) with
        | false => rfl
        | true =>
          exfalso
          unfold yearGroupAt at hg
          split at hg
          · rename_i p a b c' d q r heq
            simp only [Bool.and_eq_true, beq_iff_eq] at hg
            obtain ⟨⟨⟨⟨⟨hp, ha⟩, hb⟩, hc⟩, hd⟩, hq⟩ := hg
            simp only [List.cons.injEq] at heq
            obtain ⟨hcp, hR⟩ := heq
            subst hp hq
            subst hcp
            have hopen : parenFlat cs true = true := by
              rw [parenFlat] at h
              simpa using h
            have hpre : [a, b, c', d] ++ [')'] <+: replaceYearFrom cs 0 := ⟨r, by rw [hR]; rfl⟩
            have hw : ∀ x ∈ [a, b, c', d], isDigit x = true := by
              intro x hx
              simp only [List.mem_cons, List.mem_singleton, List.not_mem_nil, or_false] at hx
              rcases hx with rfl | rfl | rfl | rfl <;> assumption
            obtain ⟨r', hr'⟩ := replaceYearFrom_open [a, b, c', d] cs hw hopen hpre
            have hgrp : yearGroupAt ('(' :: cs) = true := by
              rw [← hr']
              simp [yearGroupAt, ha, hb, hc, hd]
            obtain ⟨k, hk'⟩ := yearGroupAt_match _ hgrp
            rw [hk] at hk'
            cases hk'
          · cases hg

theorem normalizeTitleForTMDB_form (raw : Str) :
    ∃ T, T <:+: raw ∧ normalizeTitleForTMDB raw = TrimSpace (replaceYearFrom T 0) := by
  have hstep : ∀ (title : Str) (idx n : Nat), title <:+: raw →
      (if len (TrimSpace (title.take idx)) > n then TrimSpace (title.take idx) else title)
        <:+: raw := by
    intro title idx n ht
    split
    · exact (( TrimSpace_infix _).trans (List.take_prefix idx title).isInfix).trans ht
    · exact ht
  have h1 : (match Index (TrimSpace raw) ['('] with
      | some idx =>
        if idx > 0 then
          (if len (TrimSpace ((TrimSpace raw).take idx)) > 0 then
            TrimSpace ((TrimSpace raw).take idx) else TrimSpace raw)
        else TrimSpace raw
      | none => TrimSpace raw) <:+: raw := by
    split
    · split
      · exact hstep _ _ _ ( TrimSpace_infix raw)
      · exact TrimSpace_infix raw
    · exact TrimSpace_infix raw
  refine ⟨_, ?_, rfl⟩
  split
  · split
    · exact hstep _ _ _ h1
    · exact h1
  · exact h1

theorem TrimSpace_last (s : Str) (c : Char) (h : (TrimSpace s).getLast? = some c) :
    isSpace c = false := by
  have hne : TrimSpace s ≠ [] := by
    intro h0
    rw [h0] at h
    cases h
  have hl : ¬ isSpace ((List.rdropWhile isSpace (s.dropWhile isSpace)).getLast hne) = true :=
    List.rdropWhile_last_not isSpace _ hne
  have hc : (TrimSpace s).getLast hne = c := by
    rw [List.getLast?_eq_getLast _ hne] at h
    exact Option.some.inj h
  have hl' : ¬ isSpace ((TrimSpace s).getLast hne) = true := hl
  rw [hc] at hl'
  simpa using hl'

/-- C12 (amended). The result of `normalizeTitleForTMDB` has no leading or
trailing white space; and when the parentheses of the title are not nested, it
contains no parenthesised four-digit group. -/
theorem normalizeTitleForTMDB_year (raw : Str) :
    TrimSpace (normalizeTitleForTMDB raw) = normalizeTitleForTMDB raw ∧
      (∀ c, (normalizeTitleForTMDB raw).head? = some c → isSpace c = false) ∧
      (∀ c, (normalizeTitleForTMDB raw).getLast? = some c → isSpace c = false) ∧
      (parenFlat raw false = true → hasYearGroup (normalizeTitleForTMDB raw) = false) := by
  obtain ⟨T, hT, hform⟩ := normalizeTitleForTMDB_form raw
  rw [hform]
  refine ⟨TrimSpace_idem _, ?_, ?_, ?_⟩
  · intro c hc
    cases hr : TrimSpace (replaceYearFrom T 0) with
    | nil =>
      rw [hr] at hc
      cases hc
    | cons d r =>
      rw [hr] at hc
      simp only [List.head?_cons, Option.some.injEq] at hc
      subst hc
      exact TrimSpace_head _ d r hr
  · intro c hc
    exact TrimSpace_last _ c hc
  · intro hflat
    have h1 := replaceYearFrom_flat T.length T (le_refl _) (parenFlat_part raw T hT hflat)
    cases hg : hasYearGroup (TrimSpace (replaceYearFrom T 0)) with
    | false => rfl
    | true =>
      rw [hasYearGroup_part _ _ ( TrimSpace_infix _) hg] at h1
      cases h1

/-- C12 as stated fails: removing the group of `((1999)2345)` leaves the group
`(2345)`. -/
theorem normalizeTitleForTMDB_year_nested :
    normalizeTitleForTMDB "((1999)2345)".toList = "(2345)".toList ∧
      hasYearGroup (normalizeTitleForTMDB "((1999)2345)".toList) = true := by
  decide

/-! ### The slug of a movie URL -/

theorem Index_some_drop (s sub : Str) (m : Nat) (h : Index s sub = some m) :
    sub <+: s.drop m ∧ m ≤ s.length := by
  induction s generalizing m with
  | nil =>
    cases sub with
    | nil =>
      simp only [Index, List.isEmpty_nil, ↓reduceIte, Option.some.injEq] at h
      subst h
      simp
    | cons a p => simp [Index] at h
  | cons c cs ih =>
    by_cases hp : HasPrefix (c :: cs) sub = true
    · simp only [Index, hp, ↓reduceIte, Option.some.injEq] at h
      subst h
      exact ⟨(HasPrefix_iff _ _).mp hp, Nat.zero_le _⟩
    · simp only [Index, hp, Bool.false_eq_true, ↓reduceIte, Option.map_eq_some'] at h
      obtain ⟨j, hj, rfl⟩ := h
      have := ih j hj
      simp only [List.drop_succ_cons, List.length_cons]
      exact ⟨this.1, by omega⟩

theorem Index_some_split (s sub : Str) (m : Nat) (h : Index s sub = some m) :
    s = s.take m ++ sub ++ s.drop (m + sub.length) ∧ (s.take m).length = m := by
  obtain ⟨⟨r, hr⟩, hm⟩ := Index_some_drop s sub m h
  constructor
  · have h1 : s.drop (m + sub.length) = r := by
      rw [← List.drop_drop, ← hr]
      simp
    rw [h1, List.append_assoc, hr, List.take_append_drop]
  · simp [List.length_take, hm]

theorem Index_isSome_of_infix (s sub : Str) (h : sub <:+: s) : ∃ m, Index s sub = some m := by
  have := (Contains_iff s sub).mpr h
  unfold Contains at this
  exact Option.isSome_iff_exists.mp this

theorem splitLoop_none (n : Nat) (s sep : Str) (h : Index s sep = none) :
    splitLoop n s sep = [s] := by
  cases n with
  | zero => rfl
  | succ n => simp [splitLoop, h]

/-- C13. When `/movie/` occurs exactly once in the URL, as `p ++ "/movie/" ++ s`,
the slug is `s` without one trailing `/` if it has one; when `/movie/` does not
occur, the slug is empty. -/
theorem extractMovieSlugFromURL_spec :
    (∀ p s : Str,
      (∀ p' s' : Str, p ++ "/movie/".toList ++ s = p' ++ "/movie/".toList ++ s' → p' = p) →
      extractMovieSlugFromURL (p ++ "/movie/".toList ++ s) =
        if s.getLast? = some '/' then s.dropLast else s) ∧
    (∀ url : Str, Contains url "/movie/".toList = false → extractMovieSlugFromURL url = []) := by
  constructor
  · intro p s huniq
    obtain ⟨m, hm⟩ := Index_isSome_of_infix (p ++ "/movie/".toList ++ s) "/movie/".toList
      ⟨p, s, rfl⟩
    obtain ⟨hsplit, hlen⟩ := Index_some_split _ _ _ hm
    have hp : (p ++ "/movie/".toList ++ s).take m = p := huniq _ _ hsplit
    have hs : (p ++ "/movie/".toList ++ s).drop (m + "/movie/".toList.length) = s := by
      have h2 := hsplit
      rw [hp] at h2
      exact (List.append_cancel_left h2).symm
    have hnone : Index s "/movie/".toList = none := by
      cases hi : Index s "/movie/".toList with
      | none => rfl
      | some j =>
        obtain ⟨hsp, -⟩ := Index_some_split _ _ _ hi
        have hcontra := huniq (p ++ "/movie/".toList ++ s.take j)
          (s.drop (j + "/movie/".toList.length)) (by
            conv_lhs => rw [hsp]
            simp only [List.append_assoc])
        have hl := congrArg List.length hcontra
        simp at hl
    have hparts : Split (p ++ "/movie/".toList ++ s) "/movie/".toList = [p, s] := by
      have hfuel : (p ++ "/movie/".toList ++ s).length = (p.length + 6 + s.length) + 1 := by
        simp
        omega
      unfold Split
      rw [if_neg (by decide), hfuel]
      simp only [splitLoop, hm, hp, hs]
      rw [splitLoop_none _ _ _ hnone]
    unfold extractMovieSlugFromURL
    simp only [hparts]
    unfold TrimSuffix HasSuffix
    rcases List.eq_nil_or_concat s with rfl | ⟨s0, c, rfl⟩
    · simp [HasPrefix]
    · by_cases hc : c = '/'
      · subst hc
        simp [HasPrefix]
      · simp [HasPrefix, hc]
  · intro url hno
    have hnone := Index_none_of_not_Contains _ _ hno
    unfold extractMovieSlugFromURL Split
    rw [if_neg (by decide), splitLoop_none _ _ _ hnone]

/-! ### The placeholder movie -/

/-- C14. For every title, `createPlaceholderMovie` returns a movie with
identifier 0, that title, the `LimitedInfo` flag, the fixed placeholder poster
path, an empty overview, an empty release date, the rating "NR" and no genre. -/
theorem createPlaceholderMovie_fields (t : Str) :
    (createPlaceholderMovie t).TMDBID = 0 ∧
      (createPlaceholderMovie t).Title = t ∧
      (createPlaceholderMovie t).LimitedInfo = true ∧
      (createPlaceholderMovie t).PosterPath = "/assets/placeholder-poster.png".toList ∧
      (createPlaceholderMovie t).Overview = [] ∧
      (createPlaceholderMovie t).ReleaseDate = [] ∧
      (createPlaceholderMovie t).Rating = "NR".toList ∧
      (createPlaceholderMovie t).Genres = [] :=
  ⟨rfl, rfl, rfl, rfl, rfl, rfl, rfl, rfl⟩

/-! ### The cache -/

theorem Cache.run_ttl (c : Cache) (ops : List CacheOp) : (c.run ops).ttl = c.ttl := by
  induction ops generalizing c with
  | nil => rfl
  | cons op ops ih =>
    cases op with
    | set key movie now => rw [Cache.run, ih]; rfl
    | sweep now => rw [Cache.run, ih]; rfl

theorem Cache.Get_run (k : Str) (t' : Int) (ops : List CacheOp) (c : Cache)
    (h : ∀ op ∈ ops, op.spares k t' = true) : (c.run ops).Get t' k = c.Get t' k := by
  induction ops generalizing c with
  | nil => rfl
  | cons op ops ih =>
    have hop := h op (List.mem_cons_self _ _)
    have hrest : ∀ o ∈ ops, o.spares k t' = true := fun o ho => h o (List.mem_cons_of_mem _ ho)
    cases op with
    | set key movie now =>
      rw [Cache.run, ih _ hrest]
      have hk : ¬ k = key := fun e => (of_decide_eq_true hop) e.symm
      simp only [Cache.Get, Cache.Set, if_neg hk]
    | sweep now =>
      rw [Cache.run, ih _ hrest]
      have hn : now ≤ t' := of_decide_eq_true hop
      simp only [Cache.Get, Cache.sweep]
      cases he : c.entries k with
      | none => rfl
      | some entry =>
        by_cases hx : now > entry.expiresAt
        · have : t' > entry.expiresAt := by omega
          simp [hx, this]
        · simp [hx]

theorem Cache.Get_Set_same (c : Cache) (t t' : Int) (k : Str) (m : Option Movie) :
    (c.Set t k m).Get t' k = if t' ≤ t + c.ttl then m else none := by
  simp only [Cache.Get, Cache.Set, if_true]
  by_cases h : t' ≤ t + c.ttl
  · have : ¬ t' > t + c.ttl := by omega
    simp [h, this]
  · have : t' > t + c.ttl := by omega
    simp [h, this]

theorem Cache.Get_Set_other (c : Cache) (t t' : Int) (k k' : Str) (m : Option Movie)
    (h : k' ≠ k) : (c.Set t k m).Get t' k' = c.Get t' k' := by
  simp only [Cache.Get, Cache.Set, if_neg h]

/-- C17. With time to live `d`, after `Set` of `m` under `k` at time `t`,
followed only by `Set`s on other keys and by sweeps no later than the reading,
`Get` of `k` at time `t'` gives `m` when `t' ≤ t + d` and nil when `t' > t + d`;
`Get` of a key never set (in a new cache, after the same operations) gives nil;
and `Set` on `k` leaves `Get` of any other key as it was. -/
theorem cache_get_set (c : Cache) (k : Str) (m : Option Movie) (t t' : Int)
    (ops : List CacheOp) (h : ∀ op ∈ ops, op.spares k t' = true) :
    (t' ≤ t + c.ttl → ((c.Set t k m).run ops).Get t' k = m) ∧
      (t' > t + c.ttl → ((c.Set t k m).run ops).Get t' k = none) ∧
      (∀ d, ((NewCache d).run ops).Get t' k = none) ∧
      (∀ k', k' ≠ k → (c.Set t k m).Get t' k' = c.Get t' k') := by
  refine ⟨fun h1 => ?_, fun h2 => ?_, fun d => ?_,
    fun k' hk => Cache.Get_Set_other c t t' k k' m hk⟩
  · rw [Cache.Get_run k t' ops _ h, Cache.Get_Set_same, if_pos h1]
  · rw [Cache.Get_run k t' ops _ h, Cache.Get_Set_same, if_neg (by omega)]
  · rw [Cache.Get_run k t' ops _ h]
    rfl

theorem cache_get_set_witness :
    ((((NewCache 3600).Set 1000 "dune".toList (some (createPlaceholderMovie "Dune".toList))).run
        [.set "jaws".toList none 2000, .sweep 4000]).Get 4600 "dune".toList
      = some (createPlaceholderMovie "Dune".toList)) ∧
    ((((NewCache 3600).Set 1000 "dune".toList (some (createPlaceholderMovie "Dune".toList))).run
        [.set "jaws".toList none 2000, .sweep 4601]).Get 4601 "dune".toList = none) :=
  ⟨(cache_get_set (NewCache 3600) "dune".toList (some (createPlaceholderMovie "Dune".toList))
      1000 4600 [.set "jaws".toList none 2000, .sweep 4000]
      (by decide)).1
      (by decide),
   (cache_get_set (NewCache 3600) "dune".toList (some (createPlaceholderMovie "Dune".toList))
      1000 4601 [.set "jaws".toList none 2000, .sweep 4601]
      (by decide)).2.1
      (by decide)⟩

/-! ### The metadata history and the readers -/

/-- C18. On a stored history `h`, `SaveMetadata` of `m` stores the last
100 entries of `h ++ [m]`: the new entry is last, the stored history is a suffix
of `h ++ [m]`, and its length is `min (len h + 1) 100`. -/
theorem SaveMetadata_history (d : DataDir) (m : ScrapeMetadata) (h : List ScrapeMetadata)
    (hw : d.writable = true) (hh : d.history = some h) :
    ∃ d', SaveMetadata d m = .ok d' ∧
      d'.metadata = .holds ((h ++ [m]).drop (h.length + 1 - 100)) ∧
      d'.history = some ((h ++ [m]).drop (h.length + 1 - 100)) ∧
      ((h ++ [m]).drop (h.length + 1 - 100)).getLast? = some m ∧
      (h ++ [m]).drop (h.length + 1 - 100) <:+ h ++ [m] ∧
      ((h ++ [m]).drop (h.length + 1 - 100)).length = min (h.length + 1) 100 ∧
      d'.toStorage = d.toStorage ∧ d'.theaters = d.theaters ∧ d'.movies = d.movies := by
  have hread : (match readJSON d.metadata ([] : List ScrapeMetadata) with
      | .ok v => v
      | .error _ => []) = h := by
    unfold DataDir.history at hh
    cases hf : d.metadata with
    | missing => rw [hf] at hh; simp at hh; subst hh; rfl
    | unreadable => rw [hf] at hh; simp at hh
    | holds v => rw [hf] at hh; simp at hh; subst hh; rfl
  have hsave : SaveMetadata d m =
      .ok { d with metadata := .holds ((h ++ [m]).drop (h.length + 1 - 100)) } := by
    unfold SaveMetadata
    simp only [hread, writeMetadata, hw, if_true, List.length_append, List.length_singleton]
    by_cases hl : h.length + 1 > 100
    · simp [hl]
    · have h0 : h.length + 1 - 100 = 0 := by omega
      simp [hl, h0]
  refine ⟨_, hsave, rfl, rfl, ?_, List.drop_suffix _ _, ?_, rfl, rfl, rfl⟩
  · have hlt : h.length + 1 - 100 ≤ h.length := by omega
    rw [List.drop_append_of_le_length hlt, List.getLast?_append]
    simp
  · simp only [List.length_drop, List.length_append, List.length_singleton]
    omega

theorem SaveMetadata_history_witness :
    ∃ d', SaveMetadata ⟨⟨true, .missing⟩, .missing, .missing,
          .holds ((List.range 100).map sampleMetadata)⟩ (sampleMetadata 100) = .ok d' ∧
      d'.metadata = .holds ((List.range 101).map sampleMetadata).tail := by
  obtain ⟨d', h1, h2, _⟩ := SaveMetadata_history
    ⟨⟨true, .missing⟩, .missing, .missing, .holds ((List.range 100).map sampleMetadata)⟩
    (sampleMetadata 100) ((List.range 100).map sampleMetadata) rfl rfl
  refine ⟨d', h1, ?_⟩
  rw [h2]
  decide

/-- C19 fails on the code: with a writable directory whose metadata file
is present and cannot be decoded, `SaveMetadata` returns no error and replaces
the history by the new entry alone, while `GetLastUpdate` on the same directory
returns the error of the read. -/
theorem SaveMetadata_discards_read_error (sh : File (List Showtime)) (th : File (List Theater))
    (mv : File MoviesFile) (m : ScrapeMetadata) :
    SaveMetadata ⟨⟨true, sh⟩, th, mv, .unreadable⟩ m
        = .ok ⟨⟨true, sh⟩, th, mv, .holds [m]⟩ ∧
      GetLastUpdate ⟨⟨true, sh⟩, th, mv, .unreadable⟩ = .error "failed to read JSON" :=
  ⟨rfl, rfl⟩

/-- C20. Each reader of the data directory, when the file it reads does
not exist, returns the empty result (the empty list, or the zero instant for
`GetLastUpdate`) and no error. -/
theorem load_missing (R : RangeOrder) (d : DataDir) :
    (d.showtimes = .missing → LoadShowtimes d.toStorage = .ok []) ∧
      (d.theaters = .missing → LoadTheaters d = .ok []) ∧
      (d.movies = .missing → LoadMovies R d = .ok []) ∧
      (d.metadata = .missing → GetLastUpdate d = .ok 0) := by
  refine ⟨fun h => ?_, fun h => ?_, fun h => ?_, fun h => ?_⟩
  · simp [LoadShowtimes, h, readJSON]
  · simp [LoadTheaters, h, readJSON]
  · have hp := (R.perm []).eq_nil
    simp [LoadMovies, h, readMoviesMap, hp]
  · simp [GetLastUpdate, h, readJSON]

/-! ### The metadata client -/

theorem MovieMap.get_eq_none_iff (m : MovieMap) (key : Str) :
    m.get key = none ↔ key ∉ m.keys := by
  induction m with
  | nil => simp [MovieMap.get, MovieMap.keys]
  | cons p rest ih =>
    obtain ⟨k, v⟩ := p
    unfold MovieMap.get
    by_cases h : k = key
    · simp [h, MovieMap.keys]
    · have h' : ¬ key = k := fun e => h e.symm
      simp only [if_neg h, ih]
      simp [MovieMap.keys, h']

theorem MovieMap.keys_set (m : MovieMap) (key : Str) (value : Option Movie)
    (h : key ∉ m.keys) : (m.set key value).keys = m.keys ++ [key] := by
  induction m with
  | nil => rfl
  | cons p rest ih =>
    obtain ⟨k, v⟩ := p
    have hk : ¬ k = key := by
      intro e; apply h; simp [MovieMap.keys, e]
    have hr : key ∉ MovieMap.keys rest := by
      intro e; apply h; simp only [MovieMap.keys, List.map_cons, List.mem_cons]
      exact Or.inr e
    unfold MovieMap.set
    simp only [if_neg hk]
    have := ih hr
    simp only [MovieMap.keys, List.map_cons, List.cons_append] at this ⊢
    rw [this]

theorem SearchMovie_invoked (U : CaseTable) (env : Env) (c : Client) (title : Str) :
    (SearchMovie U env c title).2.invoked = c.invoked ++ [title] := by
  unfold SearchMovie
  split
  · rfl
  · dsimp only
    split <;> rfl

/-- What `SearchMovie` does to the cache: nothing, or one entry holding a real
result for the title. -/
theorem SearchMovie_cache (U : CaseTable) (env : Env) (c : Client) (title : Str) (key : Str) :
    (SearchMovie U env c title).2.cache.entries key = c.cache.entries key ∨
      ∃ m t, (SearchMovie U env c title).2.cache.entries key = some ⟨some m, t⟩ ∧
        m.LimitedInfo = false := by
  unfold SearchMovie
  split
  · exact Or.inl rfl
  · dsimp only
    split
    · exact Or.inl rfl
    · rename_i movie hs
      by_cases hk : key = title
      · right
        refine ⟨movie, env.clock (c.ticks + 1) + c.cache.ttl, ?_, ?_⟩
        · simp [Cache.Set, hk]
        · unfold searchTMDB at hs
          split at hs
          · cases hs
          · cases hs; rfl
      · left
        simp [Cache.Set, hk]

theorem SearchMovie_error (U : CaseTable) (env : Env) (c : Client) (title : Str) (e : String)
    (h : (SearchMovie U env c title).1 = .error e) :
    (SearchMovie U env c title).2.cache = c.cache ∧
      (SearchMovie U env c title).2.searched = c.searched ++ [normalizeTitle U title] := by
  unfold SearchMovie at h ⊢
  split
  · rename_i cached hc
    rw [hc] at h
    cases h
  · rename_i hc
    rw [hc] at h
    dsimp only at h ⊢
    split
    · exact ⟨rfl, rfl⟩
    · rename_i movie hs
      rw [hs] at h
      cases h

theorem SearchMovie_fails (U : CaseTable) (env : Env) (c : Client) (title : Str) (e : String)
    (hget : c.cache.Get (env.clock c.ticks) title = none)
    (herr : env.tmdb c.searched.length (normalizeTitle U title) = .error e) :
    SearchMovie U env c title =
      (.error e, { c with ticks := c.ticks + 1
                          searched := c.searched ++ [normalizeTitle U title]
                          invoked := c.invoked ++ [title] }) := by
  unfold SearchMovie
  simp only [hget, searchTMDB, herr]

theorem enrichLoop_cache (U : CaseTable) (env : Env) (key : Str) (showtimes : List Showtime) :
    ∀ (enriched : List Showtime) (movieCache : MovieMap) (c : Client),
      (enrichLoop U env showtimes enriched movieCache c).2.cache.entries key
          = c.cache.entries key ∨
        ∃ m t, (enrichLoop U env showtimes enriched movieCache c).2.cache.entries key
            = some ⟨some m, t⟩ ∧ m.LimitedInfo = false := by
  induction showtimes with
  | nil => intro enriched movieCache c; exact Or.inl rfl
  | cons st rest ih =>
    intro enriched movieCache c
    rw [enrichLoop]
    split
    · exact ih _ _ _
    · have hs := SearchMovie_cache U env c st.MovieTitle key
      split
      · rename_i e c1 heq
        rw [heq] at hs
        rcases ih (enriched ++ [{ st with TMDBID := 0 }])
          (MovieMap.set movieCache st.MovieTitle (some (createPlaceholderMovie st.MovieTitle)))
          c1 with h | h
        · rcases hs with hs | hs
          · exact Or.inl (h.trans hs)
          · right
            obtain ⟨m, t, h1, h2⟩ := hs
            exact ⟨m, t, h.trans h1, h2⟩
        · exact Or.inr h
      · rename_i movie c1 heq
        rw [heq] at hs
        rcases ih (enriched ++ [{ st with TMDBID := movie.TMDBID }])
          (MovieMap.set movieCache st.MovieTitle (some movie)) c1 with h | h
        · rcases hs with hs | hs
          · exact Or.inl (h.trans hs)
          · right
            obtain ⟨m, t, h1, h2⟩ := hs
            exact ⟨m, t, h.trans h1, h2⟩
        · exact Or.inr h

theorem enrichLoop_once (U : CaseTable) (env : Env) (showtimes : List Showtime) :
    ∀ (enriched : List Showtime) (movieCache : MovieMap) (c : Client),
      movieCache.keys.Nodup →
      ∃ L : List Str,
        (enrichLoop U env showtimes enriched movieCache c).1.2.keys = movieCache.keys ++ L ∧
        (enrichLoop U env showtimes enriched movieCache c).2.invoked = c.invoked ++ L ∧
        (movieCache.keys ++ L).Nodup ∧
        (∀ t, t ∈ L ↔ t ∈ showtimes.map (fun s => s.MovieTitle) ∧ t ∉ movieCache.keys) ∧
        (enrichLoop U env showtimes enriched movieCache c).1.1.length
          = enriched.length + showtimes.length := by
  induction showtimes with
  | nil =>
    intro enriched movieCache c hnd
    exact ⟨[], by simp [enrichLoop], by simp [enrichLoop], by simpa using hnd, by simp,
      by simp [enrichLoop]⟩
  | cons st rest ih =>
    intro enriched movieCache c hnd
    rw [enrichLoop]
    split
    · rename_i movie hget
      have hmem : st.MovieTitle ∈ movieCache.keys := by
        by_contra hn
        rw [(MovieMap.get_eq_none_iff movieCache st.MovieTitle).2 hn] at hget
        cases hget
      obtain ⟨L, h1, h2, h3, h4, h5⟩ := ih
        (enriched ++ [match movie with
          | some m => { st with TMDBID := m.TMDBID }
          | none => st]) movieCache c hnd
      refine ⟨L, h1, h2, h3, ?_, ?_⟩
      · intro t
        rw [h4]
        simp only [List.map_cons, List.mem_cons]
        constructor
        · rintro ⟨ha, hb⟩; exact ⟨Or.inr ha, hb⟩
        · rintro ⟨ha | ha, hb⟩
          · exact absurd (ha ▸ hmem) hb
          · exact ⟨ha, hb⟩
      · rw [h5]; simp; omega
    · rename_i hget
      have hnm : st.MovieTitle ∉ movieCache.keys :=
        (MovieMap.get_eq_none_iff movieCache st.MovieTitle).1 hget
      have hinv := SearchMovie_invoked U env c st.MovieTitle
      have key : ∀ (v : Option Movie) (e1 : List Showtime) (c1 : Client),
          c1.invoked = c.invoked ++ [st.MovieTitle] →
          ∃ L : List Str,
            (enrichLoop U env rest e1 (MovieMap.set movieCache st.MovieTitle v) c1).1.2.keys
              = movieCache.keys ++ L ∧
            (enrichLoop U env rest e1 (MovieMap.set movieCache st.MovieTitle v) c1).2.invoked
              = c.invoked ++ L ∧
            (movieCache.keys ++ L).Nodup ∧
            (∀ t, t ∈ L ↔ t ∈ (st :: rest).map (fun s => s.MovieTitle) ∧ t ∉ movieCache.keys) ∧
            (enrichLoop U env rest e1 (MovieMap.set movieCache st.MovieTitle v) c1).1.1.length
              = e1.length + rest.length := by
        intro v e1 c1 hc1
        have hkeys := MovieMap.keys_set movieCache st.MovieTitle v hnm
        have hnd' : (MovieMap.set movieCache st.MovieTitle v).keys.Nodup := by
          rw [hkeys]
          exact List.Nodup.append hnd (List.nodup_singleton _)
            (by
              intro a ha hb
              rw [List.mem_singleton] at hb
              exact hnm (hb ▸ ha))
        obtain ⟨L, h1, h2, h3, h4, h5⟩ := ih e1 (MovieMap.set movieCache st.MovieTitle v) c1 hnd'
        rw [hkeys] at h1 h3 h4
        refine ⟨st.MovieTitle :: L, ?_, ?_, ?_, ?_, h5⟩
        · rw [h1]; simp
        · rw [h2, hc1]; simp
        · simpa using h3
        · intro t
          simp only [List.mem_cons, List.map_cons, h4, List.mem_append, List.mem_singleton,
            not_or]
          constructor
          · rintro (h | ⟨ha, hb, _⟩)
            · exact ⟨Or.inl h, h ▸ hnm⟩
            · exact ⟨Or.inr ha, hb⟩
          · rintro ⟨ha | ha, hb⟩
            · exact Or.inl ha
            · by_cases ht : t = st.MovieTitle
              · exact Or.inl ht
              · exact Or.inr ⟨ha, hb, ht, List.not_mem_nil t⟩
      split
      · rename_i e c1 heq
        rw [heq] at hinv
        obtain ⟨L, h1, h2, h3, h4, h5⟩ := key (some (createPlaceholderMovie st.MovieTitle))
          (enriched ++ [{ st with TMDBID := 0 }]) c1 hinv
        exact ⟨L, h1, h2, h3, h4, by rw [h5]; simp; omega⟩
      · rename_i movie c1 heq
        rw [heq] at hinv
        obtain ⟨L, h1, h2, h3, h4, h5⟩ := key (some movie)
          (enriched ++ [{ st with TMDBID := movie.TMDBID }]) c1 hinv
        exact ⟨L, h1, h2, h3, h4, by rw [h5]; simp; omega⟩

/-- C15 as stated fails: every external search failing, `EnrichShowtimes`
puts the placeholder into the map it returns and not into the cache of the
client, and a later `SearchMovie` for the same title searches again. -/
theorem EnrichShowtimes_placeholder_uncached :
    (EnrichShowtimes asciiCase failingEnv (NewClient 3600) [unknownShowtime]).1.2
        = [("Unknown Film".toList, some (createPlaceholderMovie "Unknown Film".toList))] ∧
      (EnrichShowtimes asciiCase failingEnv (NewClient 3600) [unknownShowtime]).2.cache.Get 1
        "Unknown Film".toList = none ∧
      (EnrichShowtimes asciiCase failingEnv (NewClient 3600) [unknownShowtime]).2.searched
        = ["unknown film".toList] ∧
      (SearchMovie asciiCase failingEnv
        (EnrichShowtimes asciiCase failingEnv (NewClient 3600) [unknownShowtime]).2
        "Unknown Film".toList).2.searched = ["unknown film".toList, "unknown film".toList] := by
  refine ⟨by decide, by decide, by decide, by decide⟩

/-- C15 (amended). When the external search for the title of a showtime
fails, `EnrichShowtimes` gives the showtime the identifier 0, stores the
placeholder in the map it returns and leaves the cache of the client as it was;
every entry `EnrichShowtimes` writes to that cache is a real result, without
the `LimitedInfo` flag; and a later `SearchMovie` for the same title that finds
no live entry searches again. -/
theorem EnrichShowtimes_failed_lookup (U : CaseTable) (env : Env) (c : Client) (st : Showtime)
    (e : String)
    (hget : c.cache.Get (env.clock c.ticks) st.MovieTitle = none)
    (herr : env.tmdb c.searched.length (normalizeTitle U st.MovieTitle) = .error e) :
    (EnrichShowtimes U env c [st]).1
        = ([{ st with TMDBID := 0 }],
           [(st.MovieTitle, some (createPlaceholderMovie st.MovieTitle))]) ∧
      (EnrichShowtimes U env c [st]).2.cache = c.cache ∧
      (EnrichShowtimes U env c [st]).2.searched
        = c.searched ++ [normalizeTitle U st.MovieTitle] ∧
      (∀ (sts : List Showtime) (key : Str),
        (EnrichShowtimes U env c sts).2.cache.entries key = c.cache.entries key ∨
          ∃ m t, (EnrichShowtimes U env c sts).2.cache.entries key = some ⟨some m, t⟩ ∧
            m.LimitedInfo = false) ∧
      (c.cache.Get (env.clock (c.ticks + 1)) st.MovieTitle = none →
        (SearchMovie U env (EnrichShowtimes U env c [st]).2 st.MovieTitle).2.searched
          = c.searched ++ [normalizeTitle U st.MovieTitle, normalizeTitle U st.MovieTitle]) := by
  have hrun : EnrichShowtimes U env c [st] =
      (([{ st with TMDBID := 0 }],
        [(st.MovieTitle, some (createPlaceholderMovie st.MovieTitle))]),
       { c with ticks := c.ticks + 1
                searched := c.searched ++ [normalizeTitle U st.MovieTitle]
                invoked := c.invoked ++ [st.MovieTitle] }) := by
    unfold EnrichShowtimes
    rw [enrichLoop]
    simp only [MovieMap.get, SearchMovie_fails U env c st.MovieTitle e hget herr]
    rfl
  refine ⟨by rw [hrun], by rw [hrun], by rw [hrun],
    fun sts key => enrichLoop_cache U env key sts [] [] c, fun h2 => ?_⟩
  rw [hrun]
  unfold SearchMovie
  simp only [h2]
  unfold searchTMDB
  split <;> simp

theorem EnrichShowtimes_failed_lookup_witness :
    (EnrichShowtimes asciiCase failingEnv (NewClient 3600) [unknownShowtime]).1
        = ([{ unknownShowtime with TMDBID := 0 }],
           [(unknownShowtime.MovieTitle,
             some (createPlaceholderMovie unknownShowtime.MovieTitle))]) ∧
      (EnrichShowtimes asciiCase failingEnv (NewClient 3600) [unknownShowtime]).2.cache
        = (NewClient 3600).cache :=
  ⟨(EnrichShowtimes_failed_lookup asciiCase failingEnv (NewClient 3600) unknownShowtime
      "no results found" rfl rfl).1,
   (EnrichShowtimes_failed_lookup asciiCase failingEnv (NewClient 3600) unknownShowtime
      "no results found" rfl rfl).2.1⟩

/-- C16. In one call of `EnrichShowtimes`, whatever the outcomes of the
lookups, `SearchMovie` is invoked once for each distinct title of the list and
never twice for the same title; the call returns (one enriched showtime for each
showtime), and the keys of the returned map are these same distinct titles. -/
theorem EnrichShowtimes_once (U : CaseTable) (env : Env) (c : Client) (sts : List Showtime) :
    ∃ L : List Str,
      (EnrichShowtimes U env c sts).2.invoked = c.invoked ++ L ∧
      L.Nodup ∧
      (∀ t, t ∈ L ↔ t ∈ sts.map (fun s => s.MovieTitle)) ∧
      (EnrichShowtimes U env c sts).1.2.keys = L ∧
      (EnrichShowtimes U env c sts).1.1.length = sts.length := by
  obtain ⟨L, h1, h2, h3, h4, h5⟩ := enrichLoop_once U env sts [] [] c (by simp [MovieMap.keys])
  refine ⟨L, h2, by simpa [MovieMap.keys] using h3, ?_, by simpa [MovieMap.keys] using h1,
    by simpa using h5⟩
  intro t
  rw [h4]
  simp [MovieMap.keys]

/-! ### The two forms of the movies file -/

theorem filterMap_length_countP (m : MovieMap) :
    (m.filterMap (fun kv => kv.2)).length = m.countP (fun kv => kv.2.isSome) := by
  induction m with
  | nil => rfl
  | cons p rest ih =>
    obtain ⟨k, v⟩ := p
    cases v with
    | none => simpa [List.filterMap_cons, List.countP_cons] using ih
    | some x => simp [List.filterMap_cons, List.countP_cons, ih]

/-- C21. `LoadMovies` accepts both forms of the movies file without error: from
a mapping it returns the non-null movies of the mapping, each once, in some
order, as many as there are non-null entries; from a list it returns that list;
and what `SaveMovies` writes is read back as it was. -/
theorem LoadMovies_both (R : RangeOrder) (d : DataDir) :
    (∀ m : MovieMap, d.movies = .holds (.asMap m) →
      ∃ L, LoadMovies R d = .ok L ∧ L.Perm (m.filterMap (fun kv => kv.2)) ∧
        L.length = m.countP (fun kv => kv.2.isSome)) ∧
    (∀ l : List Movie, d.movies = .holds (.asList l) → LoadMovies R d = .ok l) ∧
    (∀ (l : List Movie) (d' : DataDir), SaveMovies d l = .ok d' → LoadMovies R d' = .ok l) := by
  refine ⟨fun m hm => ?_, fun l hl => ?_, fun l d' hs => ?_⟩
  · refine ⟨(R.visit m).filterMap (fun kv => kv.2), ?_, (R.perm m).filterMap _, ?_⟩
    · simp [LoadMovies, hm, readMoviesMap]
    · rw [((R.perm m).filterMap _).length_eq, filterMap_length_countP]
  · simp [LoadMovies, hl, readMoviesMap, readMoviesList]
  · unfold SaveMovies at hs
    split at hs
    · cases hs
      simp [LoadMovies, readMoviesMap, readMoviesList]
    · cases hs

/-! ### The scrape handler -/

theorem runScrapersLoop_cons (clock : Nat → Int) (s : scrapers.Scraper)
    (rest : List scrapers.Scraper) (n : Nat) (results : List ScrapeMetadata) (d : DataDir) :
    runScrapersLoop clock (s :: rest) n results d =
      runScrapersLoop clock rest (n + 1) (results ++ [scrapeOutcome clock n s])
        (match SaveMetadata d (scrapeOutcome clock n s) with
          | .ok d1 => d1
          | .error _ => d) := rfl

theorem runScrapersLoop_spec (clock : Nat → Int) (ss : List scrapers.Scraper) :
    ∀ (n : Nat) (results : List ScrapeMetadata) (d : DataDir),
      ∃ new : List ScrapeMetadata,
        (runScrapersLoop clock ss n results d).1 = results ++ new ∧
        List.Forall₂ (fun (s : scrapers.Scraper) (m : ScrapeMetadata) =>
          m.TheaterID = s.GetID ∧
          (∀ err, s.Scrape = .error err →
            m.Status = "error".toList ∧ m.ErrorMessage = err.toList) ∧
          (∀ sts, s.Scrape = .ok sts →
            m.Status = "success".toList ∧ m.ErrorMessage = [] ∧
              m.ShowtimesScraped = sts.length)) ss new := by
  induction ss with
  | nil => intro n results d; exact ⟨[], by simp [runScrapersLoop], List.Forall₂.nil⟩
  | cons s rest ih =>
    intro n results d
    rw [runScrapersLoop_cons]
    obtain ⟨new, h1, h2⟩ := ih (n + 1) (results ++ [scrapeOutcome clock n s])
      (match SaveMetadata d (scrapeOutcome clock n s) with
        | .ok d1 => d1
        | .error _ => d)
    refine ⟨scrapeOutcome clock n s :: new, ?_, List.Forall₂.cons ?_ h2⟩
    · rw [h1, List.append_assoc]; rfl
    · unfold scrapeOutcome
      cases hs : s.Scrape with
      | error err =>
        refine ⟨rfl, fun err' h => ?_, fun sts h => ?_⟩
        · cases h; exact ⟨rfl, rfl⟩
        · cases h
      | ok sts =>
        refine ⟨rfl, fun err' h => ?_, fun sts' h => ?_⟩
        · cases h
        · cases h; exact ⟨rfl, rfl, rfl⟩

/-- C22. `runScrapers` returns one entry for each scraper it is given, in the
order they are run, with the id of that scraper: when `Scrape` fails, the status
is `error` and the message is the text of the error, and the scrapers after it
are run and reported all the same; when it succeeds, the status is `success`,
the message is empty and `ShowtimesScraped` is the number of showtimes. -/
theorem runScrapers_outcomes (clock : Nat → Int) (d : DataDir) (ss : List scrapers.Scraper) :
    (runScrapers clock d ss).1.length = ss.length ∧
      List.Forall₂ (fun (s : scrapers.Scraper) (m : ScrapeMetadata) =>
        m.TheaterID = s.GetID ∧
        (∀ err, s.Scrape = .error err →
          m.Status = "error".toList ∧ m.ErrorMessage = err.toList) ∧
        (∀ sts, s.Scrape = .ok sts →
          m.Status = "success".toList ∧ m.ErrorMessage = [] ∧
            m.ShowtimesScraped = sts.length)) ss (runScrapers clock d ss).1 := by
  obtain ⟨new, h1, h2⟩ := runScrapersLoop_spec clock ss 0 [] d
  unfold runScrapers
  rw [h1, List.nil_append]
  exact ⟨h2.length_eq.symm, h2⟩

/-! ### Non-film events -/

theorem ToLower_ascii (U : CaseTable) (w : Str) (h : ∀ c ∈ w, c.toNat < 128) :
    ToLower U w = w.map Char.toLower := by
  unfold ToLower
  exact List.map_congr_left (fun c hc => U.lower_ascii c (h c hc))

/-- C26. `isNonMovieEvent` holds exactly when the lower-cased title or the
lower-cased raw title contains one of the six keywords; so it gives the same
result on arguments that are the same up to letter case (in particular on ASCII
texts that agree once their letters are put in lower case), and on the two
arguments swapped. -/
theorem isNonMovieEvent_iff (U : CaseTable) (title rawTitle : Str) :
    (clinton_street_theater.isNonMovieEvent U title rawTitle = true ↔
      ∃ keyword ∈ ["comedy night".toList, "live concert".toList, "drag show".toList,
          "stand up".toList, "standup".toList, "performance".toList],
        Contains (ToLower U title) keyword = true ∨
          Contains (ToLower U rawTitle) keyword = true) ∧
    (∀ title' rawTitle' : Str, ToLower U title' = ToLower U title →
      ToLower U rawTitle' = ToLower U rawTitle →
      clinton_street_theater.isNonMovieEvent U title' rawTitle'
        = clinton_street_theater.isNonMovieEvent U title rawTitle) ∧
    (∀ title' rawTitle' : Str,
      (∀ c ∈ title ++ rawTitle ++ title' ++ rawTitle', c.toNat < 128) →
      title'.map Char.toLower = title.map Char.toLower →
      rawTitle'.map Char.toLower = rawTitle.map Char.toLower →
      clinton_street_theater.isNonMovieEvent U title' rawTitle'
        = clinton_street_theater.isNonMovieEvent U title rawTitle) ∧
    clinton_street_theater.isNonMovieEvent U rawTitle title
      = clinton_street_theater.isNonMovieEvent U title rawTitle := by
  refine ⟨?_, fun t' r' h1 h2 => ?_, fun t' r' ha h1 h2 => ?_, ?_⟩
  · unfold clinton_street_theater.isNonMovieEvent clinton_street_theater.nonMovieKeywords
    rw [List.any_eq_true]
    simp only [Bool.or_eq_true]
  · unfold clinton_street_theater.isNonMovieEvent
    rw [h1, h2]
  · unfold clinton_street_theater.isNonMovieEvent
    have e1 : ToLower U t' = ToLower U title := by
      rw [ToLower_ascii U t' (fun c hc => ha c (by simp [hc])),
        ToLower_ascii U title (fun c hc => ha c (by simp [hc])), h1]
    have e2 : ToLower U r' = ToLower U rawTitle := by
      rw [ToLower_ascii U r' (fun c hc => ha c (by simp [hc])),
        ToLower_ascii U rawTitle (fun c hc => ha c (by simp [hc])), h2]
    rw [e1, e2]
  · unfold clinton_street_theater.isNonMovieEvent
    congr 1
    funext keyword
    exact Bool.or_comm _ _

/-! ### The content rating -/

theorem findUSRating_none (results : List ReleaseDatesResult) (rating : Str)
    (h : ∀ r ∈ results, r.ISO31661 ≠ "US".toList) : findUSRating results rating = rating := by
  induction results with
  | nil => rfl
  | cons r rest ih =>
    have hr := h r (List.mem_cons_self _ _)
    rw [findUSRating, if_neg (fun hc => hr hc.1)]
    exact ih (fun x hx => h x (List.mem_cons_of_mem _ hx))

theorem findUSRating_first (results : List ReleaseDatesResult) (rating : Str)
    (r : ReleaseDatesResult) (cert : Str) (rest : List Str)
    (hf : results.find? (fun x => decide (x.ISO31661 = "US".toList)) = some r)
    (hc : r.ReleaseDates = cert :: rest) : findUSRating results rating = cert := by
  induction results with
  | nil => simp at hf
  | cons x xs ih =>
    rw [findUSRating]
    by_cases hx : x.ISO31661 = "US".toList
    · rw [List.find?_cons_of_pos _ (by simpa using hx)] at hf
      cases hf
      rw [if_pos ⟨hx, by rw [hc]; simp⟩, hc]
      rfl
    · rw [List.find?_cons_of_neg _ (by simpa using hx)] at hf
      rw [if_neg (fun h => hx h.1)]
      exact ih hf

theorem rating_default (rating : Str) :
    (if rating.isEmpty then "NR".toList else rating) ≠ [] := by
  cases rating with
  | nil => simp
  | cons c cs => simp

/-- C28. After `enrichMovieDetails` of a movie that has no rating yet (as
`searchTMDB` builds it) and after `GetMovieDetails` on a cache miss, for every
decoded response: the rating is not empty; it is the first certification of the
first entry of region `US` when that certification is not empty; and it is `NR`
when no entry has region `US`. -/
theorem rating_after_details (details : MovieDetails) (movie : Movie) (env : Env) (c : Client)
    (tmdbID : Int) (hr : movie.Rating = [])
    (hmiss : c.cache.Get (env.clock c.ticks) ("id-".toList ++ fmtD tmdbID) = none) :
    ∀ m : Movie, (enrichMovieDetails movie (.ok details) = .ok m ∨
        (GetMovieDetails env c tmdbID (.ok details)).1 = .ok m) →
      m.Rating ≠ [] ∧
      (∀ (r : ReleaseDatesResult) (cert : Str) (rest : List Str),
        details.ReleaseDates.find? (fun x => decide (x.ISO31661 = "US".toList)) = some r →
        r.ReleaseDates = cert :: rest → cert ≠ [] → m.Rating = cert) ∧
      ((∀ r ∈ details.ReleaseDates, r.ISO31661 ≠ "US".toList) → m.Rating = "NR".toList) := by
  have key : ∀ m : Movie,
      m.Rating = (if (findUSRating details.ReleaseDates []).isEmpty then "NR".toList
        else findUSRating details.ReleaseDates []) →
      m.Rating ≠ [] ∧
      (∀ (r : ReleaseDatesResult) (cert : Str) (rest : List Str),
        details.ReleaseDates.find? (fun x => decide (x.ISO31661 = "US".toList)) = some r →
        r.ReleaseDates = cert :: rest → cert ≠ [] → m.Rating = cert) ∧
      ((∀ r ∈ details.ReleaseDates, r.ISO31661 ≠ "US".toList) → m.Rating = "NR".toList) := by
    intro m hm
    refine ⟨by rw [hm]; exact rating_default _, fun r cert rest hf hc hne => ?_, fun hno => ?_⟩
    · rw [hm, findUSRating_first _ _ r cert rest hf hc]
      cases cert with
      | nil => exact absurd rfl hne
      | cons a b => rfl
    · rw [hm, findUSRating_none _ _ hno]
      rfl
  intro m hm
  apply key
  rcases hm with hm | hm
  · unfold enrichMovieDetails at hm
    simp only [hr, Except.ok.injEq] at hm
    rw [← hm]
  · unfold GetMovieDetails at hm
    simp only [hmiss, Except.ok.injEq] at hm
    rw [← hm]

theorem rating_after_details_witness :
    ∃ m : Movie, enrichMovieDetails sampleBareMovie (.ok sampleDetails) = .ok m ∧
      m.Rating = "PG-13".toList :=
  ⟨_, rfl,
    (rating_after_details sampleDetails sampleBareMovie failingEnv (NewClient 3600) 438631
      rfl rfl _ (Or.inl rfl)).2.1
      ⟨"US".toList, ["PG-13".toList, []]⟩ "PG-13".toList [[]] (by decide) rfl (by decide)⟩

/-! ### The display step of the batch command -/

theorem MovieMap.get_set_self (m : MovieMap) (key : Str) (value : Option Movie) :
    (m.set key value).get key = some value := by
  induction m with
  | nil => simp [MovieMap.set, MovieMap.get]
  | cons p rest ih =>
    obtain ⟨k, v⟩ := p
    unfold MovieMap.set
    by_cases h : k = key
    · simp [h, MovieMap.get]
    · simp only [if_neg h, MovieMap.get, ih]

theorem MovieMap.get_set_of_ne (m : MovieMap) (key k' : Str) (value : Option Movie)
    (hne : k' ≠ key) : (m.set key value).get k' = m.get k' := by
  induction m with
  | nil => simp [MovieMap.set, MovieMap.get, Ne.symm hne]
  | cons p rest ih =>
    obtain ⟨k, v⟩ := p
    unfold MovieMap.set
    by_cases h : k = key
    · subst h
      simp [MovieMap.get, Ne.symm hne]
    · simp only [if_neg h, MovieMap.get, ih]

theorem EnrichShowtimes_single_fail (U : CaseTable) (env : Env) (c : Client) (st : Showtime)
    (e : String) (hget : c.cache.Get (env.clock c.ticks) st.MovieTitle = none)
    (herr : env.tmdb c.searched.length (normalizeTitle U st.MovieTitle) = .error e) :
    (EnrichShowtimes U env c [st]).1 =
      ([{ st with TMDBID := 0 }],
        [(st.MovieTitle, some (createPlaceholderMovie st.MovieTitle))]) := by
  unfold EnrichShowtimes
  rw [enrichLoop]
  simp only [MovieMap.get, SearchMovie_fails U env c st.MovieTitle e hget herr]
  rfl

/-- C29 fails on the code: when the lookup of a title fails, the movie stored
under it in the returned map is the placeholder, whose `ReleaseDate` is empty,
and the display step, slicing `ReleaseDate[:4]`, panics. -/
theorem displayShowtimes_placeholder_panics (U : CaseTable) (ttl : Int) (st : Showtime) :
    (EnrichShowtimes U failingEnv (NewClient ttl) [st]).1.2.get st.MovieTitle
        = some (some (createPlaceholderMovie st.MovieTitle)) ∧
      len (createPlaceholderMovie st.MovieTitle).ReleaseDate = 0 ∧
      displayShowtimes (EnrichShowtimes U failingEnv (NewClient ttl) [st]).1.2
          (EnrichShowtimes U failingEnv (NewClient ttl) [st]).1.1
        = .error "slice bounds out of range" := by
  rw [EnrichShowtimes_single_fail U failingEnv (NewClient ttl) st "no results found" rfl rfl]
  refine ⟨by simp [MovieMap.get], rfl, ?_⟩
  simp [displayShowtimes, MovieMap.get, createPlaceholderMovie, sliceTo]

/-! ### What enrichment leaves alone -/

theorem enrichLoop_frame (U : CaseTable) (env : Env) (showtimes : List Showtime) :
    ∀ (enriched : List Showtime) (movieCache : MovieMap) (c : Client),
      (∀ k v, movieCache.get k = some v → ∃ m, v = some m) →
      ∃ new : List Showtime,
        (enrichLoop U env showtimes enriched movieCache c).1.1 = enriched ++ new ∧
        (∀ k v, movieCache.get k = some v →
          (enrichLoop U env showtimes enriched movieCache c).1.2.get k = some v) ∧
        List.Forall₂ (fun (st st' : Showtime) =>
          st' = { st with TMDBID := st'.TMDBID } ∧
          ∃ m, (enrichLoop U env showtimes enriched movieCache c).1.2.get st.MovieTitle
              = some (some m) ∧ st'.TMDBID = m.TMDBID) showtimes new := by
  induction showtimes with
  | nil =>
    intro enriched movieCache c _
    exact ⟨[], by simp [enrichLoop], fun k v h => by simpa [enrichLoop] using h, List.Forall₂.nil⟩
  | cons st rest ih =>
    intro enriched movieCache c hval
    have step : ∀ (m : Movie) (map1 : MovieMap) (c1 : Client),
        (∀ k v, map1.get k = some v → ∃ m, v = some m) →
        (∀ k v, movieCache.get k = some v → map1.get k = some v) →
        map1.get st.MovieTitle = some (some m) →
        ∃ new : List Showtime,
          (enrichLoop U env rest (enriched ++ [{ st with TMDBID := m.TMDBID }]) map1 c1).1.1
            = enriched ++ new ∧
          (∀ k v, movieCache.get k = some v →
            (enrichLoop U env rest (enriched ++ [{ st with TMDBID := m.TMDBID }]) map1 c1).1.2.get
              k = some v) ∧
          List.Forall₂ (fun (s s' : Showtime) =>
            s' = { s with TMDBID := s'.TMDBID } ∧
            ∃ m', (enrichLoop U env rest (enriched ++ [{ st with TMDBID := m.TMDBID }]) map1
                c1).1.2.get s.MovieTitle = some (some m') ∧ s'.TMDBID = m'.TMDBID)
            (st :: rest) new := by
      intro m map1 c1 hv1 hext hm
      obtain ⟨new, h1, h2, h3⟩ := ih (enriched ++ [{ st with TMDBID := m.TMDBID }]) map1 c1 hv1
      refine ⟨{ st with TMDBID := m.TMDBID } :: new, ?_, fun k v h => h2 k v (hext k v h),
        List.Forall₂.cons ⟨rfl, m, h2 _ _ hm, rfl⟩ h3⟩
      rw [h1, List.append_assoc]
      rfl
    rw [enrichLoop]
    split
    · rename_i movie hget
      obtain ⟨m, rfl⟩ := hval _ _ hget
      exact step m movieCache c hval (fun k v h => h) hget
    · rename_i hget
      have hset : ∀ (v : Movie),
          (∀ k w, (MovieMap.set movieCache st.MovieTitle (some v)).get k = some w →
            ∃ m, w = some m) ∧
          (∀ k w, movieCache.get k = some w →
            (MovieMap.set movieCache st.MovieTitle (some v)).get k = some w) := by
        intro v
        constructor
        · intro k w hk
          by_cases hkt : k = st.MovieTitle
          · subst hkt
            rw [MovieMap.get_set_self] at hk
            cases hk
            exact ⟨v, rfl⟩
          · rw [MovieMap.get_set_of_ne _ _ _ _ hkt] at hk
            exact hval k w hk
        · intro k w hk
          by_cases hkt : k = st.MovieTitle
          · subst hkt
            rw [hget] at hk
            cases hk
          · rw [MovieMap.get_set_of_ne _ _ _ _ hkt]
            exact hk
      split
      · rename_i e c1 heq
        exact step (createPlaceholderMovie st.MovieTitle) _ c1
          (hset _).1 (hset _).2 (MovieMap.get_set_self _ _ _)
      · rename_i movie c1 heq
        exact step movie _ c1 (hset _).1 (hset _).2 (MovieMap.get_set_self _ _ _)

/-- C30. `EnrichShowtimes` returns as many showtimes as it is given, in the same
order; each equals the showtime it comes from in every field other than
`TMDBID`, and its `TMDBID` is the one of the movie stored under its title in the
returned map, which is 0 when that movie is the placeholder. -/
theorem EnrichShowtimes_frame (U : CaseTable) (env : Env) (c : Client) (sts : List Showtime) :
    (EnrichShowtimes U env c sts).1.1.length = sts.length ∧
      List.Forall₂ (fun (st st' : Showtime) =>
        st' = { st with TMDBID := st'.TMDBID } ∧
        ∃ m, (EnrichShowtimes U env c sts).1.2.get st.MovieTitle = some (some m) ∧
          st'.TMDBID = m.TMDBID ∧
          (m = createPlaceholderMovie st.MovieTitle → st'.TMDBID = 0))
        sts (EnrichShowtimes U env c sts).1.1 := by
  obtain ⟨new, h1, -, h3⟩ := enrichLoop_frame U env sts [] [] c
    (fun k v h => by simp [MovieMap.get] at h)
  unfold EnrichShowtimes
  rw [h1, List.nil_append]
  refine ⟨h3.length_eq.symm, h3.imp ?_⟩
  rintro st st' ⟨ha, m, hb, hc⟩
  exact ⟨ha, m, hb, hc, fun hm => by rw [hc, hm]; rfl⟩

/-! ### Clock readings of the Clinton Street listing -/

/-- C23 fails on the code: the marker is recognised in any letter case and
without a blank before it, and removed only as ` PM`, ` AM`, ` pm`, ` am`: the
reading `7:00 PM` gives `19:00`, while `7:00PM` gives `19:00PM`, `7:00pm` gives
`19:00pm` and `7:00 Pm` gives `19:00 Pm`. -/
theorem parseTime_keeps_marker :
    clinton_street_theater.parseTime asciiUpper "7:00 PM".toList = "19:00".toList ∧
      clinton_street_theater.parseTime asciiUpper "7:00PM".toList = "19:00PM".toList ∧
      clinton_street_theater.parseTime asciiUpper "7:00pm".toList = "19:00pm".toList ∧
      clinton_street_theater.parseTime asciiUpper "7:00 Pm".toList = "19:00 Pm".toList ∧
      clinton_street_theater.parseTime asciiUpper "12:05am".toList = "00:05am".toList := by
  decide

/-! ### The identity of a Clinton Street showtime -/

theorem removeAll_not_mem (s : Str) (c : Char) : c ∉ removeAll s c := by
  simp [removeAll]

theorem removeAll_mem (s : Str) (c d : Char) (h : d ∈ s) (hne : d ≠ c) : d ∈ removeAll s c := by
  simp [removeAll, h, hne]

/-- C25 (amended). The id of a showtime built by the Clinton Street scraper, in
the list view and in the calendar view, is the theater id, a hyphen, the
sanitized title, a hyphen, and the date followed by the time with every `:`
removed: it has no `:`, and the hyphens of the date are kept. -/
theorem clinton_showtime_id (s : clinton_street_theater.Scraper) (U : CaseTable)
    (V : UpperTable) (parseFloat : Str → Option Nat) (clock : time.Clock)
    (e : clinton_street_theater.ListEvent) (ce : clinton_street_theater.CalendarEvent)
    (st : Showtime)
    (h : clinton_street_theater.extractShowtime s U V parseFloat clock e = .ok (some st) ∨
      clinton_street_theater.extractCalendarShowtime s U ce = .ok (some st)) :
    st.ID = s.theater.ID ++ ['-'] ++ clinton_street_theater.sanitizeForID U st.MovieTitle ++
        ['-'] ++ removeAll (st.Date ++ st.Time) ':' ∧
      ':' ∉ removeAll (st.Date ++ st.Time) ':' ∧
      (∀ c ∈ st.Date, c ≠ ':' → c ∈ removeAll (st.Date ++ st.Time) ':') := by
  refine ⟨?_, removeAll_not_mem _ _,
    fun c hc hne => removeAll_mem _ _ _ (List.mem_append_left _ hc) hne⟩
  rcases h with h | h
  · unfold clinton_street_theater.extractShowtime at h
    dsimp only at h
    repeat' split at h
    all_goals (cases h <;> rfl)
  · unfold clinton_street_theater.extractCalendarShowtime at h
    dsimp only at h
    repeat' split at h
    all_goals (cases h <;> rfl)

theorem clinton_showtime_id_witness :
    clinton_street_theater.extractCalendarShowtime clinton_street_theater.NewScraper asciiCase
        sampleCalendarEvent = .ok (some sampleCalendarShowtime) ∧
      sampleCalendarShowtime.ID = "clinton-street-theater".toList ++ ['-'] ++
        clinton_street_theater.sanitizeForID asciiCase sampleCalendarShowtime.MovieTitle ++
        ['-'] ++ removeAll (sampleCalendarShowtime.Date ++ sampleCalendarShowtime.Time) ':' :=
  ⟨rfl,
    (clinton_showtime_id clinton_street_theater.NewScraper asciiCase asciiUpper (fun _ => none)
      ⟨2026, 2, 1, by decide⟩ sampleListEvent sampleCalendarEvent sampleCalendarShowtime
      (Or.inr rfl)).1⟩

/-- C25 as stated fails: for the date `2026-02-11` and the time `19:00`, in
both views, the part of the id after the title is `2026-02-111900`, with the
hyphens of the date, not `202602111900`. -/
theorem clinton_showtime_id_hyphens :
    (clinton_street_theater.extractCalendarShowtime clinton_street_theater.NewScraper asciiCase
        sampleCalendarEvent).toOption.bind (fun o => o.map (fun st => (st.Date, st.Time, st.ID)))
      = some ("2026-02-11".toList, "19:00".toList,
          "clinton-street-theater-eraserhead-2026-02-111900".toList) ∧
    (clinton_street_theater.extractShowtime clinton_street_theater.NewScraper asciiCase asciiUpper
        (fun _ => none) ⟨2026, 2, 1, by decide⟩
        sampleListEvent).toOption.bind (fun o => o.map (fun st => (st.Date, st.Time, st.ID)))
      = some ("2026-02-11".toList, "19:00".toList,
          "clinton-street-theater-eraserhead-2026-02-111900".toList) := by
  constructor <;> decide

/-! ### The sanitized title of an id -/

theorem TrimRight_cons_ne (c cut : Char) (x : Str) (h : c ≠ cut) : TrimRight (c :: x) cut ≠ [] := by
  rw [TrimRight]
  split
  · simp [h]
  · simp

theorem TrimRight_append_of_ne (a b : Str) (cut : Char) (h : TrimRight b cut ≠ []) :
    TrimRight (a ++ b) cut = a ++ TrimRight b cut := by
  induction a with
  | nil => rfl
  | cons c a ih =>
    rw [List.cons_append, TrimRight, ih]
    cases hb : TrimRight b cut with
    | nil => exact absurd hb h
    | cons r rs =>
      cases a with
      | nil => rfl
      | cons d a' => rfl

theorem TrimRight_append_of_nil (a b : Str) (cut : Char) (h : TrimRight b cut = []) :
    TrimRight (a ++ b) cut = TrimRight a cut := by
  induction a with
  | nil => simpa using h
  | cons c a ih =>
    rw [List.cons_append, TrimRight, ih, TrimRight]

theorem TrimRight_word (w : Str) (cut : Char) (h : ∀ c ∈ w, c ≠ cut) : TrimRight w cut = w := by
  induction w with
  | nil => rfl
  | cons c w ih =>
    have hc : c ≠ cut := h c (List.mem_cons_self _ _)
    have hw := ih (fun d hd => h d (List.mem_cons_of_mem _ hd))
    rw [TrimRight, hw]
    cases w with
    | nil => simp [hc]
    | cons d w' => rfl

theorem isIDChar_ne_hyphen (c : Char) (h : clinton_street_theater.isIDChar c = true) : c ≠ '-' := by
  intro hc
  subst hc
  revert h
  decide

theorem fieldsLoop_ne_nil (f : Char → Bool) (l cur : Str) (h : cur ≠ []) :
    fieldsLoop f l cur ≠ [] := by
  induction l generalizing cur with
  | nil =>
    cases cur with
    | nil => exact absurd rfl h
    | cons c cs => simp [fieldsLoop]
  | cons c cs ih =>
    rw [fieldsLoop]
    split
    · cases cur with
      | nil => exact absurd rfl h
      | cons d ds => simp
    · exact ih _ (by simp)

theorem Join_cons_of_ne (a sep : Str) (ws : List Str) (h : ws ≠ []) :
    Join (a :: ws) sep = a ++ sep ++ Join ws sep := by
  cases ws with
  | nil => exact absurd rfl h
  | cons b rest => rfl

theorem replaceRuns_fields (l : Str) :
    ∀ cur : Str, cur ≠ [] → (∀ c ∈ cur, clinton_street_theater.isIDChar c = true) →
      TrimRight (cur ++ clinton_street_theater.replaceRuns l false) '-'
          = Join (fieldsLoop (fun c => !clinton_street_theater.isIDChar c) l cur) ['-'] ∧
        TrimRight (cur ++ '-' :: clinton_street_theater.replaceRuns l true) '-'
          = Join (cur :: fieldsLoop (fun c => !clinton_street_theater.isIDChar c) l []) ['-'] := by
  induction l with
  | nil =>
    intro cur hne hid
    have hw : ∀ c ∈ cur, c ≠ '-' := fun c hc => isIDChar_ne_hyphen c (hid c hc)
    constructor
    · cases cur with
      | nil => exact absurd rfl hne
      | cons d ds =>
        simp only [clinton_street_theater.replaceRuns, List.append_nil, fieldsLoop,
          List.isEmpty_cons, Bool.false_eq_true, if_false, Join]
        exact TrimRight_word _ _ hw
    · simp only [clinton_street_theater.replaceRuns, fieldsLoop, List.isEmpty_nil, if_true, Join]
      rw [TrimRight_append_of_nil _ _ _ (by decide)]
      exact TrimRight_word _ _ hw
  | cons c cs ih =>
    intro cur hne hid
    by_cases hc : clinton_street_theater.isIDChar c = true
    · have hcur1 : ∀ d ∈ cur ++ [c], clinton_street_theater.isIDChar d = true := by
        intro d hd
        rcases List.mem_append.1 hd with h | h
        · exact hid d h
        · rw [List.mem_singleton] at h; rw [h]; exact hc
      have hone : ∀ d ∈ [c], clinton_street_theater.isIDChar d = true := by
        intro d hd
        rw [List.mem_singleton] at hd; rw [hd]; exact hc
      constructor
      · have := (ih (cur ++ [c]) (by simp) hcur1).1
        simp only [List.append_assoc, List.singleton_append] at this
        simp only [clinton_street_theater.replaceRuns, hc, if_true, fieldsLoop, Bool.not_true,
          Bool.false_eq_true, if_false]
        exact this
      · have h1 := (ih [c] (by simp) hone).1
        simp only [List.singleton_append] at h1
        simp only [clinton_street_theater.replaceRuns, hc, if_true, fieldsLoop, Bool.not_true,
          Bool.false_eq_true, if_false, List.nil_append]
        rw [Join_cons_of_ne _ _ _ (fieldsLoop_ne_nil _ _ _ (by simp)), ← h1]
        have hne' : TrimRight (c :: clinton_street_theater.replaceRuns cs false) '-' ≠ [] :=
          TrimRight_cons_ne _ _ _ (isIDChar_ne_hyphen c hc)
        have := TrimRight_append_of_ne (cur ++ ['-'])
          (c :: clinton_street_theater.replaceRuns cs false) '-' hne'
        simpa only [List.append_assoc, List.singleton_append] using this
    · have hc' : clinton_street_theater.isIDChar c = false := by simpa using hc
      have hcur : cur.isEmpty = false := by
        cases cur with
        | nil => exact absurd rfl hne
        | cons d ds => rfl
      constructor
      · simp only [clinton_street_theater.replaceRuns, hc', Bool.false_eq_true, if_false,
          fieldsLoop, Bool.not_false, if_true, hcur]
        exact (ih cur hne hid).2
      · simp only [clinton_street_theater.replaceRuns, hc', Bool.false_eq_true, if_false,
          fieldsLoop, Bool.not_false, if_true, List.isEmpty_nil]
        exact (ih cur hne hid).2

theorem sanitize_fields (l : Str) :
    Trim (clinton_street_theater.replaceRuns l false) '-'
        = Join (fieldsLoop (fun c => !clinton_street_theater.isIDChar c) l []) ['-'] ∧
      Trim (clinton_street_theater.replaceRuns l true) '-'
        = Join (fieldsLoop (fun c => !clinton_street_theater.isIDChar c) l []) ['-'] := by
  induction l with
  | nil => exact ⟨rfl, rfl⟩
  | cons c cs ih =>
    by_cases hc : clinton_street_theater.isIDChar c = true
    · have hone : ∀ d ∈ [c], clinton_street_theater.isIDChar d = true := by
        intro d hd
        rw [List.mem_singleton] at hd; rw [hd]; exact hc
      have h1 := (replaceRuns_fields cs [c] (by simp) hone).1
      simp only [List.singleton_append] at h1
      have hne : (c == '-') = false := by
        simpa using isIDChar_ne_hyphen c hc
      have : Trim (c :: clinton_street_theater.replaceRuns cs false) '-'
          = Join (fieldsLoop (fun c => !clinton_street_theater.isIDChar c) (c :: cs) []) ['-'] := by
        simp only [Trim, TrimLeft, List.dropWhile_cons, hne, Bool.false_eq_true, if_false,
          fieldsLoop, hc, Bool.not_true, List.nil_append]
        exact h1
      constructor
      · simpa only [clinton_street_theater.replaceRuns, hc, if_true] using this
      · simpa only [clinton_street_theater.replaceRuns, hc, if_true] using this
    · have hc' : clinton_street_theater.isIDChar c = false := by simpa using hc
      constructor
      · simp only [clinton_street_theater.replaceRuns, hc', Bool.false_eq_true, if_false,
          fieldsLoop, Bool.not_false, if_true, List.isEmpty_nil]
        have := ih.2
        simpa only [Trim, TrimLeft, List.dropWhile_cons, beq_self_eq_true, if_true] using this
      · simp only [clinton_street_theater.replaceRuns, hc', Bool.false_eq_true, if_false,
          fieldsLoop, Bool.not_false, if_true, List.isEmpty_nil]
        exact ih.2

theorem fieldsLoop_words (f : Char → Bool) (l : Str) :
    ∀ cur : Str, (∀ c ∈ cur, f c = false) →
      ∀ w ∈ fieldsLoop f l cur, w ≠ [] ∧ ∀ c ∈ w, f c = false := by
  induction l with
  | nil =>
    intro cur hcur w hw
    cases cur with
    | nil => simp [fieldsLoop] at hw
    | cons d ds =>
      simp only [fieldsLoop, List.isEmpty_cons, Bool.false_eq_true, if_false,
        List.mem_singleton] at hw
      subst hw
      exact ⟨by simp, hcur⟩
  | cons c cs ih =>
    intro cur hcur w hw
    rw [fieldsLoop] at hw
    by_cases hc : f c = true
    · simp only [hc, if_true] at hw
      cases cur with
      | nil =>
        simp only [List.isEmpty_nil, if_true] at hw
        exact ih [] (by simp) w hw
      | cons d ds =>
        simp only [List.isEmpty_cons, Bool.false_eq_true, if_false, List.mem_cons] at hw
        rcases hw with rfl | hw
        · exact ⟨by simp, hcur⟩
        · exact ih [] (by simp) w hw
    · simp only [hc, if_false] at hw
      refine ih (cur ++ [c]) ?_ w hw
      intro d hd
      rcases List.mem_append.1 hd with h | h
      · exact hcur d h
      · rw [List.mem_singleton] at h; rw [h]; simpa using hc

/-- A text made of words without hyphen, joined by single hyphens. -/
theorem Join_hyphen (ws : List Str) (hw : ∀ w ∈ ws, w ≠ [] ∧ ∀ c ∈ w, c ≠ '-') :
    (∀ c ∈ Join ws ['-'], c = '-' ∨ ∃ w ∈ ws, c ∈ w) ∧
      (Join ws ['-']).head? ≠ some '-' ∧
      (Join ws ['-']).getLast? ≠ some '-' ∧
      (Join ws ['-']).Chain' (fun a b => ¬ (a = '-' ∧ b = '-')) := by
  induction ws with
  | nil => simp [Join]
  | cons a rest ih =>
    have ha := hw a (List.mem_cons_self _ _)
    have hrest : ∀ w ∈ rest, w ≠ [] ∧ ∀ c ∈ w, c ≠ '-' :=
      fun w h => hw w (List.mem_cons_of_mem _ h)
    have hachain : List.Chain' (fun a b => ¬ (a = '-' ∧ b = '-')) a := by
      have : ∀ (l : Str), (∀ c ∈ l, c ≠ '-') →
          List.Chain' (fun a b => ¬ (a = '-' ∧ b = '-')) l := by
        intro l
        induction l with
        | nil => intro _; exact List.chain'_nil
        | cons x xs ihx =>
          intro hl
          refine List.Chain'.cons' (ihx (fun c hc => hl c (List.mem_cons_of_mem _ hc))) ?_
          intro y _ hxy
          exact hl x (List.mem_cons_self _ _) hxy.1
      exact this a ha.2
    have hahead : a.head? ≠ some '-' := by
      intro h
      exact ha.2 '-' (List.mem_of_mem_head? h) rfl
    have halast : a.getLast? ≠ some '-' := by
      intro h
      exact ha.2 '-' (List.mem_of_mem_getLast? h) rfl
    cases rest with
    | nil =>
      refine ⟨fun c hc => Or.inr ⟨a, List.mem_singleton_self _, hc⟩, hahead, halast, hachain⟩
    | cons b rest' =>
      obtain ⟨i1, i2, i3, i4⟩ := ih hrest
      rw [Join_cons_of_ne a ['-'] (b :: rest') (by simp)]
      obtain ⟨a0, a', rfl⟩ := List.exists_cons_of_ne_nil ha.1
      have hJne : Join (b :: rest') ['-'] ≠ [] := by
        have hb := hw b (by simp)
        obtain ⟨b0, b', rfl⟩ := List.exists_cons_of_ne_nil hb.1
        cases rest' with
        | nil => simp [Join]
        | cons x xs => simp [Join]
      refine ⟨?_, ?_, ?_, ?_⟩
      · intro c hc
        rcases List.mem_append.1 hc with h | h
        · rcases List.mem_append.1 h with h | h
          · exact Or.inr ⟨_, List.mem_cons_self _ _, h⟩
          · exact Or.inl (List.mem_singleton.1 h)
        · rcases i1 c h with h | ⟨w, hw1, hw2⟩
          · exact Or.inl h
          · exact Or.inr ⟨w, List.mem_cons_of_mem _ hw1, hw2⟩
      · simpa using hahead
      · rw [List.getLast?_append_of_ne_nil _ hJne]
        exact i3
      · refine List.Chain'.append (List.Chain'.append hachain (List.chain'_singleton _) ?_) i4 ?_
        · intro x hx y hy
          intro hxy
          exact halast (by rw [Option.mem_def] at hx; rw [hx, hxy.1])
        · intro x hx y hy hxy
          apply i2
          rw [Option.mem_def] at hy
          rw [hy, hxy.2]

/-- C24. `sanitizeForID` returns the alphanumeric words of the lower-cased
title, that is its maximal runs of runes of `[a-z0-9]`, joined by single
hyphens: every maximal run of other runes has become one hyphen, and none is
left at either end. So the result has only runes of `[a-z0-9-]`, neither starts
nor ends with a hyphen, and has no two hyphens in a row. -/
theorem sanitizeForID_spec (U : CaseTable) (title : Str) :
    clinton_street_theater.sanitizeForID U title
        = Join (FieldsFunc (ToLower U title) (fun c => !clinton_street_theater.isIDChar c)) ['-'] ∧
      (∀ c ∈ clinton_street_theater.sanitizeForID U title,
        c = '-' ∨ clinton_street_theater.isIDChar c = true) ∧
      (clinton_street_theater.sanitizeForID U title).head? ≠ some '-' ∧
      (clinton_street_theater.sanitizeForID U title).getLast? ≠ some '-' ∧
      ¬ ['-', '-'] <:+: clinton_street_theater.sanitizeForID U title := by
  have heq : clinton_street_theater.sanitizeForID U title
      = Join (FieldsFunc (ToLower U title) (fun c => !clinton_street_theater.isIDChar c)) ['-'] :=
    (sanitize_fields (ToLower U title)).1
  have hwords := fieldsLoop_words (fun c => !clinton_street_theater.isIDChar c) (ToLower U title)
    [] (by simp)
  have hw : ∀ w ∈ FieldsFunc (ToLower U title) (fun c => !clinton_street_theater.isIDChar c),
      w ≠ [] ∧ ∀ c ∈ w, c ≠ '-' := by
    intro w hwm
    obtain ⟨h1, h2⟩ := hwords w hwm
    exact ⟨h1, fun c hc => isIDChar_ne_hyphen c (by simpa using h2 c hc)⟩
  obtain ⟨j1, j2, j3, j4⟩ := Join_hyphen _ hw
  rw [heq]
  refine ⟨rfl, ?_, j2, j3, ?_⟩
  · intro c hc
    rcases j1 c hc with h | ⟨w, hwm, hcw⟩
    · exact Or.inl h
    · exact Or.inr (by simpa using (hwords w hwm).2 c hcw)
  · intro hinf
    have := j4.infix hinf
    simp at this

/-! ### Presenter and guest of a Clinton Street title -/

theorem HasPrefix_append_char (q r sub : Str) (x : Char) (hx : x ∉ sub)
    (h : HasPrefix (q ++ x :: r) sub = true) : HasPrefix q sub = true := by
  induction q generalizing sub with
  | nil =>
    cases sub with
    | nil => rfl
    | cons s ss =>
      simp only [List.nil_append, HasPrefix, Bool.and_eq_true, beq_iff_eq] at h
      exact absurd (h.1 ▸ List.mem_cons_self _ _) hx
  | cons c q ih =>
    cases sub with
    | nil => rfl
    | cons s ss =>
      simp only [List.cons_append, HasPrefix, Bool.and_eq_true, beq_iff_eq] at h ⊢
      exact ⟨h.1, ih ss (fun hm => hx (List.mem_cons_of_mem _ hm)) h.2⟩

theorem Contains_cons (c : Char) (cs sub : Str) :
    Contains (c :: cs) sub = (HasPrefix (c :: cs) sub || Contains cs sub) := by
  unfold Contains
  rw [Index]
  by_cases h : HasPrefix (c :: cs) sub = true
  · simp [h]
  · simp [h]

theorem Contains_of_HasPrefix (s sub : Str) (h : HasPrefix s sub = true) :
    Contains s sub = true := by
  cases s with
  | nil =>
    cases sub with
    | nil => rfl
    | cons a b => simp [HasPrefix] at h
  | cons c cs => rw [Contains_cons, h]; rfl

theorem not_Contains_append_char (a b sub : Str) (x : Char) (hx : x ∉ sub)
    (ha : Contains a sub = false) (hb : Contains b sub = false) :
    Contains (a ++ x :: b) sub = false := by
  induction a with
  | nil =>
    rw [List.nil_append, Contains_cons, hb, Bool.or_false]
    cases h : HasPrefix (x :: b) sub with
    | false => rfl
    | true =>
      have := HasPrefix_append_char [] b sub x hx h
      rw [Contains_of_HasPrefix [] sub this] at ha
      cases ha
  | cons c a ih =>
    rw [Contains_cons] at ha
    have ha1 : HasPrefix (c :: a) sub = false := by
      cases h : HasPrefix (c :: a) sub with
      | false => rfl
      | true => rw [h] at ha; cases ha
    have ha2 : Contains a sub = false := by
      cases h : Contains a sub with
      | false => rfl
      | true => rw [h, Bool.or_true] at ha; cases ha
    rw [List.cons_append, Contains_cons, ih ha2, Bool.or_false]
    cases h : HasPrefix (c :: (a ++ x :: b)) sub with
    | false => rfl
    | true =>
      have := HasPrefix_append_char (c :: a) b sub x hx h
      rw [this] at ha1
      cases ha1

theorem Index_first (a sub rest : Str)
    (h : ∀ i < a.length, HasPrefix (a.drop i ++ sub ++ rest) sub = false) :
    Index (a ++ sub ++ rest) sub = some a.length := by
  induction a with
  | nil =>
    have hp : HasPrefix (sub ++ rest) sub = true :=
      (HasPrefix_iff _ _).2 (List.prefix_append _ _)
    simp only [List.nil_append, List.length_nil]
    generalize sub ++ rest = x at hp
    cases x with
    | nil =>
      cases sub with
      | nil => simp [Index]
      | cons a b => simp [HasPrefix] at hp
    | cons c cs => simp [Index, hp]
  | cons c a ih =>
    have h0 := h 0 (by simp)
    simp only [List.drop_zero] at h0
    have hrest : ∀ i < a.length, HasPrefix (a.drop i ++ sub ++ rest) sub = false := by
      intro i hi
      have := h (i + 1) (by simpa using hi)
      simpa using this
    simp only [List.cons_append] at h0 ⊢
    rw [Index, h0, ih hrest]
    rfl

theorem Split_once (a sub rest : Str) (hsub : sub ≠ [])
    (h1 : Index (a ++ sub ++ rest) sub = some a.length) (h2 : Index rest sub = none) :
    Split (a ++ sub ++ rest) sub = [a, rest] := by
  have hfuel : (a ++ sub ++ rest).length = (a.length + sub.length + rest.length - 1) + 1 := by
    have : 0 < sub.length := List.length_pos.2 hsub
    simp only [List.length_append]
    omega
  have hne : sub.isEmpty = false := by
    cases sub with
    | nil => exact absurd rfl hsub
    | cons c cs => rfl
  unfold Split
  rw [hne, hfuel]
  simp only [Bool.false_eq_true, if_false, splitLoop, h1]
  have ht : (a ++ sub ++ rest).take a.length = a := by
    rw [List.append_assoc, List.take_left]
  have hd : (a ++ sub ++ rest).drop (a.length + sub.length) = rest := by
    rw [← List.length_append, List.drop_left]
  rw [ht, hd, splitLoop_none _ _ _ h2]

theorem TrimSpace_cons_space (c : Char) (s : Str) (h : isSpace c = true) :
    TrimSpace (c :: s) = TrimSpace s := by
  simp [TrimSpace, List.dropWhile_cons, h]

theorem toLower_lt_128 (d : Char) (h : d.toNat < 128) : d.toLower.toNat < 128 := by
  have key : ∀ n : Fin 128, (Char.ofNat n.val).toLower.toNat < 128 := by decide
  have := key ⟨d.toNat, h⟩
  simpa only [Char.ofNat_toNat] using this

theorem len_ascii (b : Str) (h : ∀ c ∈ b, c.toNat < 128) : len b = b.length := by
  induction b with
  | nil => rfl
  | cons c cs ih =>
    have hc : c.toNat < 128 := h c (List.mem_cons_self _ _)
    rw [len_cons, ih (fun d hd => h d (List.mem_cons_of_mem _ hd))]
    have : (runeBytes c).length = 1 := by simp [runeBytes, hc]
    rw [this, List.length_cons]
    omega

theorem sliceTo_ascii (b r : Str) (h : ∀ c ∈ b, c.toNat < 128) :
    sliceTo (b ++ r) b.length = .ok b := by
  induction b with
  | nil => cases r <;> rfl
  | cons c cs ih =>
    have hc : c.toNat < 128 := h c (List.mem_cons_self _ _)
    have h1 : (runeBytes c).length = 1 := by simp [runeBytes, hc]
    rw [List.cons_append, List.length_cons, sliceTo, h1]
    simp only [Nat.add_sub_cancel, ih (fun d hd => h d (List.mem_cons_of_mem _ hd))]
    simp

theorem yearSpanMatch_none (s : Str) (h : '(' ∉ s) :
    clinton_street_theater.yearSpanMatch s = none := by
  unfold clinton_street_theater.yearSpanMatch
  cases hm : yearPatternMatch s with
  | none => rfl
  | some k =>
    exact absurd (hasYearGroup_mem s (yearPatternMatch_hasYearGroup s k hm)) h

theorem removeYearSpans_id (s : Str) (h : '(' ∉ s) :
    clinton_street_theater.removeYearSpans s 0 = s := by
  induction s with
  | nil => rfl
  | cons c cs ih =>
    rw [clinton_street_theater.removeYearSpans, yearSpanMatch_none _ h]
    simp only
    rw [ih (fun hm => h (List.mem_cons_of_mem _ hm))]

theorem tagPatternMatch_false (s : Str) (h : '(' ∉ s) :
    clinton_street_theater.tagPatternMatch s = false := by
  unfold clinton_street_theater.tagPatternMatch
  split
  · rename_i rest heq
    have : '(' ∈ s.dropWhile reSpace := by rw [heq]; exact List.mem_cons_self _ _
    exact absurd ((List.dropWhile_suffix _).subset this) h
  · rfl

theorem removeTag_id (s : Str) (h : '(' ∉ s) : clinton_street_theater.removeTag s = s := by
  induction s with
  | nil => rfl
  | cons c cs ih =>
    rw [clinton_street_theater.removeTag, tagPatternMatch_false _ h]
    simp only [Bool.false_eq_true, if_false]
    rw [ih (fun hm => h (List.mem_cons_of_mem _ hm))]

theorem Contains_map_toLower (b sub : Str) (hsub : sub.map Char.toLower = sub)
    (h : Contains (b.map Char.toLower) sub = false) : Contains b sub = false := by
  cases hc : Contains b sub with
  | false => rfl
  | true =>
    have hin := (Contains_iff _ _).1 hc
    obtain ⟨u, v, huv⟩ := hin
    have : sub <:+: b.map Char.toLower := by
      refine ⟨u.map Char.toLower, v.map Char.toLower, ?_⟩
      rw [← huv]
      simp [hsub]
    rw [(Contains_iff _ _).2 this] at h
    cases h

theorem with_first (lb lg : Str) (hw : Contains lb "with".toList = false) :
    ∀ i < lb.length,
      HasPrefix (lb.drop i ++ " with ".toList ++ lg) " with ".toList = false := by
  intro i hi
  cases hp : HasPrefix (lb.drop i ++ " with ".toList ++ lg) " with ".toList with
  | false => rfl
  | true =>
    exfalso
    have hsuf : lb.drop i <:+ lb := List.drop_suffix _ _
    have hne : lb.drop i ≠ [] := by
      intro h
      have := congrArg List.length h
      simp at this
      omega
    rcases hq : lb.drop i with _ | ⟨c0, _ | ⟨c1, _ | ⟨c2, _ | ⟨c3, _ | ⟨c4, q5⟩⟩⟩⟩⟩
    · exact hne hq
    all_goals (rw [hq] at hp hsuf)
    · simp [HasPrefix] at hp
    · simp [HasPrefix] at hp
    · simp [HasPrefix] at hp
    · simp [HasPrefix] at hp
    · simp only [String.toList, List.cons_append, HasPrefix, Bool.and_eq_true,
        beq_iff_eq] at hp
      obtain ⟨-, h1, h2, h3, h4, -⟩ := hp
      subst h1 h2 h3 h4
      have hin : "with".toList <:+: lb :=
        List.IsInfix.trans ⟨[c0], q5, rfl⟩ hsuf.isInfix
      rw [(Contains_iff _ _).2 hin] at hw
      cases hw

theorem presents_first (p rest : Str) (hp : Contains p "presents:".toList = false) :
    ∀ i < (p ++ [' ']).length,
      HasPrefix ((p ++ [' ']).drop i ++ "presents:".toList ++ rest) "presents:".toList
        = false := by
  intro i hi
  cases h : HasPrefix ((p ++ [' ']).drop i ++ "presents:".toList ++ rest)
      "presents:".toList with
  | false => rfl
  | true =>
    exfalso
    have hi' : i ≤ p.length := by
      simp at hi
      omega
    have hd : (p ++ [' ']).drop i = p.drop i ++ [' '] := List.drop_append_of_le_length hi'
    rw [hd] at h
    have h' : HasPrefix (p.drop i ++ ' ' :: ("presents:".toList ++ rest)) "presents:".toList
        = true := by
      simpa only [List.append_assoc, List.singleton_append] using h
    have := HasPrefix_append_char _ _ _ ' ' (by decide) h'
    have hin : "presents:".toList <:+: p :=
      List.IsInfix.trans ((HasPrefix_iff _ _).1 this).isInfix (List.drop_suffix _ _).isInfix
    rw [(Contains_iff _ _).2 hin] at hp
    cases hp

/-- C27. For an ASCII film title `b` that is not empty, is trimmed and has no
parenthesis, no `presents:` and no `with` in any letter case, a presenter `p`
and a trimmed, non-empty guest `g`, neither containing `presents:`,
`cleanMovieTitle` of `p presents: b with g` is `b`. -/
theorem cleanMovieTitle_presenter_guest (U : CaseTable) (p b g : Str)
    (hascii : ∀ c ∈ b, c.toNat < 128) (hbne : b ≠ []) (hbtrim : TrimSpace b = b)
    (hopen : '(' ∉ b) (hclose : ')' ∉ b)
    (hbpres : containsAnyCase b "presents:".toList = false)
    (hbwith : containsAnyCase b "with".toList = false)
    (hp : Contains p "presents:".toList = false)
    (hgne : g ≠ []) (hgtrim : TrimSpace g = g)
    (hg : Contains g "presents:".toList = false) :
    clinton_street_theater.cleanMovieTitle U
        (p ++ " presents: ".toList ++ b ++ " with ".toList ++ g) = .ok b := by
  -- the title, split at `presents:`
  have hT : p ++ " presents: ".toList ++ b ++ " with ".toList ++ g
      = (p ++ [' ']) ++ "presents:".toList ++ (' ' :: (b ++ " with ".toList ++ g)) := by
    simp [String.toList]
  have hbp : Contains b "presents:".toList = false :=
    Contains_map_toLower b _ (by decide) hbpres
  have hrest : Contains (' ' :: (b ++ " with ".toList ++ g)) "presents:".toList = false := by
    have e : ' ' :: (b ++ " with ".toList ++ g)
        = [] ++ ' ' :: (b ++ ' ' :: ("with".toList ++ ' ' :: g)) := by
      simp [String.toList]
    rw [e]
    exact not_Contains_append_char _ _ _ ' ' (by decide) (by decide)
      (not_Contains_append_char _ _ _ ' ' (by decide) hbp
        (not_Contains_append_char _ _ _ ' ' (by decide) (by decide) hg))
  have hidx := Index_first (p ++ [' ']) "presents:".toList (' ' :: (b ++ " with ".toList ++ g))
    (presents_first p _ hp)
  have hcont : Contains (p ++ " presents: ".toList ++ b ++ " with ".toList ++ g)
      "presents:".toList = true := by
    rw [hT]
    unfold Contains
    rw [hidx]
    rfl
  have hsplit := Split_once (p ++ [' ']) "presents:".toList
    (' ' :: (b ++ " with ".toList ++ g)) (by decide) hidx
    (Index_none_of_not_Contains _ _ hrest)
  -- the part after `presents:`, trimmed
  obtain ⟨b0, b', rfl⟩ := List.exists_cons_of_ne_nil hbne
  have hb0 : isSpace b0 = false := TrimSpace_head _ b0 b' hbtrim
  have hglast : ∀ d ∈ (b0 :: (b' ++ " with ".toList ++ g)).getLast?, isSpace d = false := by
    intro d hd
    have e : b0 :: (b' ++ " with ".toList ++ g) = (b0 :: b' ++ " with ".toList) ++ g := by simp
    rw [e, List.getLast?_append_of_ne_nil _ hgne] at hd
    exact TrimSpace_last g d (by rw [hgtrim]; exact hd)
  have htrim : TrimSpace (' ' :: (b0 :: b' ++ " with ".toList ++ g))
      = b0 :: b' ++ " with ".toList ++ g := by
    rw [TrimSpace_cons_space _ _ (by decide)]
    exact TrimSpace_cons_of_ends b0 _ hb0 hglast
  -- the lower-cased text and the place of ` with `
  have hlow : ToLower U (b0 :: b' ++ " with ".toList ++ g)
      = (b0 :: b').map Char.toLower ++ " with ".toList ++ ToLower U g := by
    have e1 : ToLower U (b0 :: b') = (b0 :: b').map Char.toLower := ToLower_ascii U _ hascii
    have e2 : ToLower U " with ".toList = " with ".toList := by
      rw [ToLower_ascii U _ (by decide)]
      decide
    unfold ToLower at e1 e2 ⊢
    rw [List.map_append, List.map_append, e1, e2]
  have hwidx := Index_first ((b0 :: b').map Char.toLower) " with ".toList (ToLower U g)
    (with_first _ _ hbwith)
  have hlen : len (((b0 :: b').map Char.toLower ++ " with ".toList ++ ToLower U g).take
      ((b0 :: b').map Char.toLower).length) = (b0 :: b').length := by
    rw [List.append_assoc, List.take_left]
    have hla : ∀ c ∈ (b0 :: b').map Char.toLower, c.toNat < 128 := by
      intro c hc
      obtain ⟨d, hd, rfl⟩ := List.mem_map.1 hc
      exact toLower_lt_128 d (hascii d hd)
    rw [len_ascii _ hla, List.length_map]
  unfold clinton_street_theater.cleanMovieTitle
  simp only [hcont, if_true]
  rw [hT, hsplit]
  simp only [htrim, hlow]
  have hc2 : Contains ((b0 :: b').map Char.toLower ++ " with ".toList ++ ToLower U g)
      " with ".toList = true := by
    unfold Contains
    rw [hwidx]
    rfl
  simp only [hc2, if_true, hwidx, hlen]
  have hpos : (b0 :: b').length > 0 := by simp
  simp only [hpos, if_true]
  have hs : sliceTo (b0 :: b' ++ " with ".toList ++ g) (b0 :: b').length = .ok (b0 :: b') := by
    have := sliceTo_ascii (b0 :: b') (" with ".toList ++ g) hascii
    simpa only [List.append_assoc] using this
  rw [hs]
  simp only [hbtrim]
  rw [removeYearSpans_id _ hopen, removeTag_id _ hopen, hbtrim]

theorem cleanMovieTitle_presenter_guest_witness :
    clinton_street_theater.cleanMovieTitle asciiCase
      ("Church of Film".toList ++ " presents: ".toList ++ "Eraserhead".toList ++
        " with ".toList ++ "David Lynch".toList) = .ok "Eraserhead".toList :=
  cleanMovieTitle_presenter_guest asciiCase "Church of Film".toList "Eraserhead".toList
    "David Lynch".toList (by decide) (by decide) (by decide) (by decide) (by decide) (by decide)
    (by decide) (by decide) (by decide) (by decide) (by decide)

end TheaterShowtimes
